import Mathlib

/-! ## Portfolio (collection) support of a PDF document: schema registry and entry index

A shallow embedding of `source/pdf/pdf-portfolio.c`.

Conventions of the embedding.

* `int` values are `Int`.  List positions, ranks and counters stay far below
  `2^31` for any document that fits in memory, so they are not wrapped; the one
  place where a caller supplied magnitude is narrowed, the `int len` of
  `pdf_add_portfolio_entry`, is wrapped explicitly (`to_int`).
* The linked list `doc->portfolio` is a `List pdf_portfolio`; `NULL` is `[]`.
* Dictionaries of a fixed shape are structures whose fields are the recognised
  attribute names; the descriptor dictionary `p->val` of a schema field and the
  value object of an index pair are held by value (no two list cells or index
  pairs share one object).
* Name tree nodes live in a heap `List Node` and are referred to by position,
  so that `Kids` can form an arbitrary finite graph, cycles included.  A
  reference past the end of the heap behaves as the null object.
* `fz_throw` is an `Except.error`; state changed before a throw is kept.
* A visitor is a total function: it returns the flag, the value object as it leaves it and
  `arg` as it leaves it, and touches nothing else.
* The schema container holds the descriptor dictionaries as they were read or put; the code
  reads them only in `load_portfolio`, while `doc->portfolio` is empty.
* `do_name_tree_map` takes a bound on the depth of its recursion; `pdf_name_tree_map` runs it
  with the number of objects plus one, which is shown to be enough for every heap.
* As value objects are held by value, a write through the pointer that a lookup has returned
  (`pdf_set_portfolio_entry_info`) is made in the slot from which the lookup captured the
  object: the traversal is run again with a visitor that leaves the written object there.
-/

namespace Portfolio

/-! ## Object model -/

/-- Errors raised with `fz_throw`; constructor names follow the taxonomy of the
specification, the comment gives the message of the source. -/
inductive fz_error where
  /-- thrown as "entry out of range in ...", "schema_entry out of range" -/
  | IndexOutOfRange
  /-- thrown as "Malformed Names array" -/
  | MalformedInput
  /-- thrown as "Recursive name tree!" -/
  | RecursiveStructure
  /-- thrown as "Can't set size!" -/
  | ReadOnlyField
  /-- thrown as "Can't set info on non existent portfolio entry" -/
  | NoSuchEntry
  /-- failure of an object model call applied to an object of the wrong kind -/
  | NotADict
  /-- dereference of a null pointer: not a throw, the behaviour of the C code is undefined -/
  | NullDeref
  deriving DecidableEq

/-- Scalar objects that occur as attribute values. -/
inductive Atom where
  | null
  | bool (b : Bool)
  | int (n : Int)
  | str (s : String)
  | name (s : String)
  deriving DecidableEq

/-- Cases of the `type` member of `pdf_portfolio_schema`. -/
inductive schema_type where
  | PDF_SCHEMA_NUMBER
  | PDF_SCHEMA_SIZE
  | PDF_SCHEMA_TEXT
  | PDF_SCHEMA_DATE
  | PDF_SCHEMA_DESC
  | PDF_SCHEMA_MODDATE
  | PDF_SCHEMA_CREATIONDATE
  | PDF_SCHEMA_FILENAME
  | PDF_SCHEMA_UNKNOWN
  deriving DecidableEq

/-- Modelled from the spec: the structure `pdf_portfolio_schema` is declared in a header that
is not part of the sources; its members are the ones the code reads and writes
(`type`, `visible`, `editable`, `name`). -/
structure pdf_portfolio_schema where
  type : schema_type
  visible : Int
  editable : Int
  name : Option String
  deriving DecidableEq

/-- Field descriptor dictionary of the schema container:
`{Subtype, N, E, V, O}`; `none` is an absent attribute. -/
structure SchemaDict where
  Subtype : Option String
  N : Option String
  E : Option Bool
  V : Option Bool
  O : Option Int
  deriving DecidableEq

/-- The cell `struct pdf_portfolio_s` without the `next` pointer. -/
structure pdf_portfolio where
  key : String
  val : SchemaDict
  sort : Int
  entry : pdf_portfolio_schema
  deriving DecidableEq

/-- Stream parameter dictionary `Params`. -/
structure ParamsDict where
  Size : Atom
  ModDate : Atom
  CreationDate : Atom
  deriving DecidableEq

/-- Embedded file stream: its dictionary attributes and its content. -/
structure StreamObj where
  DL : Atom
  Length : Atom
  Params : Option ParamsDict
  data : List Nat
  deriving DecidableEq

/-- Entry value object (file specification):
`{CI, EF:{F: stream}, F, UF, Desc, Type}` (`Typ` is the attribute `Type`).
`CI` is the map from schema field key to value, `EF` holds the stream `EF/F` when the `EF` dictionary is present. -/
structure FileSpec where
  CI : Option (List (String × Atom))
  EF : Option (Option StreamObj)
  F : Atom
  UF : Atom
  Desc : Atom
  Typ : Atom
  deriving DecidableEq

/-- Objects stored in the slots of a `Names` array. -/
inductive pdf_obj where
  | null
  | str (s : String)
  | dict (d : FileSpec)
  deriving DecidableEq

/-- Name tree node `{Kids, Names, Limits}` together with the mark flag of the object.
An absent array is the empty list (`pdf_array_len` of the null object is 0). -/
structure Node where
  Kids : List Nat
  Names : List pdf_obj
  Limits : List pdf_obj
  marked : Bool
  deriving DecidableEq

/-- The part of `pdf_document` the portfolio code touches: the version, the schema container
`Root/Collection/Schema` (outer `none`: no `Collection`, inner `none`: no `Schema`), the cached
list `doc->portfolio`, the object heap and the reference `Root/Names/EmbeddedFiles`. -/
structure pdf_document where
  version : Int
  Collection : Option (Option (List (String × SchemaDict)))
  portfolio : List pdf_portfolio
  heap : List Node
  EmbeddedFiles : Option Nat
  deriving DecidableEq

/-- Result of an operation that may throw: the document as left behind and the outcome. -/
abbrev Outcome (α : Type) := pdf_document × Except fz_error α

/-! ## Schema registry -/

/-- Modelled from the spec: `pdf_dict_getl(trailer, Root, Collection, Schema)`, the entries of
the schema container in dictionary order; a missing container reads as empty. -/
def schema_entries (doc : pdf_document) : List (String × SchemaDict) :=
  match doc.Collection with
  | some (some s) => s
  | _ => []

/-- Subtype dispatch of `load_portfolio` (the chain of `strcmp`). -/
def schema_type_of (subtype : String) : schema_type :=
  if subtype = "S" then .PDF_SCHEMA_TEXT
  else if subtype = "D" then .PDF_SCHEMA_DATE
  else if subtype = "N" then .PDF_SCHEMA_NUMBER
  else if subtype = "F" then .PDF_SCHEMA_FILENAME
  else if subtype = "Desc" then .PDF_SCHEMA_DESC
  else if subtype = "ModDate" then .PDF_SCHEMA_MODDATE
  else if subtype = "CreationDate" then .PDF_SCHEMA_CREATIONDATE
  else if subtype = "Size" then .PDF_SCHEMA_SIZE
  else .PDF_SCHEMA_UNKNOWN

/-- Body of the `for` loop of `load_portfolio` up to the comment "Now insert p":
the list cell built from a container entry. -/
def load_cell (k : String) (v : SchemaDict) : pdf_portfolio :=
  { key := k
    val := v
    sort := v.O.getD 0
    entry :=
      { type := schema_type_of (v.Subtype.getD "")
        visible := if v.V.getD true then 1 else 0
        editable := if v.E.getD false then 1 else 0
        name := v.N } }

/-- The code after "Now insert p":
`while (*pp && (*pp)->sort <= p->sort) pp = &(*pp)->next;` and the splice. -/
def load_insert (p : pdf_portfolio) : List pdf_portfolio → List pdf_portfolio
  | [] => [p]
  | q :: qs => if q.sort ≤ p.sort then q :: load_insert p qs else p :: q :: qs

/-- Model of `load_portfolio`. -/
def load_portfolio (doc : pdf_document) : pdf_document :=
  if doc.portfolio ≠ [] then doc
  else
    { doc with
      portfolio :=
        (schema_entries doc).foldl (fun acc kv => load_insert (load_cell kv.1 kv.2) acc) [] }

/-- Model of `pdf_count_portfolio_schema`. -/
def pdf_count_portfolio_schema (doc : pdf_document) : pdf_document × Int :=
  let doc := load_portfolio doc
  (doc, doc.portfolio.length)

/-- The pointer walk `while (*pp && entry > 0) pp = &(*pp)->next, entry--;`:
the cells passed, the list from `*pp` on, and the value left in `entry`. -/
def seek : List pdf_portfolio → Int → List pdf_portfolio × List pdf_portfolio × Int
  | [], e => ([], [], e)
  | p :: ps, e =>
    if e > 0 then
      let r := seek ps (e - 1)
      (p :: r.1, r.2.1, r.2.2)
    else ([], p :: ps, e)

/-- The loops "Rewrite the underlying orderings" of `pdf_reorder_portfolio_schema`:
`pdf_dict_put_int(ctx, p->val, PDF_NAME(O), entry)` with `entry` counting from `start`. -/
def rewrite_orderings : List pdf_portfolio → Int → List pdf_portfolio
  | [], _ => []
  | p :: ps, n => { p with val := { p.val with O := some n } } :: rewrite_orderings ps (n + 1)

/-- The loop "Renumber the schema entries" of `pdf_add_portfolio_schema`:
as `rewrite_orderings`, and `p->sort = num` as well. -/
def renumber : List pdf_portfolio → Int → List pdf_portfolio
  | [], _ => []
  | p :: ps, n =>
    { p with val := { p.val with O := some n }, sort := n } :: renumber ps (n + 1)

/-- Model of `pdf_portfolio_schema_info`. -/
def pdf_portfolio_schema_info (doc : pdf_document) (entry : Int) : Outcome pdf_portfolio_schema :=
  let doc := load_portfolio doc
  match seek doc.portfolio entry with
  | (_, [], _) => (doc, .error .IndexOutOfRange)
  | (_, p :: _, e) =>
    if e ≠ 0 then (doc, .error .IndexOutOfRange) else (doc, .ok p.entry)

/-- Model of `pdf_reorder_portfolio_schema`. -/
def pdf_reorder_portfolio_schema (doc : pdf_document) (entry new_pos : Int) : Outcome Unit :=
  let doc := load_portfolio doc
  match seek doc.portfolio entry with
  | (_, [], _) => (doc, .error .IndexOutOfRange)
  | (pre, p :: rest, e) =>
    if e ≠ 0 then (doc, .error .IndexOutOfRange)
    else
      let l := pre ++ rest
      let r := seek l new_pos
      let l := r.1 ++ p :: r.2.1
      ({ doc with portfolio := rewrite_orderings l 0 }, .ok ())

/-- Model of `pdf_rename_portfolio_schema`; the name is the string made of `name`, `name_len`. -/
def pdf_rename_portfolio_schema (doc : pdf_document) (entry : Int) (name : String) :
    Outcome Unit :=
  let doc := load_portfolio doc
  match seek doc.portfolio entry with
  | (_, [], _) => (doc, .error .IndexOutOfRange)
  | (pre, p :: rest, e) =>
    if e ≠ 0 then (doc, .error .IndexOutOfRange)
    else
      let p := { p with entry := { p.entry with name := some name },
                        val := { p.val with N := some name } }
      ({ doc with portfolio := pre ++ p :: rest }, .ok ())

/-! ## Name tree traversal -/

/-- The null object read as a dictionary: no attribute, no mark. -/
def null_node : Node := { Kids := [], Names := [], Limits := [], marked := false }

/-- The object a reference resolves to. -/
def node_at (h : List Node) (t : Nat) : Node := (h[t]?).getD null_node

/-- Modelled from the spec: `pdf_mark_obj` (mark a container, cycle detection) is part of the
object model; it returns the previous mark and sets it. This is the returned value. -/
def is_marked (h : List Node) (t : Nat) : Bool := (node_at h t).marked

/-- Modelled from the spec: the effect of `pdf_mark_obj` on the object. -/
def pdf_mark_obj (h : List Node) (t : Nat) : List Node :=
  h.set t { node_at h t with marked := true }

/-- Modelled from the spec: `pdf_unmark_obj` (unmark a container). -/
def pdf_unmark_obj (h : List Node) (t : Nat) : List Node :=
  h.set t { node_at h t with marked := false }

/-- Modelled from the spec: `pdf_array_get` on a sequence of objects, null when out of range. -/
def pdf_array_get (arr : List pdf_obj) (i : Nat) : pdf_obj := (arr[i]?).getD .null

/-- Replace the `Kids` array content of node `t`. -/
def set_kids (h : List Node) (t : Nat) (ks : List Nat) : List Node :=
  h.set t { node_at h t with Kids := ks }

/-- Replace the `Names` array content of node `t`. -/
def set_names (h : List Node) (t : Nat) (ns : List pdf_obj) : List Node :=
  h.set t { node_at h t with Names := ns }

/-- Replace the `Limits` array content of node `t`. -/
def set_limits (h : List Node) (t : Nat) (ls : List pdf_obj) : List Node :=
  h.set t { node_at h t with Limits := ls }

/-- The visitor type `pdf_name_tree_map_fn`: from container, key, val and `arg` to the
returned flag (non-zero: delete the pair), the value object as the call leaves it, and `arg`
as the call leaves it. -/
abbrev pdf_name_tree_map_fn (σ : Type) := Nat → pdf_obj → pdf_obj → σ → Bool × pdf_obj × σ

/-- State after a call of `do_name_tree_map`: the heap, `arg`, and the returned flag or the
error thrown. -/
structure MapResult (σ : Type) where
  heap : List Node
  arg : σ
  res : Except fz_error Bool

/-- The loop over `Names` of `do_name_tree_map`,
`for (i = m; i > 0;) { i -= 2; if (fn(...)) { delete i+1; delete i; m -= 2; } }`,
by the number `c` of iterations left, so that `i = 2 * c` after `i -= 2` in the iteration
`c + 1`; `pdf_array_delete` is `List.eraseIdx`. The value object is written back to its slot
as the visitor leaves it. -/
def names_loop {σ : Type} (fn : pdf_name_tree_map_fn σ) (tree : Nat) :
    Nat → List pdf_obj → Int → σ → List pdf_obj × Int × σ
  | 0, arr, m, a => (arr, m, a)
  | c + 1, arr, m, a =>
    let i := 2 * c
    let r := fn tree (pdf_array_get arr i) (pdf_array_get arr (i + 1)) a
    let arr := arr.set (i + 1) r.2.1
    if r.1 then names_loop fn tree c ((arr.eraseIdx (i + 1)).eraseIdx i) (m - 2) r.2.2
    else names_loop fn tree c arr m r.2.2

/-- The loop over `Kids` of `do_name_tree_map`,
`for (i = n; i > 0;) { i--; if (do_name_tree_map(kid i)) { delete i; n--; } }`;
`call` is the recursive call and `pdf_array_delete` is `List.eraseIdx`. The array is read from
the heap at each iteration. Were the slot `i` missing, `pdf_array_get` would give the null
object, on which the call returns 1 without effect. -/
def kids_loop {σ : Type} (call : Nat → List Node → σ → Option (MapResult σ)) (tree : Nat) :
    Nat → Int → List Node → σ → Option (List Node × σ × Except fz_error Int)
  | 0, n, h, a => some (h, a, .ok n)
  | i + 1, n, h, a =>
    match (node_at h tree).Kids[i]? with
    | none => kids_loop call tree i (n - 1) h a
    | some kid =>
      match call kid h a with
      | none => none
      | some r =>
        match r.res with
        | .error e => some (r.heap, r.arg, .error e)
        | .ok true =>
          kids_loop call tree i (n - 1)
            (set_kids r.heap tree ((node_at r.heap tree).Kids.eraseIdx i)) r.arg
        | .ok false => kids_loop call tree i n r.heap r.arg

/-- Model of `do_name_tree_map`. The first argument bounds the depth of the recursion;
`none` is returned when it is exhausted. -/
def do_name_tree_map {σ : Type} (fn : pdf_name_tree_map_fn σ) :
    Nat → Nat → List Node → σ → Option (MapResult σ)
  | 0, _, _, _ => none
  | fuel + 1, tree, h, a =>
    if is_marked h tree then some ⟨h, a, .error .RecursiveStructure⟩
    else
      let h := pdf_mark_obj h tree
      let n := (node_at h tree).Kids.length
      match kids_loop (do_name_tree_map fn fuel) tree n n h a with
      | none => none
      | some (h, a, .error e) => some ⟨pdf_unmark_obj h tree, a, .error e⟩
      | some (h, a, .ok n) =>
        let arr := (node_at h tree).Names
        let m := arr.length
        if m % 2 = 1 then some ⟨pdf_unmark_obj h tree, a, .error .MalformedInput⟩
        else
          let r := names_loop fn tree (m / 2) arr m a
          let h := set_names h tree r.1
          some ⟨pdf_unmark_obj h tree, r.2.2, .ok (n == 0 && r.2.1 == 0)⟩

/-- Model of `pdf_name_tree_map`. The recursion of `do_name_tree_map` is never deeper than the
number of objects plus one, as each level marks one more object. -/
def pdf_name_tree_map {σ : Type} (fn : pdf_name_tree_map_fn σ) (tree : Nat) (h : List Node)
    (a : σ) : Option (MapResult σ) :=
  do_name_tree_map fn (h.length + 1) tree h a

/-- Traversal of the tree a document refers to; the null tree is traversed without effect
and the call of `do_name_tree_map` returns 1. -/
def map_tree {σ : Type} (fn : pdf_name_tree_map_fn σ) (tree : Option Nat) (h : List Node)
    (a : σ) : Option (MapResult σ) :=
  match tree with
  | none => some ⟨h, a, .ok true⟩
  | some t => pdf_name_tree_map fn t h a

/-! ## Visitors -/

/-- Modelled from the spec: `pdf_dict_del`, remove an entry by key from a map. -/
def pdf_dict_del {β : Type} (d : List (String × β)) (key : String) : List (String × β) :=
  d.filter (fun kv => kv.1 ≠ key)

/-- Modelled from the spec: `pdf_dict_get` by key in a map, first entry with the key. -/
def pdf_dict_get {β : Type} (d : List (String × β)) (key : String) : Option β :=
  (d.find? (fun kv => kv.1 = key)).map Prod.snd

/-- Modelled from the spec: `pdf_dict_put` by key in a map: the value of an existing entry
is replaced, a new entry is appended. -/
def pdf_dict_put {β : Type} (d : List (String × β)) (key : String) (v : β) :
    List (String × β) :=
  if d.any (fun kv => kv.1 = key) then d.map (fun kv => if kv.1 = key then (key, v) else kv)
  else d ++ [(key, v)]

/-- The effect of `pdf_dict_del(ctx, pdf_dict_get(ctx, val, PDF_NAME(CI)), delete_key)` on the
value object; a value without `CI` dictionary is left as it is. -/
def del_ci (val : pdf_obj) (delete_key : String) : pdf_obj :=
  match val with
  | .dict d => .dict { d with CI := d.CI.map (fun ci => pdf_dict_del ci delete_key) }
  | v => v

/-- Model of `delete_from_node`; `arg` is the key to delete. -/
def delete_from_node : pdf_name_tree_map_fn String :=
  fun _ _ val delete_key => (false, del_ci val delete_key, delete_key)

/-- Model of `count_nodes`; `arg` is the counter. -/
def count_nodes : pdf_name_tree_map_fn Int :=
  fun _ _ val count => (false, val, count + 1)

/-- The record `struct find_data` of the positional lookup. -/
structure find_data where
  key : pdf_obj
  val : pdf_obj
  count : Int
  deriving DecidableEq

/-- Model of `find_entry`. -/
def find_entry : pdf_name_tree_map_fn find_data :=
  fun _ key val data =>
    let data := if data.count = 0 then { data with key := key, val := val } else data
    (false, val, { data with count := data.count - 1 })

/-- The record `find_data` of the insertion: `found` and `last` are node references,
`none` for `NULL`. -/
structure find_pos_data where
  key : pdf_obj
  found : Option Nat
  found_index : Int
  last : Option Nat
  last_index : Int
  entry : Int
  deriving DecidableEq

/-- Lexicographic comparison of two character sequences by character code:
negative, zero or positive. -/
def chars_cmp : List Char → List Char → Int
  | [], [] => 0
  | [], _ :: _ => -1
  | _ :: _, [] => 1
  | a :: s, b :: t =>
    if a.toNat < b.toNat then -1 else if b.toNat < a.toNat then 1 else chars_cmp s t

/-- Modelled from the spec: `pdf_objcmp`, the comparison of two key objects for a total order;
on strings it is the lexicographic order, objects of other kinds compare as unequal (1)
unless they are the same. -/
def pdf_objcmp : pdf_obj → pdf_obj → Int
  | .str a, .str b => chars_cmp a.data b.data
  | a, b => if a = b then 0 else 1

/-- Model of `find_position`. -/
def find_position : pdf_name_tree_map_fn find_pos_data :=
  fun container key val data =>
    if data.found ≠ none then (false, val, data)
    else
      let data := { data with entry := data.entry + 1 }
      let data :=
        if data.last ≠ some container then { data with last := some container, last_index := 0 }
        else { data with last_index := data.last_index + 1 }
      let data :=
        if pdf_objcmp key data.key > 0 then
          { data with found := some container, found_index := data.last_index }
        else data
      (false, val, data)

/-! ## Insertion into the name tree -/

/-- Modelled from the spec: `pdf_array_insert`, insert into an ordered sequence at an index
between 0 and the length; any other index is an error of the object model. -/
def pdf_array_insert (arr : List pdf_obj) (obj : pdf_obj) (i : Int) :
    Except fz_error (List pdf_obj) :=
  if i < 0 ∨ i > arr.length then .error .IndexOutOfRange
  else .ok (arr.take i.toNat ++ obj :: arr.drop i.toNat)

/-- Modelled from the spec: `pdf_array_put`, overwrite the slot at an index below the length,
append at the index equal to the length; any other index is an error of the object model. -/
def pdf_array_put (arr : List pdf_obj) (i : Nat) (obj : pdf_obj) :
    Except fz_error (List pdf_obj) :=
  if i < arr.length then .ok (arr.set i obj)
  else if i = arr.length then .ok (arr ++ [obj])
  else .error .IndexOutOfRange

/-- Modelled from the spec: `pdf_is_string`. -/
def pdf_is_string : pdf_obj → Bool
  | .str _ => true
  | _ => false

/-- The choice of the target in `pdf_name_tree_insert`: the node `data.found`, else
the node `data.last`, else ("Completely empty name tree!") the root, after fresh `Names` and
`Limits` arrays have been put on it. Returns the heap, the target and `data.found_index`. -/
def insert_target (h : List Node) (tree : Nat) (data : find_pos_data) : List Node × Nat × Int :=
  match data.found with
  | some found => (h, found, data.found_index)
  | none =>
    match data.last with
    | some last => (h, last, data.last_index)
    | none => (set_limits (set_names h tree []) tree [], tree, 0)

/-- The splice of `pdf_name_tree_insert`: the two calls of `pdf_array_insert` on `Names` of the
target `found` and the update of its `Limits`. Returns the heap and `entry`. -/
def insert_splice (h : List Node) (found : Nat) (key val : pdf_obj) (found_index entry : Int) :
    List Node × Except fz_error Int :=
  match pdf_array_insert (node_at h found).Names key (2 * found_index) with
  | .error e => (h, .error e)
  | .ok names =>
    let h := set_names h found names
    match pdf_array_insert names val (2 * found_index + 1) with
    | .error e => (h, .error e)
    | .ok names =>
      let h := set_names h found names
      let limits := (node_at h found).Limits
      let limit0 := pdf_array_get limits 0
      let limit1 := pdf_array_get limits 1
      let r0 : Except fz_error (List pdf_obj) :=
        if !pdf_is_string limit0 || found_index == 0 then pdf_array_put limits 0 key
        else .ok limits
      match r0 with
      | .error e => (h, .error e)
      | .ok limits =>
        let h := set_limits h found limits
        let r1 : Except fz_error (List pdf_obj) :=
          if !pdf_is_string limit1 || 2 * (found_index + 1) == (limits.length : Int) then
            pdf_array_put limits 1 key
          else .ok limits
        match r1 with
        | .error e => (h, .error e)
        | .ok limits => (set_limits h found limits, .ok entry)

/-- The part of `pdf_name_tree_insert` after the traversal. Returns the heap and
`data.entry`. -/
def insert_at (h : List Node) (tree : Nat) (key val : pdf_obj) (data : find_pos_data) :
    List Node × Except fz_error Int :=
  let t := insert_target h tree data
  insert_splice t.1 t.2.1 key val t.2.2 data.entry

/-- Model of `pdf_name_tree_insert`. -/
def pdf_name_tree_insert (h : List Node) (tree : Nat) (key val : pdf_obj) :
    Option (List Node × Except fz_error Int) :=
  match pdf_name_tree_map find_position tree h
      { key := key, found := none, found_index := 0, last := none, last_index := 0,
        entry := 0 } with
  | none => none
  | some r =>
    match r.res with
    | .error e => some (r.heap, .error e)
    | .ok _ => some (insert_at r.heap tree key val r.arg)

/-! ## Schema registry: delete and add -/

/-- Model of `pdf_delete_portfolio_schema`. -/
def pdf_delete_portfolio_schema (doc : pdf_document) (entry : Int) : Option (Outcome Unit) :=
  let doc := load_portfolio doc
  match seek doc.portfolio entry with
  | (_, [], _) => some (doc, .error .IndexOutOfRange)
  | (pre, p :: rest, e) =>
    if e ≠ 0 then some (doc, .error .IndexOutOfRange)
    else
      let doc := { doc with portfolio := pre ++ rest }
      -- "Delete the key from the schema"
      let doc :=
        { doc with Collection := doc.Collection.map (Option.map (fun s => pdf_dict_del s p.key)) }
      -- "Delete this entry from all the collection entries"
      match map_tree delete_from_node doc.EmbeddedFiles doc.heap p.key with
      | none => none
      | some r =>
        match r.res with
        | .error e => some ({ doc with heap := r.heap }, .error e)
        | .ok _ => some ({ doc with heap := r.heap }, .ok ())

/-- Modelled from the spec: `fz_snprintf(str_name, sizeof str_name, "%d", num)`, the decimal
string of an integer. -/
def fz_snprintf_d (num : Int) : String := toString num

/-- The loop `do { num++; ... } while (p);` of `pdf_add_portfolio_schema`: the first `num`
above the given one whose decimal string is the key of no cell; the first argument bounds the
number of iterations. -/
def find_name (keys : List String) : Nat → Int → Option (Int × String)
  | 0, _ => none
  | fuel + 1, num =>
    let num := num + 1
    let num_name := fz_snprintf_d num
    if keys.any (fun k => k = num_name) then find_name keys fuel num
    else some (num, num_name)

/-- Model of `pdf_add_portfolio_schema`. The probing loop is run for at most one iteration
more than there are cells. -/
def pdf_add_portfolio_schema (doc : pdf_document) (entry : Int) (info : pdf_portfolio_schema) :
    Option (Outcome Unit) :=
  let doc := load_portfolio doc
  let r := seek doc.portfolio entry
  match find_name (doc.portfolio.map (fun p => p.key)) (doc.portfolio.length + 1) 0 with
  | none => none
  | some (_, num_name) =>
    let sc : SchemaDict :=
      { E := some (info.editable ≠ 0), V := some (info.visible ≠ 0), N := info.name,
        Subtype := some "S", O := none }
    -- "Add to our linked list (in the correct sorted place)"
    let p : pdf_portfolio := { entry := info, sort := 0, key := num_name, val := sc }
    let doc := { doc with portfolio := r.1 ++ p :: r.2.1 }
    -- "Add the key to the schema"
    match doc.Collection with
    | some (some s) =>
      let doc := { doc with Collection := some (some (pdf_dict_put s num_name sc)) }
      -- "Renumber the schema entries"
      some ({ doc with portfolio := renumber doc.portfolio 0 }, .ok ())
    | _ => some (doc, .error .NotADict)

/-! ## Portfolio entries -/

/-- Model of `pdf_count_portfolio_entries`. -/
def pdf_count_portfolio_entries (doc : pdf_document) : Option (Outcome Int) :=
  let doc := load_portfolio doc
  match map_tree count_nodes doc.EmbeddedFiles doc.heap 0 with
  | none => none
  | some r =>
    match r.res with
    | .error e => some ({ doc with heap := r.heap }, .error e)
    | .ok _ => some ({ doc with heap := r.heap }, .ok r.arg)

/-- Model of `pdf_portfolio_entry_obj_name`: returns the name (`*name`) and the value object
of the entry, both null when the traversal captures nothing. -/
def pdf_portfolio_entry_obj_name (doc : pdf_document) (entry : Int) :
    Option (Outcome (pdf_obj × pdf_obj)) :=
  let doc := load_portfolio doc
  match map_tree find_entry doc.EmbeddedFiles doc.heap
      { count := entry, key := .null, val := .null } with
  | none => none
  | some r =>
    match r.res with
    | .error e => some ({ doc with heap := r.heap }, .error e)
    | .ok _ => some ({ doc with heap := r.heap }, .ok (r.arg.key, r.arg.val))

/-- Attribute of an entry value object or of its stream parameters, `pdf_dict_get(obj, lookup)`
after the optional `pdf_dict_getl(obj, EF, F, Params)`; null when absent. -/
def params_of (d : FileSpec) : Option ParamsDict :=
  match d.EF with
  | some (some f) => f.Params
  | _ => none

/-- The `switch` and the lookups of `pdf_portfolio_entry_info` for a dictionary `obj` and the
cell `p`. -/
def entry_info_lookup (d : FileSpec) (p : pdf_portfolio) : Atom :=
  match p.entry.type with
  | .PDF_SCHEMA_FILENAME => if d.UF = .null then d.F else d.UF
  | .PDF_SCHEMA_DESC => d.Desc
  | .PDF_SCHEMA_MODDATE => ((params_of d).map (fun q => q.ModDate)).getD .null
  | .PDF_SCHEMA_CREATIONDATE => ((params_of d).map (fun q => q.CreationDate)).getD .null
  | .PDF_SCHEMA_SIZE => ((params_of d).map (fun q => q.Size)).getD .null
  | _ => ((d.CI.bind (fun ci => pdf_dict_get ci p.key))).getD .null

/-- Model of `pdf_portfolio_entry_info`. The `for` loop leaves `p` null when it runs off the
list; `p->entry.type` is then a null dereference. -/
def pdf_portfolio_entry_info (doc : pdf_document) (entry schema_entry : Int) :
    Option (Outcome Atom) :=
  match pdf_portfolio_entry_obj_name doc entry with
  | none => none
  | some (doc, .error e) => some (doc, .error e)
  | some (doc, .ok (_, obj)) =>
    if obj = .null then some (doc, .ok .null)
    else
      let r := seek doc.portfolio schema_entry
      if r.2.2 ≠ 0 then some (doc, .error .IndexOutOfRange)
      else
        match r.2.1 with
        | [] => some (doc, .error .NullDeref)
        | p :: _ =>
          match obj with
          | .dict d => some (doc, .ok (entry_info_lookup d p))
          | _ => some (doc, .ok .null)

/-- The conversion of a length to `int` in `len = fz_buffer_storage(ctx, buf, NULL)`:
the value modulo `2^32` in the range of a 32 bit `int`. -/
def to_int (n : Nat) : Int := ((n : Int) + 2147483648) % 4294967296 - 2147483648

/-- The entry value object built by `pdf_add_portfolio_entry`. -/
def new_filespec (desc filename : String) (buf : List Nat) : FileSpec :=
  let len := to_int buf.length
  { CI := some []
    EF := some (some
      { DL := .int len, Length := .int len,
        Params := some { Size := .int len, ModDate := .null, CreationDate := .null },
        data := buf })
    F := .str filename
    UF := .str filename
    Desc := .str desc
    Typ := .name "Filespec" }

/-- The lookup of `Root/Names/EmbeddedFiles` in `pdf_add_portfolio_entry` and, when it is
null, the creation of a new dictionary there: the document and the tree `s`. -/
def ensure_index (doc : pdf_document) : pdf_document × Nat :=
  match doc.EmbeddedFiles with
  | some s => (doc, s)
  | none =>
    ({ doc with heap := doc.heap ++ [null_node], EmbeddedFiles := some doc.heap.length },
      doc.heap.length)

/-- Model of `pdf_add_portfolio_entry`; `buf` is the content of the buffer. -/
def pdf_add_portfolio_entry (doc : pdf_document) (name desc filename : String)
    (buf : List Nat) : Option (Outcome Int) :=
  let doc := load_portfolio doc
  -- "Portfolios were introduced in PDF 1.7."
  let doc := { doc with version := if doc.version < 17 then 17 else doc.version }
  let key := pdf_obj.str name
  let val := pdf_obj.dict (new_filespec desc filename buf)
  let doc :=
    { doc with Collection := if doc.Collection = none then some none else doc.Collection }
  let ds := ensure_index doc
  match pdf_name_tree_insert ds.1.heap ds.2 key val with
  | none => none
  | some (h, .error e) => some ({ ds.1 with heap := h }, .error e)
  | some (h, .ok entry) => some ({ ds.1 with heap := h }, .ok entry)

/-- The writes of `pdf_set_portfolio_entry_info` that go to the stream parameters:
`obj = pdf_dict_getl(ctx, obj, EF, F, Params)` and `pdf_dict_put(ctx, obj, lookup, data)`;
when the parameter dictionary is missing the put is applied to the null object and throws. -/
def store_params (d : FileSpec) (f : ParamsDict → ParamsDict) : Except fz_error pdf_obj :=
  match d.EF with
  | some (some s) =>
    match s.Params with
    | some q => .ok (.dict { d with EF := some (some { s with Params := some (f q) }) })
    | none => .error .NotADict
  | _ => .error .NotADict

/-- The `switch` and the writes of `pdf_set_portfolio_entry_info` for the object `obj` and the
cell `p`: the object as the writes leave it. `pdf_dict_putl` creates the `CI` dictionary when
it is absent; a put into an object that is not a dictionary throws. -/
def entry_info_store (obj : pdf_obj) (p : pdf_portfolio) (data : Atom) :
    Except fz_error pdf_obj :=
  match p.entry.type with
  | .PDF_SCHEMA_SIZE => .error .ReadOnlyField
  | .PDF_SCHEMA_FILENAME =>
    match obj with
    | .dict d => .ok (.dict { d with UF := data, F := data })
    | _ => .error .NotADict
  | .PDF_SCHEMA_DESC =>
    match obj with
    | .dict d => .ok (.dict { d with Desc := data })
    | _ => .error .NotADict
  | .PDF_SCHEMA_MODDATE =>
    match obj with
    | .dict d => store_params d (fun q => { q with ModDate := data })
    | _ => .error .NotADict
  | .PDF_SCHEMA_CREATIONDATE =>
    match obj with
    | .dict d => store_params d (fun q => { q with CreationDate := data })
    | _ => .error .NotADict
  | _ =>
    match obj with
    | .dict d => .ok (.dict { d with CI := some (pdf_dict_put (d.CI.getD []) p.key data) })
    | _ => .error .NotADict

/-- The visitor `find_entry` with the write to the captured object: value objects are held by
value, so what `pdf_set_portfolio_entry_info` writes through the pointer it got from the lookup
is written to the slot from which `find_entry` captures the object, `nv` being the object as
the writes leave it. -/
def store_entry (nv : pdf_obj) : pdf_name_tree_map_fn find_data :=
  fun _ key val data =>
    if data.count = 0 then (false, nv, { key := key, val := nv, count := data.count - 1 })
    else (false, val, { data with count := data.count - 1 })

/-- Model of `pdf_set_portfolio_entry_info`. As in `pdf_portfolio_entry_info` the `for` loop
leaves `p` null when it runs off the list and `p->entry.type` is then a null dereference. The
writes are made in the index by the visitor `store_entry`. -/
def pdf_set_portfolio_entry_info (doc : pdf_document) (entry schema_entry : Int) (data : Atom) :
    Option (Outcome Unit) :=
  match pdf_portfolio_entry_obj_name (load_portfolio doc) entry with
  | none => none
  | some (doc, .error e) => some (doc, .error e)
  | some (doc, .ok (_, obj)) =>
    if obj = .null then some (doc, .error .NoSuchEntry)
    else
      let r := seek doc.portfolio schema_entry
      if r.2.2 ≠ 0 then some (doc, .error .IndexOutOfRange)
      else
        match r.2.1 with
        | [] => some (doc, .error .NullDeref)
        | p :: _ =>
          match entry_info_store obj p data with
          | .error e => some (doc, .error e)
          | .ok nv =>
            match map_tree (store_entry nv) doc.EmbeddedFiles doc.heap
                { count := entry, key := .null, val := .null } with
            | none => none
            | some r =>
              match r.res with
              | .error e => some ({ doc with heap := r.heap }, .error e)
              | .ok _ => some ({ doc with heap := r.heap }, .ok ())

/-! ## Predicates and fixtures used in the statements -/

/-- A cell with the persisted order attribute taken away: what identifies a field
independently of its position. -/
def erase_order (p : pdf_portfolio) : pdf_portfolio :=
  { p with val := { p.val with O := none } }

/-- A schema of two fields X (order 0) and Y (order 1), registry not yet loaded, no entry. -/
def doc_XY : pdf_document :=
  { version := 17
    Collection := some (some
      [("X", { Subtype := some "S", N := some "x", E := none, V := none, O := some 0 }),
       ("Y", { Subtype := some "S", N := some "y", E := none, V := none, O := some 1 })])
    portfolio := []
    heap := []
    EmbeddedFiles := none }

/-- A visitor that neither removes the pair nor changes the value object. -/
def observer {σ : Type} (fn : pdf_name_tree_map_fn σ) : Prop :=
  ∀ c k v a, (fn c k v a).1 = false ∧ (fn c k v a).2.1 = v

/-- A document without schema and without entry index. -/
def doc_empty : pdf_document :=
  { version := 14, Collection := none, portfolio := [], heap := [], EmbeddedFiles := none }

/-- The entry value object that `pdf_add_portfolio_entry` builds for an empty file whose
description and file name are both `tag`. -/
def entry_val (tag : String) : pdf_obj := .dict (new_filespec tag tag [])

/-- A document whose entry index is the single root leaf with the given keys, in this order,
the bounds cache holding the first and the last key. -/
def doc_leaf (keys : List String) : pdf_document :=
  { version := 17
    Collection := some none
    portfolio := []
    heap :=
      [{ Kids := []
         Names := (keys.map (fun k => [pdf_obj.str k, entry_val k])).flatten
         Limits := (keys.head?.map pdf_obj.str).toList ++ (keys.getLast?.map pdf_obj.str).toList
         marked := false }]
    EmbeddedFiles := some 0 }

/-- The entry index rooted at `root` is a single leaf that no traversal is visiting: the root
is an object of the heap without children, unmarked, with a pair sequence of even length. -/
def leaf_index (h : List Node) (root : Nat) : Prop :=
  root < h.length ∧ (node_at h root).Kids = [] ∧ (node_at h root).marked = false ∧
    (node_at h root).Names.length % 2 = 0

/-- The entry index of the document is empty: absent, or a root without children and
without pairs (that no traversal is visiting). -/
def empty_index (doc : pdf_document) : Prop :=
  match doc.EmbeddedFiles with
  | none => True
  | some root =>
    root < doc.heap.length ∧ (node_at doc.heap root).Kids = [] ∧
      (node_at doc.heap root).Names = [] ∧ (node_at doc.heap root).marked = false

/-- Documents whose entry index is built by successive calls of `pdf_add_portfolio_entry`
from an empty index. -/
inductive built : pdf_document → Prop where
  | empty (doc : pdf_document) : empty_index doc → built doc
  | add (doc doc' : pdf_document) (name desc filename : String) (buf : List Nat) (rank : Int) :
      built doc → pdf_add_portfolio_entry doc name desc filename buf = some (doc', .ok rank) →
      built doc'

/-- A document without entry index whose schema has the single field "1" of type Size. -/
def doc_size : pdf_document :=
  { version := 14
    Collection := some (some
      [("1", { Subtype := some "Size", N := some "Size", E := none, V := none, O := some 0 })])
    portfolio := []
    heap := []
    EmbeddedFiles := none }

/-- A content buffer of `2^31` bytes. -/
def big_buffer : List Nat := List.replicate 2147483648 0

/-- The document `doc_empty` after the entry "b" has been added. -/
def doc_b : pdf_document :=
  match pdf_add_portfolio_entry doc_empty "b" "b" "b" [] with
  | some r => r.1
  | none => doc_empty

/-- The document `doc_empty` after the entries "b" and then "a" have been added. -/
def doc_ba : pdf_document :=
  match pdf_add_portfolio_entry doc_b "a" "a" "a" [] with
  | some r => r.1
  | none => doc_b

/-- The node `k` is a child of the node `t`: it occurs in its `Kids` array. -/
def kid_of (h : List Node) (t k : Nat) : Prop := k ∈ (node_at h t).Kids

/-- The node `x` is reachable from `t` through child references (in zero or more steps). -/
def reach (h : List Node) (t x : Nat) : Prop := Relation.ReflTransGen (kid_of h) t x

/-- The node `y` is a descendant of `x`: reachable through one or more child references. -/
def descendant (h : List Node) (x y : Nat) : Prop := Relation.TransGen (kid_of h) x y

/-- The graph below `t` is acyclic: the child relation is well founded below `t`. -/
inductive acyclic (h : List Node) : Nat → Prop where
  | node (t : Nat) : (∀ k, k ∈ (node_at h t).Kids → acyclic h k) → acyclic h t

/-- The graph below `t` is acyclic and all its pair sequences have even length; a node may be
referred to from several child lists. -/
inductive well_formed (h : List Node) : Nat → Prop where
  | node (t : Nat) : (node_at h t).Names.length % 2 = 0 →
      (∀ k, k ∈ (node_at h t).Kids → well_formed h k) → well_formed h t

/-- What a traversal may do to one node: children are only taken away, pairs are only taken
away two slots at a time, a pair sequence of odd length and the `Limits` are left alone. -/
def node_evolves (nd nd' : Node) : Prop :=
  nd'.Kids.Sublist nd.Kids ∧ nd'.Names.length % 2 = nd.Names.length % 2 ∧
    nd'.Names.length ≤ nd.Names.length ∧ nd'.Limits = nd.Limits ∧
    (nd.Names.length % 2 = 1 → nd'.Names = nd.Names)

/-- What a traversal may do to the heap: no object is created, the marks are as before, a
marked object is left alone, and every node evolves as `node_evolves` says. -/
def heap_evolves (h h' : List Node) : Prop :=
  h'.length = h.length ∧
    ∀ x, (node_at h' x).marked = (node_at h x).marked ∧
      ((node_at h x).marked = true → node_at h' x = node_at h x) ∧
      node_evolves (node_at h x) (node_at h' x)

/-- The objects of the heap that are not marked. -/
def unmarked (h : List Node) : Finset Nat :=
  (Finset.range h.length).filter (fun x => (node_at h x).marked = false)

/-- What the loop on `Kids` of the node `t` may do to the heap: as `heap_evolves`, except
that `t` itself, which is marked, loses children; its pair sequence is left alone. -/
def loop_evolves (t : Nat) (h g : List Node) : Prop :=
  g.length = h.length ∧ (node_at g t).Names = (node_at h t).Names ∧
    ∀ x, (node_at g x).marked = (node_at h x).marked ∧
      ((node_at h x).marked = true → x ≠ t → node_at g x = node_at h x) ∧
      node_evolves (node_at h x) (node_at g x)

/-- An index whose root is its own child. -/
def heap_self : List Node :=
  [{ Kids := [0], Names := [], Limits := [], marked := false }]

/-- The value object `v` is a dictionary whose `CI` sub-map has an entry with the key. -/
def has_ci_key (key : String) (v : pdf_obj) : Prop :=
  ∃ d ci, v = .dict d ∧ d.CI = some ci ∧ key ∈ ci.map Prod.fst

/-- Every value of a pair of the node (the odd slots of `Names`) satisfies `Q`. -/
def clean (Q : pdf_obj → Prop) (nd : Node) : Prop :=
  ∀ j, 2 * j + 1 < nd.Names.length → Q (pdf_array_get nd.Names (2 * j + 1))

/-- A document with the schema fields X and Y and an entry index of a root with the two leaves
1 and 2; the entries "a" and "c" have values for the fields in their `CI` sub-maps. -/
def doc_two_leaves : pdf_document :=
  { version := 17
    Collection := some (some
      [("X", { Subtype := some "S", N := some "x", E := none, V := none, O := some 0 }),
       ("Y", { Subtype := some "N", N := some "y", E := none, V := none, O := some 1 })])
    portfolio := []
    heap :=
      [{ Kids := [1, 2], Names := [], Limits := [], marked := false },
       { Kids := [], Limits := [], marked := false
         Names := [.str "a", .dict { new_filespec "a" "a" [] with
            CI := some [("X", .str "one"), ("Y", .int 1)] }] },
       { Kids := [], Limits := [], marked := false
         Names := [.str "c", .dict { new_filespec "c" "c" [] with
            CI := some [("Y", .int 3), ("X", .str "three")] }] }]
    EmbeddedFiles := some 0 }

/-- A cell with the members that follow its position taken away: the persisted order
attribute and the member `sort`. -/
def erase_position (p : pdf_portfolio) : pdf_portfolio :=
  { erase_order p with sort := 0 }

/-- The cell that `pdf_add_portfolio_schema` creates for the descriptor `info` under the key
`key`, before the renumbering. -/
def new_cell (key : String) (info : pdf_portfolio_schema) : pdf_portfolio :=
  { key := key
    val := { E := some (info.editable ≠ 0), V := some (info.visible ≠ 0), N := info.name,
             Subtype := some "S", O := none }
    sort := 0
    entry := info }

/-- The concatenation, in the order of the list, of the sequences `f k` of the children `k`;
`none` when one of them is `none`. -/
def walk_kids {α : Type} (f : Nat → Option (List α)) : List Nat → Option (List α)
  | [] => some []
  | k :: ks =>
    match f k, walk_kids f ks with
    | some a, some b => some (a ++ b)
    | _, _ => none

/-- The depth first, left to right walk of the graph below `t`: what `own` gives for the node,
then the walks of its children in the order of `Kids`. This is the reverse of the order in
which `do_name_tree_map` visits. The first argument bounds the depth; `none` when the graph
below `t` is deeper. -/
def walk_gen {α : Type} (own : Nat → Node → List α) : Nat → List Node → Nat → Option (List α)
  | 0, _, _ => none
  | d + 1, h, t =>
    (walk_kids (walk_gen own d h) (node_at h t).Kids).map (fun l => own t (node_at h t) ++ l)

/-- The pairs (key, value) of a `Names` array. -/
def pairs_of : List pdf_obj → List (pdf_obj × pdf_obj)
  | k :: v :: rest => (k, v) :: pairs_of rest
  | _ => []

/-- The pairs of a node. -/
def own_pairs (_ : Nat) (nd : Node) : List (pdf_obj × pdf_obj) := pairs_of nd.Names

/-- The places of the pairs of the node `x`: the pair `j` is at `(x, j)`. -/
def slots_of (x : Nat) (nd : Node) : List (Nat × Nat) :=
  (List.range (nd.Names.length / 2)).map (fun j => (x, j))

/-- The sequence of the leaf pairs of the index below `t`, depth first, left to right. -/
def leaf_pairs (d : Nat) (h : List Node) (t : Nat) : Option (List (pdf_obj × pdf_obj)) :=
  walk_gen own_pairs d h t

/-- A visitor that asks for no removal. -/
def keeping {σ : Type} (fn : pdf_name_tree_map_fn σ) : Prop :=
  ∀ c k v a, (fn c k v a).1 = false

/-- One visit of a visitor that removes nothing, at the pair `s.2` of the node `s.1`: the
visitor is applied to the key and the value in the two slots and the value is written back. -/
def slot_step {σ : Type} (fn : pdf_name_tree_map_fn σ) (st : List Node × σ) (s : Nat × Nat) :
    List Node × σ :=
  (set_names st.1 s.1 ((node_at st.1 s.1).Names.set (2 * s.2 + 1)
      (fn s.1 (pdf_array_get (node_at st.1 s.1).Names (2 * s.2))
        (pdf_array_get (node_at st.1 s.1).Names (2 * s.2 + 1)) st.2).2.1),
    (fn s.1 (pdf_array_get (node_at st.1 s.1).Names (2 * s.2))
      (pdf_array_get (node_at st.1 s.1).Names (2 * s.2 + 1)) st.2).2.2)

/-- The visits at a sequence of places, one after the other. -/
def slot_fold {σ : Type} (fn : pdf_name_tree_map_fn σ) (slots : List (Nat × Nat))
    (st : List Node × σ) : List Node × σ :=
  slots.foldl (slot_step fn) st

/-- Two heaps with the same objects up to the children and the marks: the same number of
objects and the same pair sequences. -/
def same_names (h h' : List Node) : Prop :=
  h.length = h'.length ∧ ∀ x, (node_at h x).Names = (node_at h' x).Names

/-- The entry index of the document is acyclic with pair sequences of even length, and no
traversal is visiting it; a node may be referred to from several child lists. -/
def sound_index (doc : pdf_document) : Prop :=
  ∀ root, doc.EmbeddedFiles = some root →
    well_formed doc.heap root ∧ ∀ x, reach doc.heap root x → (node_at doc.heap x).marked = false

/-- The key and the value at the place `s` of the heap. -/
def slot_pair (h : List Node) (s : Nat × Nat) : pdf_obj × pdf_obj :=
  (pdf_array_get (node_at h s.1).Names (2 * s.2),
    pdf_array_get (node_at h s.1).Names (2 * s.2 + 1))

/-- The heap with the value at the place `s` replaced by `nv`. -/
def write_slot (h : List Node) (s : Nat × Nat) (nv : pdf_obj) : List Node :=
  set_names h s.1 ((node_at h s.1).Names.set (2 * s.2 + 1) nv)

/-- The document `doc_two_leaves` after the value "v" has been set for the field 0 of the
entry of rank 0. -/
def doc_two_leaves_set : pdf_document :=
  match pdf_set_portfolio_entry_info doc_two_leaves 0 0 (.str "v") with
  | some r => r.1
  | none => doc_two_leaves

/-- A visitor that decides the removal of a pair by the predicate `P` on its key and value
and leaves the value object as it is. -/
def filtering {σ : Type} (P : pdf_obj → pdf_obj → Bool) (fn : pdf_name_tree_map_fn σ) : Prop :=
  ∀ c k v a, (fn c k v a).1 = P k v ∧ (fn c k v a).2.1 = v

/-- A `Names` array without the pairs that satisfy `P`. -/
def filter_pairs (P : pdf_obj → pdf_obj → Bool) : List pdf_obj → List pdf_obj
  | k :: v :: rest => if P k v then filter_pairs P rest else k :: v :: filter_pairs P rest
  | l => l

/-- The node has a child or a pair: a call of `do_name_tree_map` that leaves it so returns
0. -/
def live (g : List Node) (k : Nat) : Bool :=
  !((node_at g k).Kids.isEmpty && (node_at g k).Names.isEmpty)

/-- Below `x` no pair satisfies `P` and every child reference leads to a node that has a child
or a pair. -/
inductive settled (P : pdf_obj → pdf_obj → Bool) (g : List Node) : Nat → Prop where
  | node (x : Nat) : (∀ p, p ∈ pairs_of (node_at g x).Names → P p.1 p.2 = false) →
      (∀ k, k ∈ (node_at g x).Kids → live g k = true) →
      (∀ k, k ∈ (node_at g x).Kids → settled P g k) → settled P g x

/-- The node `x` is in the heap `g` as it is in `h`, marks apart. -/
def untouched (h g : List Node) (x : Nat) : Prop :=
  (node_at g x).Names = (node_at h x).Names ∧ (node_at g x).Kids = (node_at h x).Kids

/-- The node `x` of `h` is in `g` without the pairs that satisfy `P` and without the children
that have neither child nor pair in `g`. -/
def pruned (P : pdf_obj → pdf_obj → Bool) (h g : List Node) (x : Nat) : Prop :=
  (node_at g x).Names = filter_pairs P (node_at h x).Names ∧
    (node_at g x).Kids = (node_at h x).Kids.filter (live g)

/-- The predicate on pairs "the key is the string `s`". -/
def key_is (s : String) : pdf_obj → pdf_obj → Bool := fun k _ => decide (k = .str s)


/-- The graph below `t` is a tree: what is below two child references of a node (two places
of its `Kids` array) has no node in common, and so below every child. No node is reached
along two paths. -/
inductive tree (h : List Node) : Nat → Prop where
  | node (t : Nat) :
      (node_at h t).Kids.Pairwise (fun k k' => ∀ x, reach h k x → ¬ reach h k' x) →
      (∀ k, k ∈ (node_at h t).Kids → tree h k) → tree h t

/-- A visitor that decides the removal of a pair by the predicate `P` on its key and its
value, as they are when the visitor is called. -/
def deciding {σ : Type} (P : pdf_obj → pdf_obj → Bool) (fn : pdf_name_tree_map_fn σ) : Prop :=
  ∀ c k v a, (fn c k v a).1 = P k v

/-- The pair `q` is the pair `p` after one call of the visitor: the key is the same and the
value object is as the call leaves it. -/
def left_by {σ : Type} (fn : pdf_name_tree_map_fn σ) (p q : pdf_obj × pdf_obj) : Prop :=
  q.1 = p.1 ∧ ∃ c a, q.2 = (fn c p.1 p.2 a).2.1

/-- What the loop on `Names` of the node `t` makes of an array: each pair is either kept, the
value as the visitor leaves it, when the visitor returns 0, or taken out when it returns
non-zero. -/
inductive loop_rel {σ : Type} (fn : pdf_name_tree_map_fn σ) (t : Nat) :
    List pdf_obj → List pdf_obj → Prop where
  | nil : loop_rel fn t [] []
  | keep (k v : pdf_obj) (a : σ) (l l' : List pdf_obj) : (fn t k v a).1 = false →
      loop_rel fn t l l' → loop_rel fn t (k :: v :: l) (k :: (fn t k v a).2.1 :: l')
  | drop (k v : pdf_obj) (a : σ) (l l' : List pdf_obj) : (fn t k v a).1 = true →
      loop_rel fn t l l' → loop_rel fn t (k :: v :: l) l'

/-- The node `x` of `h` is in `g` without the pairs that satisfy `P`, the pairs that are left
being as a call of the visitor leaves them, and without the children that have neither child
nor pair in `g`. -/
def pruned_by {σ : Type} (fn : pdf_name_tree_map_fn σ) (P : pdf_obj → pdf_obj → Bool)
    (h g : List Node) (x : Nat) : Prop :=
  List.Forall₂ (left_by fn) ((pairs_of (node_at h x).Names).filter (fun p => !P p.1 p.2))
      (pairs_of (node_at g x).Names) ∧
    (node_at g x).Names.length % 2 = 0 ∧
    (node_at g x).Kids = (node_at h x).Kids.filter (live g)

/-- A visitor that asks for the removal of the pairs whose key is the string `s` and, as
`delete_from_node` does, takes the key `arg` out of the `CI` dictionary of the value
object. -/
def remove_key_and_clean (s : String) : pdf_name_tree_map_fn String :=
  fun _ k v a => (key_is s k v, del_ci v a, a)

/-- The pair `q` is the pair `p` after calls of the visitor, none, one or several: the key is
the same and the value object is as the calls leave it. -/
def left_after {σ : Type} (fn : pdf_name_tree_map_fn σ) :
    pdf_obj × pdf_obj → pdf_obj × pdf_obj → Prop :=
  Relation.ReflTransGen (left_by fn)

/-- What the visitor does to a value object does not change the decision `P` on the pair. -/
def steady {σ : Type} (P : pdf_obj → pdf_obj → Bool) (fn : pdf_name_tree_map_fn σ) : Prop :=
  ∀ c k v a, P k (fn c k v a).2.1 = P k v

/-- The visitor that asks for the removal of the pairs that satisfy `P` and does nothing
else. -/
def sieve (P : pdf_obj → pdf_obj → Bool) : pdf_name_tree_map_fn Unit :=
  fun _ k v a => (P k v, v, a)

/-- The heap `g` is the heap `g0` up to the value objects, which in `g` are as calls of the
visitor leave those of `g0`: the same objects, child lists, marks and lengths of the pair
sequences, and the pairs of `g` are those of `g0` after calls of the visitor. -/
def follows {σ : Type} (fn : pdf_name_tree_map_fn σ) (g0 g : List Node) : Prop :=
  g.length = g0.length ∧
    ∀ x, (node_at g x).Kids = (node_at g0 x).Kids ∧
      (node_at g x).marked = (node_at g0 x).marked ∧
      (node_at g x).Names.length = (node_at g0 x).Names.length ∧
      List.Forall₂ (left_after fn) (pairs_of (node_at g0 x).Names) (pairs_of (node_at g x).Names)

/-! ## Facts about the schema registry -/

theorem seek_append (l : List pdf_portfolio) (e : Int) :
    (seek l e).1 ++ (seek l e).2.1 = l := by
  induction l generalizing e with
  | nil => simp [seek]
  | cons p ps ih =>
    unfold seek
    split
    · simp [ih]
    · simp

theorem seek_nat (l : List pdf_portfolio) (k : Nat) :
    seek l (k : Int) = (l.take k, l.drop k, (k : Int) - (min k l.length : Nat)) := by
  induction l generalizing k with
  | nil => simp [seek]
  | cons p ps ih =>
    unfold seek
    cases k with
    | zero => simp
    | succ k =>
      have h : ((k + 1 : Nat) : Int) > 0 := by omega
      have h2 : ((k + 1 : Nat) : Int) - 1 = (k : Int) := by omega
      simp only [h, if_true, h2, ih, List.take_succ_cons, List.drop_succ_cons, List.length_cons]
      refine Prod.ext rfl (Prod.ext rfl ?_)
      show (k : Int) - (min k ps.length : Nat) = ((k + 1 : Nat) : Int) - (min (k + 1) (ps.length + 1) : Nat)
      omega

theorem seek_nonpos (l : List pdf_portfolio) (e : Int) (he : e ≤ 0) :
    seek l e = ([], l, e) := by
  cases l with
  | nil => simp [seek]
  | cons p ps =>
    unfold seek
    have : ¬ e > 0 := by omega
    simp [this]

theorem rewrite_orderings_length (l : List pdf_portfolio) (n : Int) :
    (rewrite_orderings l n).length = l.length := by
  induction l generalizing n with
  | nil => rfl
  | cons p ps ih => simp [rewrite_orderings, ih]

theorem rewrite_orderings_erase (l : List pdf_portfolio) (n : Int) :
    (rewrite_orderings l n).map erase_order = l.map erase_order := by
  induction l generalizing n with
  | nil => rfl
  | cons p ps ih => simp [rewrite_orderings, ih, erase_order]

theorem rewrite_orderings_get (l : List pdf_portfolio) (n : Int) (j : Nat) (p : pdf_portfolio)
    (h : (rewrite_orderings l n)[j]? = some p) : p.val.O = some (n + j) := by
  induction l generalizing n j with
  | nil => simp [rewrite_orderings] at h
  | cons q qs ih =>
    cases j with
    | zero =>
      simp [rewrite_orderings] at h
      subst h
      simp
    | succ j =>
      simp [rewrite_orderings] at h
      have := ih (n + 1) j h
      rw [this]
      congr 1
      push_cast
      ring

theorem load_portfolio_of_ne (doc : pdf_document) (h : doc.portfolio ≠ []) :
    load_portfolio doc = doc := by
  simp [load_portfolio, h]

theorem load_portfolio_idem (doc : pdf_document) :
    load_portfolio (load_portfolio doc) = load_portfolio doc := by
  by_cases h : doc.portfolio = []
  · by_cases h2 : (load_portfolio doc).portfolio = []
    · have : load_portfolio doc = doc := by
        unfold load_portfolio at h2 ⊢
        simp only [h, ne_eq, not_true_eq_false, if_false] at h2 ⊢
        cases doc
        simp_all
      rw [this, this]
    · exact load_portfolio_of_ne _ h2
  · rw [load_portfolio_of_ne doc h, load_portfolio_of_ne doc h]


theorem seek_valid (l : List pdf_portfolio) (i : Nat) (hi : i < l.length) :
    seek l (i : Int) = (l.take i, l[i] :: l.drop (i + 1), 0) := by
  rw [seek_nat]
  refine Prod.ext rfl (Prod.ext ?_ ?_)
  · simp
  · show (i : Int) - (min i l.length : Nat) = 0
    omega

theorem reorder_eq (doc : pdf_document) (i : Nat) (newPos : Int)
    (hi : i < (load_portfolio doc).portfolio.length) :
    pdf_reorder_portfolio_schema doc i newPos =
      ({ load_portfolio doc with
          portfolio := rewrite_orderings
            ((seek ((load_portfolio doc).portfolio.eraseIdx i) newPos).1 ++
              (load_portfolio doc).portfolio[i] ::
              (seek ((load_portfolio doc).portfolio.eraseIdx i) newPos).2.1) 0 }, .ok ()) := by
  unfold pdf_reorder_portfolio_schema
  simp only [seek_valid _ i hi, ne_eq, not_true_eq_false, if_false, List.eraseIdx_eq_take_drop_succ]


/-! ## The mutating paths that rewrite the orders -/

theorem renumber_get (l : List pdf_portfolio) (n : Int) (j : Nat) (p : pdf_portfolio)
    (h : (renumber l n)[j]? = some p) : p.val.O = some (n + j) := by
  induction l generalizing n j with
  | nil => simp [renumber] at h
  | cons q qs ih =>
    cases j with
    | zero =>
      simp [renumber] at h
      subst h
      simp
    | succ j =>
      simp [renumber] at h
      have := ih (n + 1) j h
      rw [this]
      congr 1
      push_cast
      ring

/-- After a successful `pdf_add_portfolio_schema` the persisted order of the field at each
list position is the position. -/
theorem add_schema_orders (doc doc' : pdf_document) (entry : Int) (info : pdf_portfolio_schema)
    (hr : pdf_add_portfolio_schema doc entry info = some (doc', .ok ())) :
    ∀ (j : Nat) (q : pdf_portfolio), doc'.portfolio[j]? = some q → q.val.O = some (j : Int) := by
  unfold pdf_add_portfolio_schema at hr
  simp only at hr
  split at hr
  · exact absurd hr (by simp)
  · split at hr
    · simp only [Option.some.injEq, Prod.mk.injEq, and_true] at hr
      subst hr
      intro j q hq
      have := renumber_get _ 0 j q hq
      simpa using this
    · simp at hr

/-- After a successful `pdf_reorder_portfolio_schema` the persisted order of the field at each
list position is the position. -/
theorem reorder_schema_orders (doc doc' : pdf_document) (entry new_pos : Int)
    (hr : pdf_reorder_portfolio_schema doc entry new_pos = (doc', .ok ())) :
    ∀ (j : Nat) (q : pdf_portfolio), doc'.portfolio[j]? = some q → q.val.O = some (j : Int) := by
  unfold pdf_reorder_portfolio_schema at hr
  simp only at hr
  split at hr
  · simp at hr
  · split at hr
    · simp at hr
    · simp only [Prod.mk.injEq, and_true] at hr
      subst hr
      intro j q hq
      have := rewrite_orderings_get _ 0 j q hq
      simpa using this

/-- C1 (failing input): deleting field 0 of the registry [X (O = 0), Y (O = 1)] succeeds and
leaves the list [Y] with the persisted order of Y still 1, so the field at list position 0
has order 1: `pdf_delete_portfolio_schema` does not rewrite the orders, as
`pdf_add_portfolio_schema` and `pdf_reorder_portfolio_schema` do. -/
theorem delete_keeps_stale_order :
    ∃ doc', pdf_delete_portfolio_schema doc_XY 0 = some (doc', .ok ()) ∧
      doc'.portfolio.map (fun p => (p.key, p.val.O)) = [("Y", some 1)] :=
  ⟨_, rfl, by decide⟩

/-- C6: for a registry list `L` of `n` fields, `i < n` and `newPos ≤ n - 1`,
`reorder(i, newPos)` succeeds and yields the list obtained by removing `L[i]` and inserting
it at index `newPos` of the remaining list (the fields themselves are unchanged except for
the order attribute, the moved field is at position `newPos`), and the persisted order of the
field at each position `j` is `j`. -/
theorem reorder_moves_field (doc : pdf_document) (i newPos : Nat)
    (hi : i < (load_portfolio doc).portfolio.length)
    (hp : newPos ≤ (load_portfolio doc).portfolio.length - 1) :
    ∃ doc' p, (load_portfolio doc).portfolio[i]? = some p ∧
      pdf_reorder_portfolio_schema doc i newPos = (doc', .ok ()) ∧
      doc'.portfolio.map erase_order =
        (((load_portfolio doc).portfolio.eraseIdx i).take newPos ++ p ::
          ((load_portfolio doc).portfolio.eraseIdx i).drop newPos).map erase_order ∧
      (doc'.portfolio[newPos]?).map erase_order = some (erase_order p) ∧
      doc'.portfolio.length = (load_portfolio doc).portfolio.length ∧
      ∀ (j : Nat) (q : pdf_portfolio), doc'.portfolio[j]? = some q → q.val.O = some (j : Int) := by
  refine ⟨_, (load_portfolio doc).portfolio[i], by simp [hi], reorder_eq doc i newPos hi, ?_, ?_,
    ?_, ?_⟩
  · simp only [rewrite_orderings_erase, seek_nat]
  · have hlen : newPos ≤ ((load_portfolio doc).portfolio.eraseIdx i).length := by
      rw [List.length_eraseIdx_of_lt hi]; exact hp
    have h1 := rewrite_orderings_erase
      ((seek ((load_portfolio doc).portfolio.eraseIdx i) newPos).1 ++
        (load_portfolio doc).portfolio[i] ::
        (seek ((load_portfolio doc).portfolio.eraseIdx i) newPos).2.1) 0
    rw [← List.getElem?_map, h1, seek_nat, List.map_append, List.getElem?_append_right]
    · simp [List.length_take, Nat.min_eq_left hlen]
    · simp [List.length_take, Nat.min_eq_left hlen]
  · have hl := seek_append ((load_portfolio doc).portfolio.eraseIdx i) newPos
    have hlen := congrArg List.length hl
    simp only [List.length_append, List.length_eraseIdx_of_lt hi] at hlen
    simp only [rewrite_orderings_length, List.length_append, List.length_cons]
    omega
  · intro j q hq
    have := rewrite_orderings_get _ 0 j q hq
    simpa using this

/-- C6 (witness): the registry [X, Y] with `reorder(1, 0)` becomes [Y, X] with persisted
orders 0 and 1. -/
theorem reorder_moves_field_witness :
    1 < (load_portfolio doc_XY).portfolio.length ∧
    0 ≤ (load_portfolio doc_XY).portfolio.length - 1 ∧
    (pdf_reorder_portfolio_schema doc_XY 1 0).1.portfolio.map (fun p => (p.key, p.val.O)) =
      [("Y", some 0), ("X", some 1)] ∧
    ∃ doc' p, (load_portfolio doc_XY).portfolio[1]? = some p ∧
      pdf_reorder_portfolio_schema doc_XY ((1 : Nat) : Int) ((0 : Nat) : Int) = (doc', .ok ()) ∧
      doc'.portfolio.map erase_order =
        (((load_portfolio doc_XY).portfolio.eraseIdx 1).take 0 ++ p ::
          ((load_portfolio doc_XY).portfolio.eraseIdx 1).drop 0).map erase_order ∧
      (doc'.portfolio[0]?).map erase_order = some (erase_order p) ∧
      doc'.portfolio.length = (load_portfolio doc_XY).portfolio.length ∧
      ∀ (j : Nat) (q : pdf_portfolio), doc'.portfolio[j]? = some q → q.val.O = some (j : Int) :=
  ⟨by decide, by decide, by decide, reorder_moves_field doc_XY 1 0 (by decide) (by decide)⟩

/-- C7: `reorder(i, newPos)` is a permutation for every valid `i` and every integer `newPos`,
negative or beyond the length included: the call succeeds and the fields of the list after it,
order attribute aside, are a permutation of the fields before it. -/
theorem reorder_is_permutation (doc : pdf_document) (i : Nat) (newPos : Int)
    (hi : i < (load_portfolio doc).portfolio.length) :
    ∃ doc', pdf_reorder_portfolio_schema doc i newPos = (doc', .ok ()) ∧
      (doc'.portfolio.map erase_order).Perm ((load_portfolio doc).portfolio.map erase_order) := by
  refine ⟨_, reorder_eq doc i newPos hi, ?_⟩
  simp only [rewrite_orderings_erase]
  apply List.Perm.map
  have hl := seek_append ((load_portfolio doc).portfolio.eraseIdx i) newPos
  generalize seek ((load_portfolio doc).portfolio.eraseIdx i) newPos = r at hl ⊢
  have h1 : (r.1 ++ (load_portfolio doc).portfolio[i] :: r.2.1).Perm
      ((load_portfolio doc).portfolio[i] :: (load_portfolio doc).portfolio.eraseIdx i) := by
    rw [← hl]; exact List.perm_middle
  refine h1.trans ?_
  rw [List.eraseIdx_eq_take_drop_succ]
  have h2 : (load_portfolio doc).portfolio =
      (load_portfolio doc).portfolio.take i ++
        (load_portfolio doc).portfolio[i] :: (load_portfolio doc).portfolio.drop (i + 1) := by
    simp
  conv_rhs => rw [h2]
  exact List.perm_middle.symm

/-- C7 (witness): on [X, Y], `reorder(0, -5)` and the permutation it yields. -/
theorem reorder_is_permutation_witness :
    0 < (load_portfolio doc_XY).portfolio.length ∧
    ∃ doc', pdf_reorder_portfolio_schema doc_XY ((0 : Nat) : Int) (-5) = (doc', .ok ()) ∧
      (doc'.portfolio.map erase_order).Perm ((load_portfolio doc_XY).portfolio.map erase_order) :=
  ⟨by decide, reorder_is_permutation doc_XY 0 (-5) (by decide)⟩


/-! ## Facts about the heap -/

theorem node_at_set (h : List Node) (t x : Nat) (nd : Node) :
    node_at (h.set t nd) x = if t = x ∧ t < h.length then nd else node_at h x := by
  unfold node_at
  rw [List.getElem?_set]
  by_cases htx : t = x
  · subst htx
    by_cases hlt : t < h.length
    · simp [hlt]
    · have : h[t]? = none := List.getElem?_eq_none (by omega)
      simp [hlt, this]
  · simp [htx]

theorem node_at_of_le (h : List Node) (t : Nat) (ht : h.length ≤ t) : node_at h t = null_node := by
  unfold node_at
  rw [List.getElem?_eq_none ht]
  rfl

theorem set_node_at_self (h : List Node) (t : Nat) : h.set t (node_at h t) = h := by
  apply List.ext_getElem?
  intro x
  rw [List.getElem?_set]
  by_cases htx : t = x
  · subst htx
    by_cases hlt : t < h.length
    · simp [hlt, node_at]
    · have : h[t]? = none := List.getElem?_eq_none (by omega)
      simp [hlt, this]
  · simp [htx]

@[simp] theorem length_pdf_mark_obj (h : List Node) (t : Nat) :
    (pdf_mark_obj h t).length = h.length := by simp [pdf_mark_obj]

@[simp] theorem length_pdf_unmark_obj (h : List Node) (t : Nat) :
    (pdf_unmark_obj h t).length = h.length := by simp [pdf_unmark_obj]

@[simp] theorem length_set_kids (h : List Node) (t : Nat) (ks : List Nat) :
    (set_kids h t ks).length = h.length := by simp [set_kids]

@[simp] theorem length_set_names (h : List Node) (t : Nat) (ns : List pdf_obj) :
    (set_names h t ns).length = h.length := by simp [set_names]

@[simp] theorem length_set_limits (h : List Node) (t : Nat) (ns : List pdf_obj) :
    (set_limits h t ns).length = h.length := by simp [set_limits]

theorem node_at_mark (h : List Node) (t x : Nat) :
    node_at (pdf_mark_obj h t) x =
      if t = x ∧ t < h.length then { node_at h t with marked := true } else node_at h x := by
  simp [pdf_mark_obj, node_at_set]

theorem node_at_unmark (h : List Node) (t x : Nat) :
    node_at (pdf_unmark_obj h t) x =
      if t = x ∧ t < h.length then { node_at h t with marked := false } else node_at h x := by
  simp [pdf_unmark_obj, node_at_set]

theorem node_at_set_kids (h : List Node) (t x : Nat) (ks : List Nat) :
    node_at (set_kids h t ks) x =
      if t = x ∧ t < h.length then { node_at h t with Kids := ks } else node_at h x := by
  simp [set_kids, node_at_set]

theorem node_at_set_names (h : List Node) (t x : Nat) (ns : List pdf_obj) :
    node_at (set_names h t ns) x =
      if t = x ∧ t < h.length then { node_at h t with Names := ns } else node_at h x := by
  simp [set_names, node_at_set]

theorem node_at_set_limits (h : List Node) (t x : Nat) (ns : List pdf_obj) :
    node_at (set_limits h t ns) x =
      if t = x ∧ t < h.length then { node_at h t with Limits := ns } else node_at h x := by
  simp [set_limits, node_at_set]

/-- Inversion of one level of `do_name_tree_map`: the four ways a call ends. -/
theorem do_name_tree_map_succ {σ : Type} (fn : pdf_name_tree_map_fn σ) (fuel t : Nat)
    (h : List Node) (a : σ) (r : MapResult σ)
    (hr : do_name_tree_map fn (fuel + 1) t h a = some r) :
    (is_marked h t = true ∧ r = ⟨h, a, .error .RecursiveStructure⟩) ∨
    (is_marked h t = false ∧ ∃ g a' res,
      kids_loop (do_name_tree_map fn fuel) t (node_at (pdf_mark_obj h t) t).Kids.length
        ((node_at (pdf_mark_obj h t) t).Kids.length : Int) (pdf_mark_obj h t) a
        = some (g, a', res) ∧
      ((∃ e, res = .error e ∧ r = ⟨pdf_unmark_obj g t, a', .error e⟩) ∨
       (∃ n, res = .ok n ∧ (node_at g t).Names.length % 2 = 1 ∧
          r = ⟨pdf_unmark_obj g t, a', .error .MalformedInput⟩) ∨
       (∃ n, res = .ok n ∧ (node_at g t).Names.length % 2 = 0 ∧
          r = ⟨pdf_unmark_obj (set_names g t
                (names_loop fn t ((node_at g t).Names.length / 2) (node_at g t).Names
                  ((node_at g t).Names.length : Int) a').1) t,
               (names_loop fn t ((node_at g t).Names.length / 2) (node_at g t).Names
                  ((node_at g t).Names.length : Int) a').2.2,
               .ok (n == 0 && (names_loop fn t ((node_at g t).Names.length / 2)
                  (node_at g t).Names ((node_at g t).Names.length : Int) a').2.1 == 0)⟩))) := by
  unfold do_name_tree_map at hr
  by_cases hm : is_marked h t = true
  · left
    simp only [hm, if_true, Option.some.injEq] at hr
    exact ⟨hm, hr.symm⟩
  · right
    simp only [hm] at hr
    have hm' : is_marked h t = false := by simpa using hm
    refine ⟨hm', ?_⟩
    simp only [Bool.false_eq_true, if_false] at hr
    split at hr
    · exact absurd hr (by simp)
    · rename_i g a' e heq
      refine ⟨g, a', .error e, heq, Or.inl ⟨e, rfl, ?_⟩⟩
      simpa using hr.symm
    · rename_i g a' n heq
      refine ⟨g, a', .ok n, heq, Or.inr ?_⟩
      by_cases hodd : (node_at g t).Names.length % 2 = 1
      · left
        simp only [hodd, if_true, Option.some.injEq] at hr
        exact ⟨n, rfl, hodd, hr.symm⟩
      · right
        simp only [hodd, if_false, Option.some.injEq] at hr
        exact ⟨n, rfl, by omega, hr.symm⟩


/-! ## Traversal of a leaf -/

theorem set_pdf_array_get_self (arr : List pdf_obj) (i : Nat) (hi : i < arr.length) :
    arr.set i (pdf_array_get arr i) = arr := by
  apply List.ext_getElem?
  intro x
  rw [List.getElem?_set]
  by_cases hix : i = x
  · subst hix
    simp [hi, pdf_array_get]
  · simp [hix]

theorem observer_count_nodes : observer count_nodes := by
  intro c k v a; exact ⟨rfl, rfl⟩

theorem observer_find_entry : observer find_entry := by
  intro c k v a; exact ⟨rfl, rfl⟩

theorem observer_find_position : observer find_position := by
  intro c k v a
  unfold find_position
  split <;> exact ⟨rfl, rfl⟩

theorem names_loop_observer {σ : Type} (fn : pdf_name_tree_map_fn σ) (hfn : observer fn)
    (t c : Nat) (arr : List pdf_obj) (m : Int) (a : σ) (hc : 2 * c ≤ arr.length) :
    (names_loop fn t c arr m a).1 = arr ∧ (names_loop fn t c arr m a).2.1 = m := by
  induction c generalizing a with
  | zero => exact ⟨rfl, rfl⟩
  | succ c ih =>
    unfold names_loop
    obtain ⟨h1, h2⟩ := hfn t (pdf_array_get arr (2 * c)) (pdf_array_get arr (2 * c + 1)) a
    simp only [h1, h2, Bool.false_eq_true, if_false]
    rw [set_pdf_array_get_self arr (2 * c + 1) (by omega)]
    exact ih _ (by omega)

theorem do_name_tree_map_leaf {σ : Type} (fn : pdf_name_tree_map_fn σ) (fuel t : Nat)
    (h : List Node) (a : σ) (ht : t < h.length) (hk : (node_at h t).Kids = [])
    (hm : (node_at h t).marked = false) (he : (node_at h t).Names.length % 2 = 0) :
    do_name_tree_map fn (fuel + 1) t h a =
      some ⟨h.set t { node_at h t with
              Names := (names_loop fn t ((node_at h t).Names.length / 2) (node_at h t).Names
                ((node_at h t).Names.length : Int) a).1 },
            (names_loop fn t ((node_at h t).Names.length / 2) (node_at h t).Names
                ((node_at h t).Names.length : Int) a).2.2,
            .ok ((names_loop fn t ((node_at h t).Names.length / 2) (node_at h t).Names
                ((node_at h t).Names.length : Int) a).2.1 == 0)⟩ := by
  have hodd : ¬ (node_at h t).Names.length % 2 = 1 := by omega
  unfold do_name_tree_map
  simp only [is_marked, hm, Bool.false_eq_true, if_false, node_at_mark, ht, and_self, if_true,
    hk, List.length_nil, kids_loop, hodd, node_at_set_names, length_pdf_mark_obj,
    length_set_names]
  simp [pdf_unmark_obj, set_names, pdf_mark_obj, node_at_set, ht, hm, hk]

/-- Traversal of a leaf with a visitor that only observes: the heap is left as it was. -/
theorem pdf_name_tree_map_leaf {σ : Type} (fn : pdf_name_tree_map_fn σ) (hfn : observer fn)
    (t : Nat) (h : List Node) (a : σ) (ht : t < h.length) (hk : (node_at h t).Kids = [])
    (hm : (node_at h t).marked = false) (he : (node_at h t).Names.length % 2 = 0) :
    pdf_name_tree_map fn t h a =
      some ⟨h, (names_loop fn t ((node_at h t).Names.length / 2) (node_at h t).Names
                ((node_at h t).Names.length : Int) a).2.2,
            .ok ((node_at h t).Names.length == 0)⟩ := by
  unfold pdf_name_tree_map
  rw [do_name_tree_map_leaf fn _ t h a ht hk hm he]
  obtain ⟨h1, h2⟩ := names_loop_observer fn hfn t ((node_at h t).Names.length / 2)
    (node_at h t).Names ((node_at h t).Names.length : Int) a (by omega)
  rw [h1, h2]
  have : ({ node_at h t with Names := (node_at h t).Names } : Node) = node_at h t := rfl
  rw [this, set_node_at_self]
  congr 2
  cases hl : (node_at h t).Names.length with
  | zero => rfl
  | succ n => 
    simp only [Nat.cast_succ]
    have : ((n : Int) + 1 == 0) = false := by
      simp only [beq_eq_false_iff_ne, ne_eq]; omega
    rw [this]; rfl

theorem names_loop_find_entry_neg (t c : Nat) (arr : List pdf_obj) (m : Int) (d : find_data)
    (hd : d.count < 0) :
    (names_loop find_entry t c arr m d).2.2 = { d with count := d.count - c } := by
  induction c generalizing arr d with
  | zero => simp [names_loop]
  | succ c ih =>
    unfold names_loop
    have h0 : ¬ d.count = 0 := by omega
    simp only [find_entry, h0, if_false, Bool.false_eq_true]
    rw [ih]
    · simp only [Nat.cast_succ]
      congr 1
      ring
    · show d.count - 1 < 0
      omega

theorem names_loop_find_entry (t c : Nat) (arr : List pdf_obj) (m : Int) (d : find_data)
    (hc : 2 * c ≤ arr.length) (cnt : Nat) (hd : d.count = cnt) (hlt : cnt < c) :
    (names_loop find_entry t c arr m d).2.2 =
      { key := pdf_array_get arr (2 * (c - 1 - cnt)),
        val := pdf_array_get arr (2 * (c - 1 - cnt) + 1),
        count := (cnt : Int) - c } := by
  induction c generalizing d cnt with
  | zero => omega
  | succ c ih =>
    unfold names_loop
    simp only [find_entry, Bool.false_eq_true, if_false]
    rw [set_pdf_array_get_self arr (2 * c + 1) (by omega)]
    cases cnt with
    | zero =>
      have h0 : d.count = 0 := by simpa using hd
      simp only [h0, if_true]
      rw [names_loop_find_entry_neg]
      · simp only [Nat.cast_succ, Nat.add_sub_cancel, Nat.sub_zero]
        congr 1
        simp
        ring
      · show (0 : Int) - 1 < 0
        omega
    | succ k =>
      have h0 : ¬ d.count = 0 := by rw [hd]; simp only [Nat.cast_succ]; omega
      simp only [h0, if_false]
      rw [ih _ (by omega) k (by show d.count - 1 = k; rw [hd]; simp) (by omega)]
      have e1 : c + 1 - 1 - (k + 1) = c - 1 - k := by omega
      rw [e1]
      congr 1
      simp only [Nat.cast_succ]
      ring


/-! ## Insertion and positional lookup on concrete indexes -/

/-- C2 (failing input): the index is the root leaf with keys "a", "c" (strictly ascending).
Adding the entry "b" returns rank 1, and the positional lookup at rank 1 performed immediately
afterwards returns the pair of "a", not the pair of "b". -/
theorem insert_rank_finds_other_pair :
    ∃ d1 d2, pdf_add_portfolio_entry (doc_leaf ["a", "c"]) "b" "b" "b" [] = some (d1, .ok 1) ∧
      pdf_portfolio_entry_obj_name d1 1 = some (d2, .ok (.str "a", entry_val "a")) ∧
      (pdf_obj.str "a", entry_val "a") ≠ (pdf_obj.str "b", entry_val "b") :=
  ⟨_, _, rfl, rfl, by decide⟩

/-- C3 (failing input): the index is the root leaf with the single key "a". Adding the entry
"b" yields the pair sequence b, a: the new key is placed before the smaller key "a", and the
leaf keys are no longer ascending. -/
theorem insert_breaks_ascending_order :
    ∃ d1, pdf_add_portfolio_entry (doc_leaf ["a"]) "b" "b" "b" [] = some (d1, .ok 1) ∧
      (node_at d1.heap 0).Names = [.str "b", entry_val "b", .str "a", entry_val "a"] ∧
      pdf_objcmp (.str "b") (.str "a") > 0 :=
  ⟨_, rfl, rfl, by decide⟩

/-- C4 (counterexample): after adding the entries "b" and then "a" to a document without
entry index, the leaf holds a, b, and the lookup at rank 0 returns "b", not "a"; rank 1
returns "a". -/
theorem rank_zero_is_last_key :
    ∃ d1 d2 d3 d4, pdf_add_portfolio_entry doc_empty "b" "b" "b" [] = some (d1, .ok 0) ∧
      pdf_add_portfolio_entry d1 "a" "a" "a" [] = some (d2, .ok 1) ∧
      (node_at d2.heap 0).Names = [.str "a", entry_val "a", .str "b", entry_val "b"] ∧
      pdf_portfolio_entry_obj_name d2 0 = some (d3, .ok (.str "b", entry_val "b")) ∧
      pdf_portfolio_entry_obj_name d3 1 = some (d4, .ok (.str "a", entry_val "a")) ∧
      pdf_obj.str "b" ≠ pdf_obj.str "a" :=
  ⟨_, _, _, _, rfl, rfl, rfl, rfl, rfl, by decide⟩

/-! ## Insertion into a leaf -/

theorem pdf_array_insert_length (arr : List pdf_obj) (obj : pdf_obj) (i : Int)
    (r : List pdf_obj) (h : pdf_array_insert arr obj i = .ok r) : r.length = arr.length + 1 := by
  unfold pdf_array_insert at h
  split at h
  · exact absurd h (by simp)
  · have : r = arr.take i.toNat ++ obj :: arr.drop i.toNat := by
      injection h with h; exact h.symm
    subst this
    simp only [List.length_append, List.length_take, List.length_cons, List.length_drop]
    omega

/-- What a successful splice does to the heap: the `Names` of the target grow by two
slots and its `Limits` are rewritten. -/
theorem insert_splice_ok (h : List Node) (found : Nat) (key val : pdf_obj) (fi entry : Int)
    (h' : List Node) (r : Int) (hr : insert_splice h found key val fi entry = (h', .ok r)) :
    ∃ n2 l2, n2.length = (node_at h found).Names.length + 2 ∧ r = entry ∧
      h' = h.set found { node_at h found with Names := n2, Limits := l2 } := by
  unfold insert_splice at hr
  split at hr
  · exact absurd hr (by simp)
  · rename_i n1 hn1
    simp only at hr
    split at hr
    · exact absurd hr (by simp)
    · rename_i n2 hn2
      split at hr
      · exact absurd hr (by simp)
      · rename_i l1 hl1
        split at hr
        · exact absurd hr (by simp)
        · rename_i l2 hl2
          refine ⟨n2, l2, ?_, ?_, ?_⟩
          · rw [pdf_array_insert_length _ _ _ _ hn2, pdf_array_insert_length _ _ _ _ hn1]
          · have := (Prod.mk.inj hr).2
            injection this with this
            exact this.symm
          · have := (Prod.mk.inj hr).1
            rw [← this]
            simp only [set_limits, set_names, node_at_set, List.set_set, List.length_set]
            by_cases hlt : found < h.length
            · simp [hlt]
            · simp only [hlt, and_false, if_false]
              rw [List.set_eq_of_length_le (by omega), List.set_eq_of_length_le (by omega)]

theorem insert_target_cases (h : List Node) (tree : Nat) (data : find_pos_data) :
    (insert_target h tree data).1 = h ∨
      insert_target h tree data = (set_limits (set_names h tree []) tree [], tree, 0) := by
  unfold insert_target
  split
  · left; rfl
  · split
    · left; rfl
    · right; rfl

theorem leaf_index_set (h : List Node) (root found : Nat) (n2 l2 : List pdf_obj)
    (hl : leaf_index h root) (hn : n2.length % 2 = (node_at h found).Names.length % 2) :
    leaf_index (h.set found { node_at h found with Names := n2, Limits := l2 }) root := by
  obtain ⟨h1, h2, h3, h4⟩ := hl
  refine ⟨by simpa using h1, ?_, ?_, ?_⟩ <;> rw [node_at_set] <;> split
  · rename_i hc; rw [hc.1]; exact h2
  · exact h2
  · rename_i hc; rw [hc.1]; exact h3
  · exact h3
  · rename_i hc; rw [hc.1] at hn; simp only; omega
  · exact h4

theorem insert_at_leaf (h : List Node) (tree : Nat) (key val : pdf_obj) (data : find_pos_data)
    (h' : List Node) (r : Int) (hl : leaf_index h tree)
    (hr : insert_at h tree key val data = (h', .ok r)) : leaf_index h' tree := by
  unfold insert_at at hr
  obtain ⟨n2, l2, hn2, -, rfl⟩ := insert_splice_ok _ _ _ _ _ _ _ _ hr
  apply leaf_index_set
  · rcases insert_target_cases h tree data with h0 | h0
    · rw [h0]; exact hl
    · rw [h0]
      obtain ⟨h1, h2, h3, h4⟩ := hl
      refine ⟨by simpa using h1, ?_, ?_, ?_⟩ <;>
        simp [node_at_set_limits, node_at_set_names, h1, h2, h3]
  · omega

theorem pdf_name_tree_insert_leaf (h : List Node) (tree : Nat) (key val : pdf_obj)
    (h' : List Node) (r : Int) (hl : leaf_index h tree)
    (hr : pdf_name_tree_insert h tree key val = some (h', .ok r)) : leaf_index h' tree := by
  unfold pdf_name_tree_insert at hr
  rw [pdf_name_tree_map_leaf find_position observer_find_position tree h _ hl.1 hl.2.1 hl.2.2.1
    hl.2.2.2] at hr
  simp only [Option.some.injEq] at hr
  exact insert_at_leaf h tree key val _ h' r hl hr

theorem load_portfolio_heap (doc : pdf_document) :
    (load_portfolio doc).heap = doc.heap ∧
      (load_portfolio doc).EmbeddedFiles = doc.EmbeddedFiles := by
  unfold load_portfolio
  split <;> exact ⟨rfl, rfl⟩

theorem empty_index_leaf (doc : pdf_document) (root : Nat) (he : empty_index doc)
    (hroot : doc.EmbeddedFiles = some root) : leaf_index doc.heap root := by
  unfold empty_index at he
  rw [hroot] at he
  obtain ⟨h1, h2, h3, h4⟩ := he
  exact ⟨h1, h2, h4, by rw [h3]; rfl⟩

/-! ## Entries added to a leaf index -/

/-- Inversion of a successful `pdf_add_portfolio_entry`. -/
theorem add_entry_ok (doc doc' : pdf_document) (name desc filename : String) (buf : List Nat)
    (rank : Int)
    (hr : pdf_add_portfolio_entry doc name desc filename buf = some (doc', .ok rank)) :
    ∃ root h0, doc'.EmbeddedFiles = some root ∧
      ((doc.EmbeddedFiles = some root ∧ h0 = doc.heap) ∨
        (doc.EmbeddedFiles = none ∧ root = doc.heap.length ∧ h0 = doc.heap ++ [null_node])) ∧
      pdf_name_tree_insert h0 root (.str name) (.dict (new_filespec desc filename buf)) =
        some (doc'.heap, .ok rank) ∧
      doc'.portfolio = (load_portfolio doc).portfolio := by
  unfold pdf_add_portfolio_entry at hr
  simp only at hr
  split at hr
  · exact absurd hr (by simp)
  · simp at hr
  · rename_i hx h entry heq
    simp only [Option.some.injEq, Prod.mk.injEq, Except.ok.injEq] at hr
    obtain ⟨rfl, rfl⟩ := hr
    cases hE : doc.EmbeddedFiles with
    | none =>
      have hE' : (load_portfolio doc).EmbeddedFiles = none := by
        rw [(load_portfolio_heap doc).2]; exact hE
      simp only [ensure_index, hE', (load_portfolio_heap doc).1] at heq
      refine ⟨doc.heap.length, doc.heap ++ [null_node], ?_, Or.inr ⟨rfl, rfl, rfl⟩, heq, ?_⟩
      · simp only [ensure_index, hE', (load_portfolio_heap doc).1]
      · simp only [ensure_index, hE']
    | some root =>
      have hE' : (load_portfolio doc).EmbeddedFiles = some root := by
        rw [(load_portfolio_heap doc).2]; exact hE
      simp only [ensure_index, hE', (load_portfolio_heap doc).1] at heq
      refine ⟨root, doc.heap, ?_, Or.inl ⟨rfl, rfl⟩, heq, ?_⟩
      · simp only [ensure_index, hE']
      · simp only [ensure_index, hE']

theorem leaf_index_new (h : List Node) : leaf_index (h ++ [null_node]) h.length := by
  refine ⟨by simp, ?_, ?_, ?_⟩ <;> simp [node_at, null_node]

theorem built_leaf_index (doc : pdf_document) (hb : built doc) (root : Nat)
    (hroot : doc.EmbeddedFiles = some root) : leaf_index doc.heap root := by
  induction hb generalizing root with
  | empty doc he => exact empty_index_leaf doc root he hroot
  | add doc doc' name desc filename buf rank _ hadd ih =>
    obtain ⟨root', h0, hroot', hcase, hins, -⟩ := add_entry_ok _ _ _ _ _ _ _ hadd
    rw [hroot] at hroot'
    injection hroot' with hroot'
    subst hroot'
    apply pdf_name_tree_insert_leaf h0 root _ _ _ rank _ hins
    rcases hcase with ⟨h1, rfl⟩ | ⟨-, rfl, rfl⟩
    · exact ih root h1
    · exact leaf_index_new doc.heap

/-- Positional lookup in a leaf index of `n` pairs: rank `i` is the pair at position
`n - 1 - i` of the pair sequence, and the document is left as `load_portfolio` leaves it. -/
theorem entry_obj_name_leaf (doc : pdf_document) (root : Nat) (i : Nat)
    (hroot : doc.EmbeddedFiles = some root) (hl : leaf_index doc.heap root)
    (hi : i < (node_at doc.heap root).Names.length / 2) :
    pdf_portfolio_entry_obj_name doc i = some (load_portfolio doc, .ok
      (pdf_array_get (node_at doc.heap root).Names
          (2 * ((node_at doc.heap root).Names.length / 2 - 1 - i)),
        pdf_array_get (node_at doc.heap root).Names
          (2 * ((node_at doc.heap root).Names.length / 2 - 1 - i) + 1))) := by
  unfold pdf_portfolio_entry_obj_name
  have h1 := (load_portfolio_heap doc).1
  have h2 := (load_portfolio_heap doc).2
  rw [hroot] at h2
  rcases hld : load_portfolio doc with ⟨v, c, p, hp, ef⟩
  rw [hld] at h1 h2
  simp only at h1 h2
  subst h1 h2
  simp only [map_tree]
  rw [pdf_name_tree_map_leaf find_entry observer_find_entry root doc.heap _ hl.1 hl.2.1 hl.2.2.1
    hl.2.2.2]
  simp only
  rw [names_loop_find_entry root _ _ _ _ (by omega) i rfl hi]

/-! ## The first entry of an index -/

theorem insert_empty_leaf (h : List Node) (root : Nat) (key val : pdf_obj) (hroot : root < h.length)
    (hk : (node_at h root).Kids = []) (hn : (node_at h root).Names = [])
    (hm : (node_at h root).marked = false) :
    pdf_name_tree_insert h root key val =
      some (h.set root { node_at h root with Names := [key, val], Limits := [key, key] },
        .ok 0) := by
  unfold pdf_name_tree_insert
  rw [pdf_name_tree_map_leaf find_position observer_find_position root h _ hroot hk hm
    (by rw [hn]; rfl)]
  simp only [hn, List.length_nil, Nat.zero_div, names_loop, insert_at, insert_target,
    insert_splice, node_at_set_limits, node_at_set_names, length_set_names, length_set_limits,
    hroot, and_self, if_true, pdf_array_insert, pdf_array_get, pdf_array_put, pdf_is_string]
  simp [set_limits, set_names, node_at_set, hroot, List.set_set, hk, hm]

theorem names_loop_count_one (t : Nat) (key val : pdf_obj) (m c : Int) :
    (names_loop count_nodes t 1 [key, val] m c).2.2 = c + 1 := by
  simp [names_loop, count_nodes]

theorem node_at_append_length (h : List Node) (nd : Node) :
    node_at (h ++ [nd]) h.length = nd := by
  simp [node_at]

theorem load_portfolio_fixed (d : pdf_document)
    (h : d.portfolio =
      (schema_entries d).foldl (fun acc kv => load_insert (load_cell kv.1 kv.2) acc) []) :
    load_portfolio d = d := by
  unfold load_portfolio
  split
  · rfl
  · rw [← h]

theorem load_portfolio_portfolio (doc : pdf_document) :
    (load_portfolio doc).portfolio ≠ [] ∨ (load_portfolio doc).portfolio =
      (schema_entries doc).foldl (fun acc kv => load_insert (load_cell kv.1 kv.2) acc) [] := by
  unfold load_portfolio
  split
  · left; assumption
  · right; rfl

/-- The state a document is in after `pdf_add_portfolio_entry` on an empty index. -/
theorem add_entry_empty (doc : pdf_document) (name desc filename : String) (buf : List Nat)
    (he : empty_index doc) :
    ∃ d1 root, pdf_add_portfolio_entry doc name desc filename buf = some (d1, .ok 0) ∧
      d1.EmbeddedFiles = some root ∧ leaf_index d1.heap root ∧
      (node_at d1.heap root).Names = [.str name, .dict (new_filespec desc filename buf)] ∧
      load_portfolio d1 = d1 ∧ d1.portfolio = (load_portfolio doc).portfolio := by
  have hload : ∀ (v : Int) (hp : List Node) (ef : Option Nat),
      load_portfolio
        { version := v,
          Collection := if (load_portfolio doc).Collection = none then some none
            else (load_portfolio doc).Collection,
          portfolio := (load_portfolio doc).portfolio, heap := hp, EmbeddedFiles := ef } =
        { version := v,
          Collection := if (load_portfolio doc).Collection = none then some none
            else (load_portfolio doc).Collection,
          portfolio := (load_portfolio doc).portfolio, heap := hp, EmbeddedFiles := ef } := by
    intro v hp ef
    have hc : (load_portfolio doc).Collection = doc.Collection := by
      unfold load_portfolio; split <;> rfl
    rcases load_portfolio_portfolio doc with hne | heq
    · exact load_portfolio_of_ne _ hne
    · apply load_portfolio_fixed
      simp only [heq, schema_entries, hc]
      cases doc.Collection with
      | none => rfl
      | some c => rfl
  unfold pdf_add_portfolio_entry
  have h1 := (load_portfolio_heap doc).1
  have h2 := (load_portfolio_heap doc).2
  unfold empty_index at he
  cases hE : doc.EmbeddedFiles with
  | none =>
    rw [hE] at h2
    simp only [ensure_index, h2, h1]
    rw [insert_empty_leaf (doc.heap ++ [null_node]) doc.heap.length _ _ (by simp)
      (by simp [node_at, null_node]) (by simp [node_at, null_node])
      (by simp [node_at, null_node])]
    refine ⟨_, doc.heap.length, rfl, rfl, ?_, ?_, hload _ _ _, rfl⟩
    · exact ⟨by simp, by simp [node_at_set, node_at_append_length, null_node],
        by simp [node_at_set, node_at_append_length, null_node],
        by simp [node_at_set, node_at_append_length]⟩
    · simp [node_at_set, node_at_append_length]
  | some root =>
    rw [hE] at h2 he
    obtain ⟨e1, e2, e3, e4⟩ := he
    simp only [ensure_index, h2, h1]
    rw [insert_empty_leaf doc.heap root _ _ e1 e2 e3 e4]
    refine ⟨_, root, rfl, rfl, ?_, ?_, hload _ _ _, rfl⟩
    · exact ⟨by simpa using e1, by simp [node_at_set, e1, e2],
        by simp [node_at_set, e1, e4], by simp [node_at_set, e1]⟩
    · simp [node_at_set, e1]

theorem count_entries_leaf (d : pdf_document) (root : Nat) (hload : load_portfolio d = d)
    (hroot : d.EmbeddedFiles = some root) (hl : leaf_index d.heap root) :
    pdf_count_portfolio_entries d = some (d, .ok
      (names_loop count_nodes root ((node_at d.heap root).Names.length / 2)
        (node_at d.heap root).Names ((node_at d.heap root).Names.length : Int) 0).2.2) := by
  unfold pdf_count_portfolio_entries
  simp only [hload, hroot, map_tree]
  rw [pdf_name_tree_map_leaf count_nodes observer_count_nodes root d.heap _ hl.1 hl.2.1 hl.2.2.1
    hl.2.2.2]
  simp only [Option.some.injEq, Prod.mk.injEq, and_true]
  cases d
  simp only at hroot
  subst hroot
  rfl

/-- After `pdf_add_portfolio_entry` on an empty index: the rank is 0, the count is 1, and the
value of a field of type Size of entry 0 is the `int` holding the length of the buffer. -/
theorem add_entry_empty_size (doc : pdf_document) (name desc filename : String)
    (buf : List Nat) (he : empty_index doc) :
    ∃ d1, pdf_add_portfolio_entry doc name desc filename buf = some (d1, .ok 0) ∧
      d1.portfolio = (load_portfolio doc).portfolio ∧
      pdf_count_portfolio_entries d1 = some (d1, .ok 1) ∧
      ∀ (s : Nat) (p : pdf_portfolio), d1.portfolio[s]? = some p →
        p.entry.type = .PDF_SCHEMA_SIZE →
        pdf_portfolio_entry_info d1 0 s = some (d1, .ok (.int (to_int buf.length))) := by
  obtain ⟨d1, root, hadd, hroot, hl, hn, hload, hport⟩ :=
    add_entry_empty doc name desc filename buf he
  refine ⟨d1, hadd, hport, ?_, ?_⟩
  · rw [count_entries_leaf d1 root hload hroot hl, hn]
    simp [names_loop_count_one]
  · intro s p hs hp
    unfold pdf_portfolio_entry_info
    have := entry_obj_name_leaf d1 root 0 hroot hl (by rw [hn]; simp)
    simp only [Nat.cast_zero] at this
    rw [this, hload, hn]
    have hlt : s < d1.portfolio.length := by
      by_contra hc
      rw [List.getElem?_eq_none (by omega)] at hs
      exact absurd hs (by simp)
    have hps : d1.portfolio[s] = p := by
      rw [List.getElem?_eq_getElem hlt] at hs
      injection hs
    simp [pdf_array_get, seek_valid d1.portfolio s hlt, hps, entry_info_lookup, hp, params_of,
      new_filespec]

theorem to_int_of_lt (n : Nat) (h : n < 2147483648) : to_int n = n := by
  unfold to_int
  omega

/-- C10: for a document whose entry index is empty (absent, or a root without children and
without pairs) and a content buffer of length `L < 2^31`, `addEntry` returns rank 0, `count()`
afterwards returns 1, and `entryFieldValue(0, s)` returns `L` for every schema index `s` whose
field type is Size. -/
theorem first_entry_rank_count_size (doc : pdf_document) (name desc filename : String)
    (buf : List Nat) (he : empty_index doc) (hL : buf.length < 2147483648) :
    ∃ d1, pdf_add_portfolio_entry doc name desc filename buf = some (d1, .ok 0) ∧
      pdf_count_portfolio_entries d1 = some (d1, .ok 1) ∧
      ∀ (s : Nat) (p : pdf_portfolio), d1.portfolio[s]? = some p →
        p.entry.type = .PDF_SCHEMA_SIZE →
        pdf_portfolio_entry_info d1 0 s = some (d1, .ok (.int buf.length)) := by
  obtain ⟨d1, hadd, -, hcount, hinfo⟩ := add_entry_empty_size doc name desc filename buf he
  refine ⟨d1, hadd, hcount, ?_⟩
  intro s p hs hp
  rw [hinfo s p hs hp, to_int_of_lt _ hL]

/-- C10 (witness): the scenario of the specification, a buffer of 5 bytes added to a document
without entry index whose schema has one field of type Size. -/
theorem first_entry_rank_count_size_witness :
    empty_index doc_size ∧ [1, 2, 3, 4, 5].length < 2147483648 ∧
    ∃ d1, pdf_add_portfolio_entry doc_size "a.txt" "desc" "a.txt" [1, 2, 3, 4, 5] =
        some (d1, .ok 0) ∧
      pdf_count_portfolio_entries d1 = some (d1, .ok 1) ∧
      ∀ (s : Nat) (p : pdf_portfolio), d1.portfolio[s]? = some p →
        p.entry.type = .PDF_SCHEMA_SIZE →
        pdf_portfolio_entry_info d1 0 s =
          some (d1, .ok (.int ([1, 2, 3, 4, 5] : List Nat).length)) :=
  ⟨trivial, by decide,
    first_entry_rank_count_size doc_size "a.txt" "desc" "a.txt" [1, 2, 3, 4, 5] trivial
      (by decide)⟩

theorem big_buffer_length : big_buffer.length = 2147483648 := by
  unfold big_buffer
  exact List.length_replicate _ _

/-- C10 (counterexample): with a content buffer of `2^31` bytes the value of the Size field of
the new entry is `-2^31`, not the length of the buffer. -/
theorem size_of_big_buffer_wraps :
    big_buffer.length = 2147483648 ∧
    ∃ d1 p, pdf_add_portfolio_entry doc_size "a.txt" "desc" "a.txt" big_buffer =
        some (d1, .ok 0) ∧
      d1.portfolio[0]? = some p ∧ p.entry.type = .PDF_SCHEMA_SIZE ∧
      pdf_portfolio_entry_info d1 0 0 = some (d1, .ok (.int (-2147483648))) := by
  refine ⟨big_buffer_length, ?_⟩
  obtain ⟨d1, hadd, hport, -, hinfo⟩ :=
    add_entry_empty_size doc_size "a.txt" "desc" "a.txt" big_buffer trivial
  have hp : d1.portfolio[0]? = some (load_cell "1"
      { Subtype := some "Size", N := some "Size", E := none, V := none, O := some 0 }) := by
    rw [hport]; rfl
  refine ⟨d1, _, hadd, hp, rfl, ?_⟩
  have := hinfo 0 _ hp rfl
  rw [big_buffer_length] at this
  exact this

/-! ## Ranks of the positional lookup -/

/-- C4 (amended): for every index built by successive `addEntry` calls from an empty index, the
index is a single root leaf and the positional lookup counts from the last pair: with `n` pairs
in the leaf, `entryByRank(i)` returns the pair at position `n - 1 - i` of the pair sequence
and leaves the index as it is. -/
theorem rank_counts_from_last_pair (doc : pdf_document) (hb : built doc) (root i : Nat)
    (hroot : doc.EmbeddedFiles = some root)
    (hi : i < (node_at doc.heap root).Names.length / 2) :
    leaf_index doc.heap root ∧
    ∃ doc', pdf_portfolio_entry_obj_name doc i = some (doc', .ok
      (pdf_array_get (node_at doc.heap root).Names
          (2 * ((node_at doc.heap root).Names.length / 2 - 1 - i)),
        pdf_array_get (node_at doc.heap root).Names
          (2 * ((node_at doc.heap root).Names.length / 2 - 1 - i) + 1))) ∧
      doc'.heap = doc.heap ∧ doc'.EmbeddedFiles = doc.EmbeddedFiles := by
  have hl := built_leaf_index doc hb root hroot
  exact ⟨hl, _, entry_obj_name_leaf doc root i hroot hl hi, (load_portfolio_heap doc).1,
    (load_portfolio_heap doc).2⟩

/-- C4 (witness): the index built by adding "b" and then "a"; rank 0 is the pair at position 1
of the leaf a, b. -/
theorem rank_counts_from_last_pair_witness :
    built doc_ba ∧ doc_ba.EmbeddedFiles = some 0 ∧
    0 < (node_at doc_ba.heap 0).Names.length / 2 ∧
    (node_at doc_ba.heap 0).Names = [.str "a", entry_val "a", .str "b", entry_val "b"] ∧
    (leaf_index doc_ba.heap 0 ∧
    ∃ doc', pdf_portfolio_entry_obj_name doc_ba ((0 : Nat) : Int) = some (doc', .ok
      (pdf_array_get (node_at doc_ba.heap 0).Names
          (2 * ((node_at doc_ba.heap 0).Names.length / 2 - 1 - 0)),
        pdf_array_get (node_at doc_ba.heap 0).Names
          (2 * ((node_at doc_ba.heap 0).Names.length / 2 - 1 - 0) + 1))) ∧
      doc'.heap = doc_ba.heap ∧ doc'.EmbeddedFiles = doc_ba.EmbeddedFiles) :=
  have hb : built doc_ba :=
    built.add doc_b doc_ba "a" "a" "a" [] 1
      (built.add doc_empty doc_b "b" "b" "b" [] 0 (built.empty doc_empty trivial) rfl) rfl
  ⟨hb, rfl, by decide, rfl, rank_counts_from_last_pair doc_ba hb 0 0 rfl (by decide)⟩

/-! ## The traversal in general -/

/-- Induction over the loop on `Kids`: an invariant `Inv` of the iterations that every
successful call re-establishes gives `Inv` at the end of the loop, a property `Err` of every
failing call gives `Err` for a failing loop. -/
theorem kids_loop_induct {σ : Type} (call : Nat → List Node → σ → Option (MapResult σ))
    (tree : Nat) (Inv : Nat → Int → List Node → σ → Prop)
    (Err : fz_error → List Node → σ → Prop)
    (hnull : ∀ i n g a, Inv (i + 1) n g a → (node_at g tree).Kids[i]? = none →
      Inv i (n - 1) g a)
    (hcall : ∀ i n g a kid r, Inv (i + 1) n g a → (node_at g tree).Kids[i]? = some kid →
      call kid g a = some r →
      (∀ e, r.res = .error e → Err e r.heap r.arg) ∧
      (r.res = .ok true →
        Inv i (n - 1) (set_kids r.heap tree ((node_at r.heap tree).Kids.eraseIdx i)) r.arg) ∧
      (r.res = .ok false → Inv i n r.heap r.arg))
    (i : Nat) (n : Int) (g : List Node) (a : σ) (g' : List Node) (a' : σ)
    (res : Except fz_error Int)
    (hrun : kids_loop call tree i n g a = some (g', a', res)) (hinv : Inv i n g a) :
    (∀ e, res = .error e → Err e g' a') ∧ (∀ n', res = .ok n' → Inv 0 n' g' a') := by
  induction i generalizing n g a with
  | zero =>
    simp only [kids_loop, Option.some.injEq, Prod.mk.injEq] at hrun
    obtain ⟨rfl, rfl, rfl⟩ := hrun
    refine ⟨fun e he => by simp at he, fun n' hn' => ?_⟩
    injection hn' with hn'
    subst hn'
    exact hinv
  | succ i ih =>
    unfold kids_loop at hrun
    split at hrun
    · rename_i hk
      exact ih _ _ _ hrun (hnull i n g a hinv hk)
    · rename_i kid hk
      split at hrun
      · exact absurd hrun (by simp)
      · rename_i r hr
        obtain ⟨h1, h2, h3⟩ := hcall i n g a kid r hinv hk hr
        split at hrun
        · rename_i e he
          simp only [Option.some.injEq, Prod.mk.injEq] at hrun
          obtain ⟨rfl, rfl, rfl⟩ := hrun
          refine ⟨fun e' he' => ?_, fun n' hn' => by simp at hn'⟩
          injection he' with he'
          subst he'
          exact h1 e he
        · rename_i he
          exact ih _ _ _ hrun (h2 he)
        · rename_i he
          exact ih _ _ _ hrun (h3 he)

/-- The loop on `Kids` returns when every call returns. -/
theorem kids_loop_total {σ : Type} (call : Nat → List Node → σ → Option (MapResult σ))
    (tree : Nat) (Inv : List Node → Prop)
    (hcall : ∀ kid g a, Inv g → ∃ r, call kid g a = some r ∧ Inv r.heap)
    (herase : ∀ g i, Inv g → Inv (set_kids g tree ((node_at g tree).Kids.eraseIdx i)))
    (i : Nat) (n : Int) (g : List Node) (a : σ) (hinv : Inv g) :
    ∃ res, kids_loop call tree i n g a = some res := by
  induction i generalizing n g a with
  | zero => exact ⟨_, rfl⟩
  | succ i ih =>
    unfold kids_loop
    split
    · exact ih _ _ _ hinv
    · rename_i kid hk
      obtain ⟨r, hr, hinv'⟩ := hcall kid g a hinv
      rw [hr]
      simp only
      split
      · exact ⟨_, rfl⟩
      · exact ih _ _ _ (herase _ _ hinv')
      · exact ih _ _ _ hinv'

/-- A reference that is not an object of the heap is traversed as the null object: nothing
changes and the call returns 1. -/
theorem do_name_tree_map_null {σ : Type} (fn : pdf_name_tree_map_fn σ) (fuel t : Nat)
    (h : List Node) (a : σ) (ht : h.length ≤ t) :
    do_name_tree_map fn (fuel + 1) t h a = some ⟨h, a, .ok true⟩ := by
  have hn : node_at h t = null_node := node_at_of_le h t ht
  have hs : ∀ nd, h.set t nd = h := fun nd => List.set_eq_of_length_le ht
  unfold do_name_tree_map
  simp [is_marked, pdf_mark_obj, pdf_unmark_obj, set_names, hn, hs, null_node, kids_loop,
    names_loop]

theorem names_loop_length {σ : Type} (fn : pdf_name_tree_map_fn σ) (t c : Nat)
    (arr : List pdf_obj) (m : Int) (a : σ) (hc : 2 * c ≤ arr.length) :
    (names_loop fn t c arr m a).1.length % 2 = arr.length % 2 ∧
      (names_loop fn t c arr m a).1.length ≤ arr.length := by
  induction c generalizing arr m a with
  | zero => exact ⟨rfl, le_refl _⟩
  | succ c ih =>
    unfold names_loop
    simp only
    split
    · have hl : (((arr.set (2 * c + 1) (fn t (pdf_array_get arr (2 * c))
          (pdf_array_get arr (2 * c + 1)) a).2.1).eraseIdx (2 * c + 1)).eraseIdx (2 * c)).length
          = arr.length - 2 := by
        rw [List.length_eraseIdx_of_lt, List.length_eraseIdx_of_lt]
        · simp only [List.length_set]; omega
        · simp only [List.length_set]; omega
        · rw [List.length_eraseIdx_of_lt]
          · simp only [List.length_set]; omega
          · simp only [List.length_set]; omega
      obtain ⟨h1, h2⟩ := ih _ (m - 2) (fn t (pdf_array_get arr (2 * c))
          (pdf_array_get arr (2 * c + 1)) a).2.2 (by rw [hl]; omega)
      rw [hl] at h1 h2
      exact ⟨by omega, by omega⟩
    · obtain ⟨h1, h2⟩ := ih (arr.set (2 * c + 1) (fn t (pdf_array_get arr (2 * c))
          (pdf_array_get arr (2 * c + 1)) a).2.1) m (fn t (pdf_array_get arr (2 * c))
          (pdf_array_get arr (2 * c + 1)) a).2.2 (by simp only [List.length_set]; omega)
      simp only [List.length_set] at h1 h2
      exact ⟨h1, h2⟩

theorem node_evolves_refl (nd : Node) : node_evolves nd nd :=
  ⟨List.Sublist.refl _, rfl, le_refl _, rfl, fun _ => rfl⟩

theorem node_evolves_trans (a b c : Node) (h1 : node_evolves a b) (h2 : node_evolves b c) :
    node_evolves a c := by
  obtain ⟨a1, a2, a3, a4, a5⟩ := h1
  obtain ⟨b1, b2, b3, b4, b5⟩ := h2
  refine ⟨b1.trans a1, by omega, by omega, b4.trans a4, fun ho => ?_⟩
  rw [b5 (by omega), a5 ho]

theorem heap_evolves_refl (h : List Node) : heap_evolves h h :=
  ⟨rfl, fun _ => ⟨rfl, fun _ => rfl, node_evolves_refl _⟩⟩

theorem loop_evolves_refl (t : Nat) (h : List Node) : loop_evolves t h h :=
  ⟨rfl, rfl, fun _ => ⟨rfl, fun _ _ => rfl, node_evolves_refl _⟩⟩

/-- A call made by the loop on `Kids` of the marked node `t` keeps `loop_evolves`. -/
theorem loop_evolves_call (t : Nat) (h g g' : List Node)
    (hm : (node_at h t).marked = true) (h1 : loop_evolves t h g) (h2 : heap_evolves g g') :
    loop_evolves t h g' := by
  obtain ⟨l1, n1, f1⟩ := h1
  obtain ⟨l2, f2⟩ := h2
  have hgt : node_at g' t = node_at g t := (f2 t).2.1 (by rw [(f1 t).1]; exact hm)
  refine ⟨l2.trans l1, by rw [hgt]; exact n1, fun x => ⟨?_, ?_, ?_⟩⟩
  · rw [(f2 x).1, (f1 x).1]
  · intro hx hne
    rw [(f2 x).2.1 (by rw [(f1 x).1]; exact hx), (f1 x).2.1 hx hne]
  · exact node_evolves_trans _ _ _ (f1 x).2.2 (f2 x).2.2

/-- The deletion of a child of `t` keeps `loop_evolves`. -/
theorem loop_evolves_erase (t i : Nat) (h g : List Node) (h1 : loop_evolves t h g) :
    loop_evolves t h (set_kids g t ((node_at g t).Kids.eraseIdx i)) := by
  obtain ⟨l1, n1, f1⟩ := h1
  refine ⟨by simpa using l1, ?_, fun x => ?_⟩
  · rw [node_at_set_kids]
    split
    · exact n1
    · exact n1
  · rw [node_at_set_kids]
    split
    · rename_i hc
      obtain ⟨rfl, -⟩ := hc
      refine ⟨(f1 t).1, fun _ hne => absurd rfl hne, ?_⟩
      obtain ⟨a1, a2, a3, a4, a5⟩ := (f1 t).2.2
      exact ⟨(List.eraseIdx_sublist _ _).trans a1, a2, a3, a4, a5⟩
    · exact f1 x

theorem kids_loop_evolves {σ : Type} (call : Nat → List Node → σ → Option (MapResult σ))
    (hcall : ∀ kid g a r, call kid g a = some r → heap_evolves g r.heap)
    (t : Nat) (h : List Node) (hm : (node_at h t).marked = true)
    (i : Nat) (n : Int) (a : σ) (g : List Node) (a' : σ) (res : Except fz_error Int)
    (hrun : kids_loop call t i n h a = some (g, a', res)) : loop_evolves t h g := by
  have := kids_loop_induct call t (fun _ _ g _ => loop_evolves t h g)
    (fun _ g _ => loop_evolves t h g)
    (fun i n g a hinv _ => hinv)
    (fun i n g a kid r hinv _ hr =>
      have h1 := loop_evolves_call t h g r.heap hm hinv (hcall kid g a r hr)
      ⟨fun _ _ => h1, fun _ => loop_evolves_erase t i h r.heap h1, fun _ => h1⟩)
    i n h a g a' res hrun (loop_evolves_refl t h)
  cases res with
  | error e => exact this.1 e rfl
  | ok n' => exact this.2 n' rfl

theorem set_names_self (g : List Node) (t : Nat) : set_names g t (node_at g t).Names = g := by
  unfold set_names
  exact set_node_at_self g t

/-- The end of a call of `do_name_tree_map` on the node `t`: after the loop on `Kids`, the pair
sequence of `t` is replaced and `t` is unmarked. -/
theorem finish_evolves (t : Nat) (h g : List Node) (ns : List pdf_obj) (ht : t < h.length)
    (hm : (node_at h t).marked = false) (hl : loop_evolves t (pdf_mark_obj h t) g)
    (h1 : ns.length % 2 = (node_at h t).Names.length % 2)
    (h2 : ns.length ≤ (node_at h t).Names.length)
    (h3 : (node_at h t).Names.length % 2 = 1 → ns = (node_at h t).Names) :
    heap_evolves h (pdf_unmark_obj (set_names g t ns) t) := by
  obtain ⟨l1, n1, f1⟩ := hl
  have hgl : g.length = h.length := by simpa using l1
  have hgt : t < g.length := by omega
  refine ⟨by simpa using hgl, fun x => ?_⟩
  have hx := f1 x
  rw [node_at_mark] at hx n1
  simp only [ht, and_true, if_true] at n1
  rw [node_at_unmark, node_at_set_names]
  simp only [length_set_names, hgt, and_true, if_true]
  by_cases htx : t = x
  · subst htx
    simp only [ht, and_self, if_true] at hx ⊢
    refine ⟨hm.symm, fun hc => absurd hc (by simp [hm]), ?_⟩
    obtain ⟨a1, a2, a3, a4, a5⟩ := hx.2.2
    exact ⟨a1, h1, h2, a4, h3⟩
  · simp only [htx, false_and, if_false] at hx ⊢
    rw [node_at_set_names]
    simp only [htx, false_and, if_false]
    exact ⟨hx.1, fun hc => hx.2.1 hc (fun e => htx e.symm), hx.2.2⟩

/-- Frame of the traversal: whatever way a call of `do_name_tree_map` ends, no object is
created, every mark is as before the call, marked objects are untouched, and a node can only
lose children and pairs. -/
theorem do_name_tree_map_evolves {σ : Type} (fn : pdf_name_tree_map_fn σ) (fuel t : Nat)
    (h : List Node) (a : σ) (r : MapResult σ)
    (hr : do_name_tree_map fn fuel t h a = some r) : heap_evolves h r.heap := by
  induction fuel generalizing t h a r with
  | zero => simp [do_name_tree_map] at hr
  | succ fuel ih =>
    by_cases ht : t < h.length
    · rcases do_name_tree_map_succ fn fuel t h a r hr with ⟨-, rfl⟩ | ⟨hm, g, a', res, hloop, hc⟩
      · exact heap_evolves_refl h
      · have hm' : (node_at h t).marked = false := hm
        have hl := kids_loop_evolves _ (fun kid g a r hr => ih kid g a r hr) t (pdf_mark_obj h t)
          (by simp [node_at_mark, ht]) _ _ _ g a' res hloop
        have hn : (node_at g t).Names = (node_at h t).Names := by
          rw [hl.2.1, node_at_mark]; simp [ht]
        rcases hc with ⟨e, -, rfl⟩ | ⟨n, -, -, rfl⟩ | ⟨n, -, hev, rfl⟩
        · have := finish_evolves t h g (node_at g t).Names ht hm' hl (by rw [hn]) (by rw [hn])
            (fun _ => hn)
          rw [set_names_self] at this
          exact this
        · have := finish_evolves t h g (node_at g t).Names ht hm' hl (by rw [hn]) (by rw [hn])
            (fun _ => hn)
          rw [set_names_self] at this
          exact this
        · obtain ⟨p1, p2⟩ := names_loop_length fn t ((node_at g t).Names.length / 2)
            (node_at g t).Names ((node_at g t).Names.length : Int) a' (by omega)
          exact finish_evolves t h g _ ht hm' hl (by rw [← hn]; exact p1)
            (by rw [← hn]; exact p2) (fun ho => by rw [← hn] at ho; omega)
    · rw [do_name_tree_map_null fn fuel t h a (by omega)] at hr
      injection hr with hr
      subst hr
      exact heap_evolves_refl h

/-! ## Termination of the traversal -/

theorem unmarked_congr (g g' : List Node) (hl : g'.length = g.length)
    (hm : ∀ x, (node_at g' x).marked = (node_at g x).marked) : unmarked g' = unmarked g := by
  unfold unmarked
  rw [hl]
  apply Finset.filter_congr
  intro x _
  rw [hm x]

theorem unmarked_mark_lt (h : List Node) (t : Nat) (ht : t < h.length)
    (hm : (node_at h t).marked = false) :
    (unmarked (pdf_mark_obj h t)).card < (unmarked h).card := by
  apply Finset.card_lt_card
  rw [Finset.ssubset_iff_of_subset]
  · refine ⟨t, ?_, ?_⟩
    · simp [unmarked, ht, hm]
    · simp [unmarked, ht, node_at_mark]
  · intro x hx
    simp only [unmarked, Finset.mem_filter, Finset.mem_range, length_pdf_mark_obj,
      node_at_mark, ht, and_true] at hx ⊢
    refine ⟨hx.1, ?_⟩
    by_cases htx : t = x
    · subst htx; exact hm
    · simpa [htx] using hx.2

/-- Termination: a call of `do_name_tree_map` returns (normally or with an error) as soon as
the bound on the depth exceeds the number of unmarked objects of the heap. -/
theorem do_name_tree_map_total {σ : Type} (fn : pdf_name_tree_map_fn σ) (fuel t : Nat)
    (h : List Node) (a : σ) (hf : (unmarked h).card < fuel) :
    ∃ r, do_name_tree_map fn fuel t h a = some r := by
  induction fuel generalizing t h a with
  | zero => omega
  | succ fuel ih =>
    by_cases ht : t < h.length
    · by_cases hm : is_marked h t = true
      · unfold do_name_tree_map
        simp [hm]
      · have hm' : (node_at h t).marked = false := by simpa [is_marked] using hm
        have hlt := unmarked_mark_lt h t ht hm'
        obtain ⟨res, hres⟩ := kids_loop_total (do_name_tree_map fn fuel) t
          (fun g => (unmarked g).card < fuel)
          (fun kid g a hg => by
            obtain ⟨r, hr⟩ := ih kid g a hg
            refine ⟨r, hr, ?_⟩
            have hev := do_name_tree_map_evolves fn fuel kid g a r hr
            show (unmarked r.heap).card < fuel
            rw [unmarked_congr g r.heap hev.1 (fun x => (hev.2 x).1)]
            exact hg)
          (fun g i hg => by
            show (unmarked (set_kids g t ((node_at g t).Kids.eraseIdx i))).card < fuel
            rw [unmarked_congr g _ (by simp) (fun x => by
              rw [node_at_set_kids]; split
              · rename_i hc; rw [hc.1]
              · rfl)]
            exact hg)
          (node_at (pdf_mark_obj h t) t).Kids.length
          ((node_at (pdf_mark_obj h t) t).Kids.length : Int) (pdf_mark_obj h t) a (by omega)
        unfold do_name_tree_map
        simp only [hm, if_false]
        rw [hres]
        obtain ⟨g, a', res⟩ := res
        cases res with
        | error e => exact ⟨_, rfl⟩
        | ok n =>
          simp only
          by_cases hodd : (node_at g t).Names.length % 2 = 1
          · exact ⟨_, if_pos hodd⟩
          · exact ⟨_, if_neg hodd⟩
    · exact ⟨_, do_name_tree_map_null fn fuel t h a (by omega)⟩

theorem unmarked_card_le (h : List Node) : (unmarked h).card ≤ h.length := by
  unfold unmarked
  calc ((Finset.range h.length).filter _).card ≤ (Finset.range h.length).card :=
        Finset.card_filter_le _ _
    _ = h.length := Finset.card_range _

/-- The traversal started by `pdf_name_tree_map` always returns. -/
theorem pdf_name_tree_map_total {σ : Type} (fn : pdf_name_tree_map_fn σ) (t : Nat)
    (h : List Node) (a : σ) : ∃ r, pdf_name_tree_map fn t h a = some r :=
  do_name_tree_map_total fn (h.length + 1) t h a (by have := unmarked_card_le h; omega)

/-! ## The graph of child references -/

theorem reach_mono (h h' : List Node) (hk : ∀ x k, k ∈ (node_at h' x).Kids → k ∈ (node_at h x).Kids)
    (t x : Nat) (hr : reach h' t x) : reach h t x :=
  Relation.ReflTransGen.mono (fun a b hab => hk a b hab) hr

theorem acyclic_mono (h h' : List Node)
    (hk : ∀ x k, k ∈ (node_at h' x).Kids → k ∈ (node_at h x).Kids)
    (t : Nat) (ha : acyclic h t) : acyclic h' t := by
  induction ha with
  | node t _ ih => exact acyclic.node t (fun k hk' => ih k (hk t k hk'))

theorem well_formed_mono (h h' : List Node)
    (hk : ∀ x k, k ∈ (node_at h' x).Kids → k ∈ (node_at h x).Kids)
    (hp : ∀ x, (node_at h' x).Names.length % 2 = (node_at h x).Names.length % 2)
    (t : Nat) (ha : well_formed h t) : well_formed h' t := by
  induction ha with
  | node t he _ ih =>
    exact well_formed.node t (by rw [hp t]; exact he) (fun k hk' => ih k (hk t k hk'))

theorem acyclic_reach (h : List Node) (t x : Nat) (ha : acyclic h t) (hr : reach h t x) :
    acyclic h x := by
  induction hr with
  | refl => exact ha
  | tail _ hbc ih =>
    cases ih with
    | node _ hk => exact hk _ hbc

theorem well_formed_reach (h : List Node) (t x : Nat) (ha : well_formed h t)
    (hr : reach h t x) : well_formed h x := by
  induction hr with
  | refl => exact ha
  | tail _ hbc ih =>
    cases ih with
    | node _ _ hk => exact hk _ hbc

theorem well_formed_even (h : List Node) (t : Nat) (ha : well_formed h t) :
    (node_at h t).Names.length % 2 = 0 := by
  cases ha with
  | node _ he _ => exact he

theorem well_formed_acyclic (h : List Node) (t : Nat) (ha : well_formed h t) : acyclic h t := by
  induction ha with
  | node t _ _ ih => exact acyclic.node t ih

theorem acyclic_not_below (h : List Node) (t : Nat) (ha : acyclic h t) :
    ∀ y, reach h t y → ¬ descendant h y t := by
  induction ha with
  | node t _ ih =>
    intro y hty hyt
    have htt : Relation.TransGen (kid_of h) t t :=
      Relation.TransGen.trans_right hty hyt
    obtain ⟨k, htk, hkt⟩ := Relation.TransGen.head'_iff.mp htt
    exact ih k htk t hkt (Relation.TransGen.single htk)

theorem acyclic_not_descendant (h : List Node) (t : Nat) (ha : acyclic h t) :
    ¬ descendant h t t :=
  acyclic_not_below h t ha t Relation.ReflTransGen.refl

theorem mem_of_getElem?_eq_some {α : Type} (l : List α) (i : Nat) (x : α)
    (h : l[i]? = some x) : x ∈ l := by
  rw [List.getElem?_eq_some] at h
  obtain ⟨hi, rfl⟩ := h
  exact List.getElem_mem hi

/-- What the loop on `Kids` of `t`, run from the heap `h` with `t` marked, keeps of `h`. -/
theorem loop_evolves_facts (t : Nat) (h g : List Node) (ht : t < h.length)
    (hl : loop_evolves t (pdf_mark_obj h t) g) :
    (∀ x k, k ∈ (node_at g x).Kids → k ∈ (node_at h x).Kids) ∧
    (∀ x, (node_at g x).Names.length % 2 = (node_at h x).Names.length % 2) ∧
    (∀ x, x ≠ t → (node_at g x).marked = (node_at h x).marked) ∧
    (node_at g t).Names = (node_at h t).Names := by
  obtain ⟨l1, n1, f1⟩ := hl
  have hnode : ∀ x, (node_at (pdf_mark_obj h t) x).Kids = (node_at h x).Kids ∧
      (node_at (pdf_mark_obj h t) x).Names = (node_at h x).Names ∧
      (x ≠ t → (node_at (pdf_mark_obj h t) x).marked = (node_at h x).marked) := by
    intro x
    rw [node_at_mark]
    by_cases htx : t = x
    · subst htx
      simp [ht]
    · simp [htx]
  refine ⟨fun x k hk => ?_, fun x => ?_, fun x hx => ?_, ?_⟩
  · rw [← (hnode x).1]
    exact (f1 x).2.2.1.subset hk
  · rw [(f1 x).2.2.2.1, (hnode x).2.1]
  · rw [(f1 x).1, (hnode x).2.2 hx]
  · rw [n1, (hnode t).2.1]

theorem heap_evolves_kids (h h' : List Node) (hev : heap_evolves h h') :
    ∀ x k, k ∈ (node_at h' x).Kids → k ∈ (node_at h x).Kids :=
  fun x _ hk => (hev.2 x).2.2.1.subset hk

/-! ## Errors of the traversal -/

/-- A failing traversal fails with RecursiveStructure or with MalformedInput. -/
theorem do_name_tree_map_error {σ : Type} (fn : pdf_name_tree_map_fn σ) (fuel t : Nat)
    (h : List Node) (a : σ) (r : MapResult σ) (e : fz_error)
    (hr : do_name_tree_map fn fuel t h a = some r) (he : r.res = .error e) :
    e = .RecursiveStructure ∨ e = .MalformedInput := by
  induction fuel generalizing t h a r e with
  | zero => simp [do_name_tree_map] at hr
  | succ fuel ih =>
    rcases do_name_tree_map_succ fn fuel t h a r hr with ⟨-, rfl⟩ | ⟨-, g, a', res, hloop, hc⟩
    · injection he with he
      exact Or.inl he.symm
    · have := kids_loop_induct (do_name_tree_map fn fuel) t (fun _ _ _ _ => True)
        (fun e _ _ => e = .RecursiveStructure ∨ e = .MalformedInput)
        (fun _ _ _ _ _ _ => trivial)
        (fun i n g a kid r _ _ hr' =>
          ⟨fun e he' => ih kid g a r e hr' he', fun _ => trivial, fun _ => trivial⟩)
        _ _ _ _ g a' res hloop trivial
      rcases hc with ⟨e', rfl, rfl⟩ | ⟨n, -, -, rfl⟩ | ⟨n, -, -, rfl⟩
      · injection he with he
        subst he
        exact this.1 e' rfl
      · injection he with he
        exact Or.inr he.symm
      · simp at he

/-- When every pair sequence reachable from the node has even length, the traversal does not
fail with MalformedInput. -/
theorem do_name_tree_map_not_malformed {σ : Type} (fn : pdf_name_tree_map_fn σ) (fuel t : Nat)
    (h : List Node) (a : σ) (r : MapResult σ)
    (heven : ∀ x, reach h t x → (node_at h x).Names.length % 2 = 0)
    (hr : do_name_tree_map fn fuel t h a = some r) : r.res ≠ .error .MalformedInput := by
  induction fuel generalizing t h a r with
  | zero => simp [do_name_tree_map] at hr
  | succ fuel ih =>
    by_cases ht : t < h.length
    · rcases do_name_tree_map_succ fn fuel t h a r hr with ⟨-, rfl⟩ | ⟨-, g, a', res, hloop, hc⟩
      · simp
      · have hl := kids_loop_evolves _
          (fun kid g a r hr => do_name_tree_map_evolves fn fuel kid g a r hr) t
          (pdf_mark_obj h t) (by simp [node_at_mark, ht]) _ _ _ g a' res hloop
        have hind := kids_loop_induct (do_name_tree_map fn fuel) t
          (fun _ _ g _ => loop_evolves t (pdf_mark_obj h t) g)
          (fun e _ _ => e ≠ .MalformedInput)
          (fun _ _ _ _ hinv _ => hinv)
          (fun i n g a kid r hinv hk hr' => by
            have hev := do_name_tree_map_evolves fn fuel kid g a r hr'
            have h1 := loop_evolves_call t _ g r.heap (by simp [node_at_mark, ht]) hinv hev
            refine ⟨fun e he' => ?_, fun _ => loop_evolves_erase t i _ r.heap h1, fun _ => h1⟩
            obtain ⟨f1, f2, -, -⟩ := loop_evolves_facts t h g ht hinv
            have hkid : kid_of h t kid := f1 t kid (mem_of_getElem?_eq_some _ _ _ hk)
            have := ih kid g a r (fun x hx => by
              rw [f2 x]
              exact heven x (Relation.ReflTransGen.head hkid (reach_mono h g f1 kid x hx))) hr'
            intro hc
            rw [hc] at he'
            exact this he')
          _ _ _ _ g a' res hloop (loop_evolves_refl t _)
        rcases hc with ⟨e', rfl, rfl⟩ | ⟨n, -, hodd, rfl⟩ | ⟨n, -, -, rfl⟩
        · intro hc
          injection hc with hc
          exact hind.1 e' rfl hc
        · obtain ⟨-, -, -, f4⟩ := loop_evolves_facts t h g ht hl
          rw [f4, heven t Relation.ReflTransGen.refl] at hodd
          omega
        · simp
    · rw [do_name_tree_map_null fn fuel t h a (by omega)] at hr
      injection hr with hr
      subst hr
      simp

/-- On an acyclic graph below the node none of whose nodes is marked, the traversal does not
fail with RecursiveStructure. -/
theorem do_name_tree_map_not_recursive {σ : Type} (fn : pdf_name_tree_map_fn σ) (fuel t : Nat)
    (h : List Node) (a : σ) (r : MapResult σ) (hac : acyclic h t)
    (hun : ∀ x, reach h t x → (node_at h x).marked = false)
    (hr : do_name_tree_map fn fuel t h a = some r) : r.res ≠ .error .RecursiveStructure := by
  induction fuel generalizing t h a r with
  | zero => simp [do_name_tree_map] at hr
  | succ fuel ih =>
    by_cases ht : t < h.length
    · rcases do_name_tree_map_succ fn fuel t h a r hr with ⟨hm, -⟩ | ⟨-, g, a', res, hloop, hc⟩
      · have := hun t Relation.ReflTransGen.refl
        rw [is_marked, this] at hm
        exact absurd hm (by simp)
      · have hind := kids_loop_induct (do_name_tree_map fn fuel) t
          (fun _ _ g _ => loop_evolves t (pdf_mark_obj h t) g)
          (fun e _ _ => e ≠ .RecursiveStructure)
          (fun _ _ _ _ hinv _ => hinv)
          (fun i n g a kid r hinv hk hr' => by
            have hev := do_name_tree_map_evolves fn fuel kid g a r hr'
            have h1 := loop_evolves_call t _ g r.heap (by simp [node_at_mark, ht]) hinv hev
            refine ⟨fun e he' => ?_, fun _ => loop_evolves_erase t i _ r.heap h1, fun _ => h1⟩
            obtain ⟨f1, -, f3, -⟩ := loop_evolves_facts t h g ht hinv
            have hkid : kid_of h t kid := f1 t kid (mem_of_getElem?_eq_some _ _ _ hk)
            have hack : acyclic h kid := by
              cases hac with
              | node _ hk' => exact hk' kid hkid
            have := ih kid g a r (acyclic_mono h g f1 kid hack) (fun x hx => by
              have hx' := reach_mono h g f1 kid x hx
              have hne : x ≠ t := by
                intro hxt
                subst hxt
                exact acyclic_not_descendant h x hac (Relation.TransGen.head' hkid hx')
              rw [f3 x hne]
              exact hun x (Relation.ReflTransGen.head hkid hx')) hr'
            intro hc
            rw [hc] at he'
            exact this he')
          _ _ _ _ g a' res hloop (loop_evolves_refl t _)
        rcases hc with ⟨e', rfl, rfl⟩ | ⟨n, -, -, rfl⟩ | ⟨n, -, -, rfl⟩
        · intro hc
          injection hc with hc
          exact hind.1 e' rfl hc
        · simp
        · simp
    · rw [do_name_tree_map_null fn fuel t h a (by omega)] at hr
      injection hr with hr
      subst hr
      simp

theorem kids_set_kids (g : List Node) (t x : Nat) (ks : List Nat) :
    (node_at (set_kids g t ks) x).Kids =
      if t = x ∧ t < g.length then ks else (node_at g x).Kids := by
  rw [node_at_set_kids]
  split <;> rfl

theorem names_set_kids (g : List Node) (t x : Nat) (ks : List Nat) :
    (node_at (set_kids g t ks) x).Names = (node_at g x).Names := by
  rw [node_at_set_kids]
  split
  · rename_i hc; rw [hc.1]
  · rfl

theorem kids_mark (h : List Node) (t x : Nat) :
    (node_at (pdf_mark_obj h t) x).Kids = (node_at h x).Kids := by
  rw [node_at_mark]
  split
  · rename_i hc; rw [hc.1]
  · rfl

theorem names_mark (h : List Node) (t x : Nat) :
    (node_at (pdf_mark_obj h t) x).Names = (node_at h x).Names := by
  rw [node_at_mark]
  split
  · rename_i hc; rw [hc.1]
  · rfl

theorem node_at_finish (g : List Node) (t x : Nat) (ns : List pdf_obj) :
    node_at (pdf_unmark_obj (set_names g t ns) t) x =
      if t = x ∧ t < g.length then { node_at g t with Names := ns, marked := false }
      else node_at g x := by
  rw [node_at_unmark, node_at_set_names]
  simp only [length_set_names]
  by_cases hc : t = x ∧ t < g.length
  · obtain ⟨rfl, hlt⟩ := hc
    simp [hlt]
  · rw [if_neg hc, if_neg hc, node_at_set_names, if_neg hc]

theorem kids_finish (g : List Node) (t x : Nat) (ns : List pdf_obj) :
    (node_at (pdf_unmark_obj (set_names g t ns) t) x).Kids = (node_at g x).Kids := by
  rw [node_at_finish]
  split
  · rename_i hc; rw [hc.1]
  · rfl

theorem names_finish (g : List Node) (t x : Nat) (ns : List pdf_obj) :
    (node_at (pdf_unmark_obj (set_names g t ns) t) x).Names =
      if t = x ∧ t < g.length then ns else (node_at g x).Names := by
  rw [node_at_finish]
  split <;> rfl

theorem mem_eraseIdx_or {α : Type} (l : List α) (i : Nat) (k : α) (hk : k ∈ l) :
    k ∈ l.eraseIdx i ∨ l[i]? = some k := by
  obtain ⟨j, hj⟩ := List.mem_iff_getElem?.mp hk
  rcases Nat.lt_trichotomy j i with hlt | heq | hgt
  · left
    apply List.mem_iff_getElem?.mpr
    exact ⟨j, by rw [List.getElem?_eraseIdx_of_lt _ _ _ hlt]; exact hj⟩
  · right
    subst heq
    exact hj
  · left
    apply List.mem_iff_getElem?.mpr
    refine ⟨j - 1, ?_⟩
    rw [List.getElem?_eraseIdx_of_ge _ _ _ (by omega)]
    have : j - 1 + 1 = j := by omega
    rw [this]
    exact hj

/-- Putting back a deleted child that is well formed keeps every node well formed. -/
theorem well_formed_unerase (g : List Node) (t i kid : Nat)
    (hk : (node_at g t).Kids[i]? = some kid) (hwf : well_formed g kid) (x : Nat)
    (hx : well_formed (set_kids g t ((node_at g t).Kids.eraseIdx i)) x) : well_formed g x := by
  induction hx with
  | node x he _ ih =>
    rw [names_set_kids] at he
    refine well_formed.node x he (fun k hkx => ?_)
    by_cases hc : t = x ∧ t < g.length
    · have hx : t = x := hc.1
      subst hx
      rcases mem_eraseIdx_or _ i k hkx with h1 | h1
      · apply ih k
        rw [kids_set_kids, if_pos hc]
        exact h1
      · rw [hk] at h1
        injection h1 with h1
        subst h1
        exact hwf
    · apply ih k
      rw [kids_set_kids, if_neg hc]
      exact hkx

theorem well_formed_null (h : List Node) (t : Nat) (ht : h.length ≤ t) : well_formed h t := by
  refine well_formed.node t ?_ ?_
  · rw [node_at_of_le h t ht]; rfl
  · rw [node_at_of_le h t ht]
    intro k hk
    simp [null_node] at hk

/-- A traversal that returns normally has walked an acyclic tree with pair sequences of even
length; and whatever is such a tree in the heap it leaves was one before the call. -/
theorem do_name_tree_map_ok_well_formed {σ : Type} (fn : pdf_name_tree_map_fn σ)
    (fuel t : Nat) (h : List Node) (a : σ) (r : MapResult σ) (b : Bool)
    (hr : do_name_tree_map fn fuel t h a = some r) (hok : r.res = .ok b) :
    well_formed h t ∧ ∀ x, well_formed r.heap x → well_formed h x := by
  induction fuel generalizing t h a r b with
  | zero => simp [do_name_tree_map] at hr
  | succ fuel ih =>
    by_cases ht : t < h.length
    · rcases do_name_tree_map_succ fn fuel t h a r hr with ⟨-, rfl⟩ | ⟨-, g, a', res, hloop, hc⟩
      · simp at hok
      · have hmk : (node_at (pdf_mark_obj h t) t).marked = true := by simp [node_at_mark, ht]
        have hK : (node_at (pdf_mark_obj h t) t).Kids = (node_at h t).Kids := by
          simp [node_at_mark, ht]
        have hind := kids_loop_induct (do_name_tree_map fn fuel) t
          (fun i _ g _ => loop_evolves t (pdf_mark_obj h t) g ∧ i ≤ (node_at h t).Kids.length ∧
            (∀ j, j < i → (node_at g t).Kids[j]? = (node_at h t).Kids[j]?) ∧
            (∀ j k, i ≤ j → (node_at h t).Kids[j]? = some k → well_formed h k) ∧
            (∀ x, well_formed g x → well_formed h x))
          (fun _ _ _ => True)
          (fun i n g a hinv hk => by
            obtain ⟨-, h2, h3, -, -⟩ := hinv
            rw [h3 i (by omega), List.getElem?_eq_none_iff] at hk
            omega)
          (fun i n g a kid r hinv hk hr' => by
            obtain ⟨h1, h2, h3, h4, h5⟩ := hinv
            have hev := do_name_tree_map_evolves fn fuel kid g a r hr'
            have h1' := loop_evolves_call t _ g r.heap hmk h1 hev
            have hgt : node_at r.heap t = node_at g t :=
              (hev.2 t).2.1 (by rw [(h1.2.2 t).1]; exact hmk)
            have hKi : (node_at h t).Kids[i]? = some kid := by rw [← h3 i (by omega)]; exact hk
            have key : ∀ b', r.res = .ok b' →
                well_formed h kid ∧ well_formed r.heap kid ∧
                  ∀ x, well_formed r.heap x → well_formed h x := by
              intro b' hb'
              obtain ⟨w1, w2⟩ := ih kid g a r b' hr' hb'
              exact ⟨h5 kid w1, well_formed_mono g r.heap (heap_evolves_kids g r.heap hev)
                (fun x => (hev.2 x).2.2.2.1) kid w1, fun x hx => h5 x (w2 x hx)⟩
            have hP : ∀ b', r.res = .ok b' →
                ∀ j k, i ≤ j → (node_at h t).Kids[j]? = some k → well_formed h k := by
              intro b' hb' j k hij hjk
              rcases Nat.eq_or_lt_of_le hij with heq | hlt
              · subst heq
                rw [hKi] at hjk
                injection hjk with hjk
                subst hjk
                exact (key b' hb').1
              · exact h4 j k (by omega) hjk
            refine ⟨fun _ _ => trivial, fun hres => ?_, fun hres => ?_⟩
            · obtain ⟨-, k2, k3⟩ := key true hres
              refine ⟨loop_evolves_erase t i _ r.heap h1', by omega, fun j hj => ?_,
                hP true hres, fun x hx => ?_⟩
              · rw [kids_set_kids]
                split
                · rw [List.getElem?_eraseIdx_of_lt _ _ _ hj, hgt]
                  exact h3 j (by omega)
                · rw [hgt]
                  exact h3 j (by omega)
              · exact k3 x (well_formed_unerase r.heap t i kid (by rw [hgt]; exact hk) k2 x hx)
            · obtain ⟨-, -, k3⟩ := key false hres
              exact ⟨h1', by omega, fun j hj => by rw [hgt]; exact h3 j (by omega),
                hP false hres, k3⟩)
          _ _ _ _ g a' res hloop
          ⟨loop_evolves_refl t _, by rw [hK], fun j _ => by rw [hK],
            fun j k hj hk => by
              rw [hK] at hj
              rw [List.getElem?_eq_none (by omega)] at hk
              exact absurd hk (by simp),
            fun x hx => well_formed_mono _ h (fun x k hk => by rw [kids_mark]; exact hk)
              (fun x => by rw [names_mark]) x hx⟩
        rcases hc with ⟨e', rfl, rfl⟩ | ⟨n, -, -, rfl⟩ | ⟨n, rfl, hev, rfl⟩
        · simp at hok
        · simp at hok
        · obtain ⟨h1, -, -, h4, h5⟩ := hind.2 n rfl
          obtain ⟨-, -, -, f4⟩ := loop_evolves_facts t h g ht h1
          have hgl : t < g.length := by rw [h1.1]; simpa using ht
          refine ⟨well_formed.node t (by rw [← f4]; exact hev) (fun k hk => ?_), fun x hx => ?_⟩
          · obtain ⟨j, hj⟩ := List.mem_iff_getElem?.mp hk
            exact h4 j k (by omega) hj
          · apply h5 x
            refine well_formed_mono _ g (fun x k hk => ?_) (fun x => ?_) x hx
            · rw [kids_finish]; exact hk
            · obtain ⟨p1, -⟩ := names_loop_length fn t ((node_at g t).Names.length / 2)
                (node_at g t).Names ((node_at g t).Names.length : Int) a' (by omega)
              rw [names_finish]
              split
              · rename_i hc; rw [← hc.1]; exact p1.symm
              · rfl
    · rw [do_name_tree_map_null fn fuel t h a (by omega)] at hr
      injection hr with hr
      subst hr
      exact ⟨well_formed_null h t (by omega), fun x hx => hx⟩

/-- C8: for every finite index graph in which some node reachable from the root through child
references is its own descendant, with all pair sequences of even length, and every visitor,
the traversal terminates and fails with RecursiveStructure: `pdf_name_tree_map` returns that
error, and so does `do_name_tree_map` with any bound on the depth above the number of
objects. -/
theorem cyclic_index_fails_recursive {σ : Type} (fn : pdf_name_tree_map_fn σ) (h : List Node)
    (root : Nat) (a : σ) (hcyc : ∃ x, reach h root x ∧ descendant h x x)
    (heven : ∀ x, reach h root x → (node_at h x).Names.length % 2 = 0) :
    (∃ r, pdf_name_tree_map fn root h a = some r ∧ r.res = .error .RecursiveStructure) ∧
    ∀ fuel, h.length < fuel →
      ∃ r, do_name_tree_map fn fuel root h a = some r ∧ r.res = .error .RecursiveStructure := by
  have key : ∀ fuel, h.length < fuel →
      ∃ r, do_name_tree_map fn fuel root h a = some r ∧ r.res = .error .RecursiveStructure := by
    intro fuel hf
    obtain ⟨r, hr⟩ := do_name_tree_map_total fn fuel root h a
      (by have := unmarked_card_le h; omega)
    refine ⟨r, hr, ?_⟩
    cases hres : r.res with
    | ok b =>
      obtain ⟨x, hx1, hx2⟩ := hcyc
      have hwf := (do_name_tree_map_ok_well_formed fn _ root h a r b hr hres).1
      exact absurd hx2 (acyclic_not_descendant h x
        (acyclic_reach h root x (well_formed_acyclic h root hwf) hx1))
    | error e =>
      rcases do_name_tree_map_error fn _ root h a r e hr hres with rfl | rfl
      · rfl
      · exact absurd hres (do_name_tree_map_not_malformed fn _ root h a r heven hr)
  exact ⟨key (h.length + 1) (Nat.lt_succ_self _), key⟩

/-- C8 (witness): the root that is its own child, traversed by the counting visitor. -/
theorem cyclic_index_fails_recursive_witness :
    (∃ x, reach heap_self 0 x ∧ descendant heap_self x x) ∧
    (∀ x, reach heap_self 0 x → (node_at heap_self x).Names.length % 2 = 0) ∧
    pdf_name_tree_map count_nodes 0 heap_self 0 =
      some ⟨heap_self, 0, .error .RecursiveStructure⟩ ∧
    ((∃ r, pdf_name_tree_map count_nodes 0 heap_self 0 = some r ∧
      r.res = .error .RecursiveStructure) ∧
    ∀ fuel, heap_self.length < fuel →
      ∃ r, do_name_tree_map count_nodes fuel 0 heap_self 0 = some r ∧
        r.res = .error .RecursiveStructure) :=
  have hcyc : ∃ x, reach heap_self 0 x ∧ descendant heap_self x x :=
    ⟨0, Relation.ReflTransGen.refl, Relation.TransGen.single (by simp [kid_of, node_at, heap_self])⟩
  have heven : ∀ x, reach heap_self 0 x → (node_at heap_self x).Names.length % 2 = 0 :=
    fun x _ => by cases x <;> rfl
  ⟨hcyc, heven, rfl, cyclic_index_fails_recursive count_nodes heap_self 0 0 hcyc heven⟩

theorem names_loop_arg {σ : Type} (fn : pdf_name_tree_map_fn σ) (P : σ → Prop)
    (hP : ∀ c k v a, P a → P (fn c k v a).2.2) (t c : Nat) (arr : List pdf_obj) (m : Int)
    (a : σ) (ha : P a) : P (names_loop fn t c arr m a).2.2 := by
  induction c generalizing arr m a with
  | zero => exact ha
  | succ c ih =>
    unfold names_loop
    simp only
    split
    · exact ih _ _ _ (hP _ _ _ _ ha)
    · exact ih _ _ _ (hP _ _ _ _ ha)

/-- A property of `arg` that every call of the visitor keeps holds after the traversal. -/
theorem do_name_tree_map_arg {σ : Type} (fn : pdf_name_tree_map_fn σ) (P : σ → Prop)
    (hP : ∀ c k v a, P a → P (fn c k v a).2.2) (fuel t : Nat) (h : List Node) (a : σ)
    (r : MapResult σ) (ha : P a) (hr : do_name_tree_map fn fuel t h a = some r) : P r.arg := by
  induction fuel generalizing t h a r with
  | zero => simp [do_name_tree_map] at hr
  | succ fuel ih =>
    rcases do_name_tree_map_succ fn fuel t h a r hr with ⟨-, rfl⟩ | ⟨-, g, a', res, hloop, hc⟩
    · exact ha
    · have hind := kids_loop_induct (do_name_tree_map fn fuel) t
        (fun _ _ _ a => P a) (fun _ _ a => P a)
        (fun _ _ _ _ hinv _ => hinv)
        (fun i n g a kid r hinv _ hr' =>
          have h1 : P r.arg := ih kid g a r hinv hr'
          ⟨fun _ _ => h1, fun _ => h1, fun _ => h1⟩)
        _ _ _ _ g a' res hloop ha
      have ha' : P a' := by
        cases res with
        | error e => exact hind.1 e rfl
        | ok n => exact hind.2 n rfl
      rcases hc with ⟨e', -, rfl⟩ | ⟨n, -, -, rfl⟩ | ⟨n, -, hev, rfl⟩
      · exact ha'
      · exact ha'
      · exact names_loop_arg fn P hP t _ _ _ a' ha'

theorem names_loop_clean {σ : Type} (fn : pdf_name_tree_map_fn σ) (Q : pdf_obj → Prop)
    (P : σ → Prop) (hP : ∀ c k v a, P a → P (fn c k v a).2.2)
    (hQ : ∀ c k v a, P a → Q (fn c k v a).2.1) (t c : Nat) (arr : List pdf_obj) (m : Int)
    (a : σ) (ha : P a) (hc : 2 * c ≤ arr.length)
    (hdone : ∀ j, c ≤ j → 2 * j + 1 < arr.length → Q (pdf_array_get arr (2 * j + 1))) :
    ∀ j, 2 * j + 1 < (names_loop fn t c arr m a).1.length →
      Q (pdf_array_get (names_loop fn t c arr m a).1 (2 * j + 1)) := by
  induction c generalizing arr m a with
  | zero => exact fun j hj => hdone j (Nat.zero_le _) hj
  | succ c ih =>
    unfold names_loop
    simp only
    have hset : ∀ j, c ≤ j → 2 * j + 1 < arr.length →
        Q (pdf_array_get (arr.set (2 * c + 1) (fn t (pdf_array_get arr (2 * c))
          (pdf_array_get arr (2 * c + 1)) a).2.1) (2 * j + 1)) := by
      intro j hj hlt
      unfold pdf_array_get
      rw [List.getElem?_set]
      by_cases hjc : 2 * c + 1 = 2 * j + 1
      · rw [if_pos hjc, if_pos (by omega)]
        exact hQ _ _ _ _ ha
      · rw [if_neg hjc]
        exact hdone j (by omega) hlt
    split
    · apply ih
      · exact hP _ _ _ _ ha
      · rw [List.length_eraseIdx_of_lt, List.length_eraseIdx_of_lt]
        · simp only [List.length_set]; omega
        · simp only [List.length_set]; omega
        · rw [List.length_eraseIdx_of_lt]
          · simp only [List.length_set]; omega
          · simp only [List.length_set]; omega
      · intro j hj hlt
        have hlen : (((arr.set (2 * c + 1) (fn t (pdf_array_get arr (2 * c))
            (pdf_array_get arr (2 * c + 1)) a).2.1).eraseIdx (2 * c + 1)).eraseIdx (2 * c)).length
            = arr.length - 2 := by
          rw [List.length_eraseIdx_of_lt, List.length_eraseIdx_of_lt]
          · simp only [List.length_set]; omega
          · simp only [List.length_set]; omega
          · rw [List.length_eraseIdx_of_lt]
            · simp only [List.length_set]; omega
            · simp only [List.length_set]; omega
        rw [hlen] at hlt
        have := hset (j + 1) (by omega) (by omega)
        unfold pdf_array_get at this ⊢
        rw [List.getElem?_eraseIdx_of_ge _ _ _ (by omega),
          List.getElem?_eraseIdx_of_ge _ _ _ (by omega)]
        exact this
    · apply ih
      · exact hP _ _ _ _ ha
      · simp only [List.length_set]; omega
      · intro j hj hlt
        simp only [List.length_set] at hlt
        exact hset j (by omega) hlt

/-- Whatever way the traversal ends, a node all of whose values satisfy `Q` is still such a
node, when the visitor leaves every value it visits satisfying `Q`. -/
theorem do_name_tree_map_clean {σ : Type} (fn : pdf_name_tree_map_fn σ) (Q : pdf_obj → Prop)
    (P : σ → Prop) (hP : ∀ c k v a, P a → P (fn c k v a).2.2)
    (hQ : ∀ c k v a, P a → Q (fn c k v a).2.1) (fuel t : Nat) (h : List Node) (a : σ)
    (r : MapResult σ) (ha : P a) (hr : do_name_tree_map fn fuel t h a = some r) :
    ∀ x, clean Q (node_at h x) → clean Q (node_at r.heap x) := by
  induction fuel generalizing t h a r with
  | zero => simp [do_name_tree_map] at hr
  | succ fuel ih =>
    rcases do_name_tree_map_succ fn fuel t h a r hr with ⟨-, rfl⟩ | ⟨-, g, a', res, hloop, hc⟩
    · exact fun _ hx => hx
    · have hind := kids_loop_induct (do_name_tree_map fn fuel) t
        (fun _ _ g a => P a ∧ ∀ x, clean Q (node_at h x) → clean Q (node_at g x))
        (fun _ g a => P a ∧ ∀ x, clean Q (node_at h x) → clean Q (node_at g x))
        (fun _ _ _ _ hinv _ => hinv)
        (fun i n g a kid r hinv _ hr' =>
          have h0 : P r.arg := do_name_tree_map_arg fn P hP fuel kid g a r hinv.1 hr'
          have h1 : ∀ x, clean Q (node_at h x) → clean Q (node_at r.heap x) :=
            fun x hx => ih kid g a r hinv.1 hr' x (hinv.2 x hx)
          ⟨fun _ _ => ⟨h0, h1⟩, fun _ => ⟨h0, fun x hx => by
            unfold clean; rw [names_set_kids]; exact h1 x hx⟩, fun _ => ⟨h0, h1⟩⟩)
        _ _ _ _ g a' res hloop ⟨ha, fun x hx => by unfold clean; rw [names_mark]; exact hx⟩
      have hg' : P a' ∧ ∀ x, clean Q (node_at h x) → clean Q (node_at g x) := by
        cases res with
        | error e => exact hind.1 e rfl
        | ok n => exact hind.2 n rfl
      obtain ⟨ha', hg⟩ := hg'
      have hfin : ∀ ns, (ns = (node_at g t).Names ∨
            ∀ j, 2 * j + 1 < ns.length → Q (pdf_array_get ns (2 * j + 1))) →
          ∀ x, clean Q (node_at h x) →
            clean Q (node_at (pdf_unmark_obj (set_names g t ns) t) x) := by
        intro ns hns x hx
        unfold clean
        rw [names_finish]
        split
        · rename_i hc'
          rcases hns with rfl | hns
          · rw [hc'.1]; exact hg x hx
          · exact hns
        · exact hg x hx
      rcases hc with ⟨e', -, rfl⟩ | ⟨n, -, -, rfl⟩ | ⟨n, -, hev, rfl⟩
      · have := hfin _ (Or.inl rfl)
        rw [set_names_self] at this
        exact this
      · have := hfin _ (Or.inl rfl)
        rw [set_names_self] at this
        exact this
      · exact hfin _ (Or.inr (names_loop_clean fn Q P hP hQ t _ _ _ a' ha' (by omega)
          (fun j hj hlt => by omega)))

/-- After a traversal that returns normally, every value of every pair reachable from the node
satisfies `Q`, when the visitor leaves every value it visits satisfying `Q`. -/
theorem do_name_tree_map_ok_clean {σ : Type} (fn : pdf_name_tree_map_fn σ)
    (Q : pdf_obj → Prop) (P : σ → Prop) (hP : ∀ c k v a, P a → P (fn c k v a).2.2)
    (hQ : ∀ c k v a, P a → Q (fn c k v a).2.1) (fuel t : Nat) (h : List Node)
    (a : σ) (r : MapResult σ) (b : Bool) (ha : P a)
    (hr : do_name_tree_map fn fuel t h a = some r)
    (hok : r.res = .ok b) : ∀ x, reach r.heap t x → clean Q (node_at r.heap x) := by
  induction fuel generalizing t h a r b with
  | zero => simp [do_name_tree_map] at hr
  | succ fuel ih =>
    by_cases ht : t < h.length
    · rcases do_name_tree_map_succ fn fuel t h a r hr with ⟨-, rfl⟩ | ⟨-, g, a', res, hloop, hc⟩
      · simp at hok
      · have hmk : (node_at (pdf_mark_obj h t) t).marked = true := by simp [node_at_mark, ht]
        have hind := kids_loop_induct (do_name_tree_map fn fuel) t
          (fun i _ g a => P a ∧ loop_evolves t (pdf_mark_obj h t) g ∧
            (∀ j k, i ≤ j → (node_at g t).Kids[j]? = some k →
              ∀ x, reach g k x → clean Q (node_at g x)))
          (fun _ _ _ => True)
          (fun i n g a hinv hk => ⟨hinv.1, hinv.2.1, fun j k hij hjk => by
            rcases Nat.eq_or_lt_of_le hij with heq | hlt
            · subst heq
              rw [hk] at hjk
              exact absurd hjk (by simp)
            · exact hinv.2.2 j k (by omega) hjk⟩)
          (fun i n g a kid r hinv hk hr' => by
            obtain ⟨h0, h1, h2⟩ := hinv
            have h0' : P r.arg := do_name_tree_map_arg fn P hP fuel kid g a r h0 hr'
            have hev := do_name_tree_map_evolves fn fuel kid g a r hr'
            have h1' := loop_evolves_call t _ g r.heap hmk h1 hev
            have hgt : node_at r.heap t = node_at g t :=
              (hev.2 t).2.1 (by rw [(h1.2.2 t).1]; exact hmk)
            have hold : ∀ j k, i + 1 ≤ j → (node_at g t).Kids[j]? = some k →
                ∀ x, reach r.heap k x → clean Q (node_at r.heap x) := by
              intro j k hij hjk x hx
              exact do_name_tree_map_clean fn Q P hP hQ fuel kid g a r h0 hr' x
                (h2 j k hij hjk x (reach_mono g r.heap (heap_evolves_kids g r.heap hev) k x hx))
            refine ⟨fun _ _ => trivial, fun hres => ?_, fun hres => ?_⟩
            · refine ⟨h0', loop_evolves_erase t i _ r.heap h1', fun j k hij hjk x hx => ?_⟩
              rw [kids_set_kids] at hjk
              have hx' : reach r.heap k x := by
                refine reach_mono r.heap _ (fun y k' hk' => ?_) k x hx
                rw [kids_set_kids] at hk'
                split at hk'
                · rename_i hc'
                  rw [← hc'.1]
                  exact (List.eraseIdx_sublist _ _).subset hk'
                · exact hk'
              unfold clean
              rw [names_set_kids]
              split at hjk
              · rw [List.getElem?_eraseIdx_of_ge _ _ _ hij, hgt] at hjk
                exact hold (j + 1) k (by omega) hjk x hx'
              · rw [hgt] at hjk
                rcases Nat.eq_or_lt_of_le hij with heq | hlt
                · subst heq
                  rw [hk] at hjk
                  injection hjk with hjk
                  subst hjk
                  exact ih kid g a r true h0 hr' hres x hx'
                · exact hold j k (by omega) hjk x hx'
            · refine ⟨h0', h1', fun j k hij hjk x hx => ?_⟩
              rw [hgt] at hjk
              rcases Nat.eq_or_lt_of_le hij with heq | hlt
              · subst heq
                rw [hk] at hjk
                injection hjk with hjk
                subst hjk
                exact ih kid g a r false h0 hr' hres x hx
              · exact hold j k (by omega) hjk x hx)
          _ _ _ _ g a' res hloop
          ⟨ha, loop_evolves_refl t _, fun j k hj hk => by
            rw [List.getElem?_eq_none (by omega)] at hk
            exact absurd hk (by simp)⟩
        rcases hc with ⟨e', rfl, rfl⟩ | ⟨n, -, -, rfl⟩ | ⟨n, rfl, hev, rfl⟩
        · simp at hok
        · simp at hok
        · obtain ⟨h0, h1, h2⟩ := hind.2 n rfl
          have hgl : t < g.length := by rw [h1.1]; simpa using ht
          have hns := names_loop_clean fn Q P hP hQ t ((node_at g t).Names.length / 2)
            (node_at g t).Names ((node_at g t).Names.length : Int) a' h0 (by omega)
            (fun j hj hlt => by omega)
          intro x hx
          have hx' : reach g t x :=
            reach_mono g _ (fun y k hk => by rw [kids_finish] at hk; exact hk) t x hx
          simp only
          unfold clean
          rw [names_finish]
          split
          · exact hns
          · rename_i hne
            rcases Relation.ReflTransGen.cases_head hx' with heq | ⟨k, hk, hkx⟩
            · exact absurd ⟨heq, hgl⟩ hne
            · obtain ⟨j, hj⟩ := List.mem_iff_getElem?.mp hk
              exact h2 j k (Nat.zero_le _) hj x hkx
    · rw [do_name_tree_map_null fn fuel t h a (by omega)] at hr
      injection hr with hr
      subst hr
      intro x hx
      have hxt : x = t := by
        rcases Relation.ReflTransGen.cases_head hx with heq | ⟨k, hk, -⟩
        · exact heq.symm
        · rw [kid_of, node_at_of_le h t (by omega)] at hk
          simp [null_node] at hk
      subst hxt
      intro j hj
      rw [node_at_of_le h x (by omega)] at hj
      simp [null_node] at hj

/-- On a well formed tree none of whose nodes is marked the traversal returns normally. -/
theorem do_name_tree_map_ok {σ : Type} (fn : pdf_name_tree_map_fn σ) (fuel t : Nat)
    (h : List Node) (a : σ) (r : MapResult σ) (hwf : well_formed h t)
    (hun : ∀ x, reach h t x → (node_at h x).marked = false)
    (hr : do_name_tree_map fn fuel t h a = some r) : ∃ b, r.res = .ok b := by
  cases hres : r.res with
  | ok b => exact ⟨b, rfl⟩
  | error e =>
    rcases do_name_tree_map_error fn fuel t h a r e hr hres with rfl | rfl
    · exact absurd hres (do_name_tree_map_not_recursive fn fuel t h a r
        (well_formed_acyclic h t hwf) hun hr)
    · exact absurd hres (do_name_tree_map_not_malformed fn fuel t h a r
        (fun x hx => well_formed_even h x (well_formed_reach h t x hwf hx)) hr)

/-! ## Deletion of a schema field -/

theorem not_mem_pdf_dict_del {β : Type} (d : List (String × β)) (key : String) :
    key ∉ (pdf_dict_del d key).map Prod.fst := by
  unfold pdf_dict_del
  intro hmem
  obtain ⟨kv, hkv, hk⟩ := List.mem_map.mp hmem
  have := (List.mem_filter.mp hkv).2
  simp only [ne_eq, decide_not, Bool.not_eq_true', decide_eq_false_iff_not] at this
  exact this hk

theorem del_ci_clean (v : pdf_obj) (key : String) : ¬ has_ci_key key (del_ci v key) := by
  rintro ⟨d, ci, hv, hci, hmem⟩
  cases v with
  | null => simp [del_ci] at hv
  | str s => simp [del_ci] at hv
  | dict d0 =>
    simp only [del_ci, pdf_obj.dict.injEq] at hv
    subst hv
    simp only at hci
    cases hd : d0.CI with
    | none => rw [hd] at hci; simp at hci
    | some ci0 =>
      rw [hd] at hci
      simp only [Option.map_some', Option.some.injEq] at hci
      subst hci
      exact not_mem_pdf_dict_del ci0 key hmem

/-- C5: for every registry, every valid field index `i`, and every acyclic entry index with
pair sequences of even length (no node of which is marked), `delete(i)` succeeds, takes the
field out of the list, and afterwards the key of the deleted field is absent from the schema
backing container and from the `CI` sub-map of every entry value object reachable from the
index. -/
theorem delete_scrubs_key (doc : pdf_document) (i : Nat)
    (hi : i < (load_portfolio doc).portfolio.length)
    (hwf : ∀ root, doc.EmbeddedFiles = some root → well_formed doc.heap root ∧
      ∀ x, reach doc.heap root x → (node_at doc.heap x).marked = false) :
    ∃ doc' p, (load_portfolio doc).portfolio[i]? = some p ∧
      pdf_delete_portfolio_schema doc i = some (doc', .ok ()) ∧
      doc'.portfolio = (load_portfolio doc).portfolio.eraseIdx i ∧
      (∀ s, doc'.Collection = some (some s) → p.key ∉ s.map Prod.fst) ∧
      doc'.EmbeddedFiles = doc.EmbeddedFiles ∧
      ∀ root x v, doc'.EmbeddedFiles = some root → reach doc'.heap root x →
        ∀ j, (node_at doc'.heap x).Names[2 * j + 1]? = some v → ¬ has_ci_key p.key v := by
  have hE := (load_portfolio_heap doc).2
  have hH := (load_portfolio_heap doc).1
  have hcoll : ∀ (c : Option (Option (List (String × SchemaDict)))) (key : String) s,
      c.map (Option.map (fun s => pdf_dict_del s key)) = some (some s) →
      key ∉ s.map Prod.fst := by
    intro c key s hs
    cases c with
    | none => simp at hs
    | some c' =>
      cases c' with
      | none => simp at hs
      | some s0 =>
        simp only [Option.map_some', Option.some.injEq] at hs
        subst hs
        exact not_mem_pdf_dict_del s0 key
  cases hroot : doc.EmbeddedFiles with
  | none =>
    refine ⟨{ load_portfolio doc with
        portfolio := (load_portfolio doc).portfolio.take i ++
          (load_portfolio doc).portfolio.drop (i + 1),
        Collection := (load_portfolio doc).Collection.map
          (Option.map (fun s => pdf_dict_del s (load_portfolio doc).portfolio[i].key)) },
      (load_portfolio doc).portfolio[i], by simp [hi], ?_, ?_, fun s hs => hcoll _ _ s hs,
      hE.trans hroot, ?_⟩
    · unfold pdf_delete_portfolio_schema
      simp only [seek_valid _ i hi, ne_eq, not_true_eq_false, if_false, hE, hroot, map_tree]
    · simp only [List.eraseIdx_eq_take_drop_succ]
    · intro root x v hc
      simp only [hE, hroot] at hc
      exact absurd hc (by simp)
  | some root =>
    obtain ⟨w1, w2⟩ := hwf root hroot
    obtain ⟨r, hr⟩ := pdf_name_tree_map_total delete_from_node root doc.heap
      (load_portfolio doc).portfolio[i].key
    have hr' := hr
    unfold pdf_name_tree_map at hr
    obtain ⟨b, hb⟩ := do_name_tree_map_ok delete_from_node _ root doc.heap _ r w1 w2 hr
    refine ⟨{ load_portfolio doc with
        portfolio := (load_portfolio doc).portfolio.take i ++
          (load_portfolio doc).portfolio.drop (i + 1),
        Collection := (load_portfolio doc).Collection.map
          (Option.map (fun s => pdf_dict_del s (load_portfolio doc).portfolio[i].key)),
        heap := r.heap },
      (load_portfolio doc).portfolio[i], by simp [hi], ?_, ?_, fun s hs => hcoll _ _ s hs,
      hE.trans hroot, ?_⟩
    · unfold pdf_delete_portfolio_schema
      simp only [seek_valid _ i hi, ne_eq, not_true_eq_false, if_false, hE, hH, hroot, map_tree,
        hr', hb]
    · simp only [List.eraseIdx_eq_take_drop_succ]
    · intro root' x v hroot' hx j hj
      simp only [hE, hroot, Option.some.injEq] at hroot'
      subst hroot'
      simp only at hx hj
      have hcl := do_name_tree_map_ok_clean delete_from_node
        (fun v => ¬ has_ci_key (load_portfolio doc).portfolio[i].key v)
        (fun a => a = (load_portfolio doc).portfolio[i].key)
        (fun c k v a ha => ha)
        (fun c k v a ha => by
          subst ha
          exact del_ci_clean v _)
        _ root doc.heap _ r b rfl hr hb x hx j
        (by
          by_contra hlt
          rw [List.getElem?_eq_none (by omega)] at hj
          exact absurd hj (by simp))
      unfold pdf_array_get at hcl
      rw [hj] at hcl
      exact hcl

/-- C5 (witness): the field X is deleted from a document whose index has two leaves; the entry
"a" keeps only its value for Y. -/
theorem delete_scrubs_key_witness :
    0 < (load_portfolio doc_two_leaves).portfolio.length ∧
    (∀ root, doc_two_leaves.EmbeddedFiles = some root →
      well_formed doc_two_leaves.heap root ∧
      ∀ x, reach doc_two_leaves.heap root x → (node_at doc_two_leaves.heap x).marked = false) ∧
    ((pdf_delete_portfolio_schema doc_two_leaves 0).map
      (fun r => (node_at r.1.heap 1).Names)) =
      some [.str "a", .dict { new_filespec "a" "a" [] with CI := some [("Y", .int 1)] }] ∧
    ∃ doc' p, (load_portfolio doc_two_leaves).portfolio[0]? = some p ∧
      pdf_delete_portfolio_schema doc_two_leaves ((0 : Nat) : Int) = some (doc', .ok ()) ∧
      doc'.portfolio = (load_portfolio doc_two_leaves).portfolio.eraseIdx 0 ∧
      (∀ s, doc'.Collection = some (some s) → p.key ∉ s.map Prod.fst) ∧
      doc'.EmbeddedFiles = doc_two_leaves.EmbeddedFiles ∧
      ∀ root x v, doc'.EmbeddedFiles = some root → reach doc'.heap root x →
        ∀ j, (node_at doc'.heap x).Names[2 * j + 1]? = some v → ¬ has_ci_key p.key v :=
  have hwf : ∀ root, doc_two_leaves.EmbeddedFiles = some root →
      well_formed doc_two_leaves.heap root ∧
      ∀ x, reach doc_two_leaves.heap root x →
        (node_at doc_two_leaves.heap x).marked = false := by
    intro root hroot
    have h0 : root = 0 := by
      have : some 0 = some root := hroot
      injection this with this
      exact this.symm
    subst h0
    refine ⟨well_formed.node 0 rfl (fun k hk => ?_), fun x _ => ?_⟩
    · have hk' : k = 1 ∨ k = 2 := by simpa [node_at, doc_two_leaves] using hk
      rcases hk' with rfl | rfl <;>
        exact well_formed.node _ rfl (fun k hk => by simp [node_at, doc_two_leaves] at hk)
    · rcases x with _ | _ | _ | x <;> rfl
  ⟨by decide, hwf, rfl, delete_scrubs_key doc_two_leaves 0 (by decide) hwf⟩

/-! ## Range checks of the schema registry -/

theorem seek_out_of_range (l : List pdf_portfolio) (i : Int)
    (hi : i < 0 ∨ (l.length : Int) ≤ i) : (seek l i).2.1 = [] ∨ (seek l i).2.2 ≠ 0 := by
  rcases hi with hi | hi
  · rw [seek_nonpos l i (by omega)]
    right
    show i ≠ 0
    omega
  · obtain ⟨k, rfl⟩ := Int.eq_ofNat_of_zero_le (by omega : 0 ≤ i)
    rw [seek_nat]
    left
    show l.drop k = []
    exact List.drop_eq_nil_of_le (by omega)

theorem seek_in_range (l : List pdf_portfolio) (i : Int) (p : pdf_portfolio) (h0 : 0 ≤ i)
    (hp : l[i.toNat]? = some p) :
    seek l i = (l.take i.toNat, p :: l.drop (i.toNat + 1), 0) := by
  obtain ⟨k, rfl⟩ := Int.eq_ofNat_of_zero_le h0
  have hk : k < l.length := by
    by_contra hn
    rw [Int.toNat_ofNat, List.getElem?_eq_none (by omega)] at hp
    cases hp
  rw [Int.toNat_ofNat] at hp ⊢
  rw [seek_valid l k hk]
  rw [List.getElem?_eq_getElem hk] at hp
  injection hp with hp
  rw [hp]

theorem schema_info_out_of_range (doc : pdf_document) (i : Int)
    (hi : i < 0 ∨ ((load_portfolio doc).portfolio.length : Int) ≤ i) :
    pdf_portfolio_schema_info doc i = (load_portfolio doc, .error .IndexOutOfRange) := by
  have hs := seek_out_of_range _ i hi
  unfold pdf_portfolio_schema_info
  rcases hseek : seek (load_portfolio doc).portfolio i with ⟨pre, rest, e⟩
  rw [hseek] at hs
  cases rest with
  | nil => simp [hseek]
  | cons p rest =>
    have he : e ≠ 0 := by simpa using hs
    simp [hseek, he]

theorem schema_info_in_range (doc : pdf_document) (i : Int) (p : pdf_portfolio) (h0 : 0 ≤ i)
    (hp : (load_portfolio doc).portfolio[i.toNat]? = some p) :
    pdf_portfolio_schema_info doc i = (load_portfolio doc, .ok p.entry) := by
  unfold pdf_portfolio_schema_info
  simp [seek_in_range _ i p h0 hp]

/-- C12: for every document, with `L` the registry (the list after the lazy load) and every
`int` index `i`: `pdf_portfolio_schema_info` fails with IndexOutOfRange exactly when `i` is
outside `[0, length L)` and otherwise returns the descriptor of the cell at position `i`;
`pdf_rename_portfolio_schema`, `pdf_delete_portfolio_schema` and `pdf_reorder_portfolio_schema`
throw IndexOutOfRange for the same indices and leave the document with the list `L`. -/
theorem schema_index_range_check (doc : pdf_document) (i new_pos : Int) (name : String) :
    ((pdf_portfolio_schema_info doc i).2 = .error .IndexOutOfRange ↔
      (i < 0 ∨ ((load_portfolio doc).portfolio.length : Int) ≤ i)) ∧
    (∀ p, 0 ≤ i → (load_portfolio doc).portfolio[i.toNat]? = some p →
      pdf_portfolio_schema_info doc i = (load_portfolio doc, .ok p.entry)) ∧
    ((i < 0 ∨ ((load_portfolio doc).portfolio.length : Int) ≤ i) →
      pdf_rename_portfolio_schema doc i name = (load_portfolio doc, .error .IndexOutOfRange) ∧
      pdf_delete_portfolio_schema doc i = some (load_portfolio doc, .error .IndexOutOfRange) ∧
      pdf_reorder_portfolio_schema doc i new_pos =
        (load_portfolio doc, .error .IndexOutOfRange)) := by
  refine ⟨⟨fun herr => ?_, fun hi => by rw [schema_info_out_of_range doc i hi]⟩,
    fun p h0 hp => schema_info_in_range doc i p h0 hp, fun hi => ?_⟩
  · by_contra hn
    have h0 : 0 ≤ i := by omega
    have hlt : i.toNat < (load_portfolio doc).portfolio.length := by omega
    rw [schema_info_in_range doc i _ h0 (List.getElem?_eq_getElem hlt)] at herr
    cases herr
  · have hs := seek_out_of_range _ i hi
    unfold pdf_rename_portfolio_schema pdf_delete_portfolio_schema pdf_reorder_portfolio_schema
    rcases hseek : seek (load_portfolio doc).portfolio i with ⟨pre, rest, e⟩
    rw [hseek] at hs
    cases rest with
    | nil => simp [hseek]
    | cons p rest =>
      have he : e ≠ 0 := by simpa using hs
      simp [hseek, he]

/-- C11: on the document `doc_two_leaves` (a registry of two fields, entries at the ranks 0
and 1) the value of the field 0 of the entry 0 is read, while with the schema index 2, the
number of fields, `pdf_portfolio_entry_info` and `pdf_set_portfolio_entry_info` run off the
list and dereference the null pointer `p` instead of throwing; with the schema index 3 they
throw IndexOutOfRange. On `doc_b` (one entry, empty registry) the schema index 0 dereferences
the null pointer as well. -/
theorem schema_index_at_count_dereferences_null :
    (pdf_portfolio_entry_info doc_two_leaves 0 0).map Prod.snd = some (.ok (.str "three")) ∧
    (pdf_portfolio_entry_info doc_two_leaves 0 2).map Prod.snd = some (.error .NullDeref) ∧
    (pdf_set_portfolio_entry_info doc_two_leaves 0 2 (.str "v")).map Prod.snd =
      some (.error .NullDeref) ∧
    (pdf_portfolio_entry_info doc_two_leaves 0 3).map Prod.snd =
      some (.error .IndexOutOfRange) ∧
    (pdf_set_portfolio_entry_info doc_two_leaves 0 3 (.str "v")).map Prod.snd =
      some (.error .IndexOutOfRange) ∧
    (pdf_portfolio_entry_info doc_b 0 0).map Prod.snd = some (.error .NullDeref) ∧
    (pdf_set_portfolio_entry_info doc_b 0 0 (.str "v")).map Prod.snd =
      some (.error .NullDeref) := by
  refine ⟨?_, ?_, ?_, ?_, ?_, ?_, ?_⟩ <;> rfl

/-- C15: the entry "a" is added to the index of `doc_b`, a single leaf with the pair of "b"
and the bounds cache (b, b). The new pair is spliced in front, the leaf holds the keys a, b,
and both cached bounds are overwritten with "a": the cached maximum is no longer the last
key. -/
theorem insert_in_front_overwrites_cached_max :
    (node_at doc_b.heap 0).Names = [.str "b", entry_val "b"] ∧
    (node_at doc_b.heap 0).Limits = [.str "b", .str "b"] ∧
    (pdf_add_portfolio_entry doc_b "a" "a" "a" []).map
      (fun r => (r.2, (node_at r.1.heap 0).Names, (node_at r.1.heap 0).Limits)) =
      some (.ok 1, [.str "a", entry_val "a", .str "b", entry_val "b"],
        [.str "a", .str "a"]) := by
  refine ⟨?_, ?_, ?_⟩ <;> rfl

/-! ## Marks -/

/-- C20: for every heap (any graph of child references, any pair sequences, any marks), every
visitor, root and argument, `pdf_name_tree_map` returns, and whatever it returns (a flag or an
error) every object of the heap has the mark it had before the call. Hence, when no object was
marked, none is marked afterwards, and a later traversal of a root below which the graph is
acyclic does not fail with RecursiveStructure. -/
theorem traversal_restores_marks {σ τ : Type} (fn : pdf_name_tree_map_fn σ) (root : Nat)
    (h : List Node) (a : σ) :
    ∃ r, pdf_name_tree_map fn root h a = some r ∧
      (∀ x, (node_at r.heap x).marked = (node_at h x).marked) ∧
      ((∀ x, (node_at h x).marked = false) →
        (∀ x, (node_at r.heap x).marked = false) ∧
        ∀ (fn' : pdf_name_tree_map_fn τ) (root' : Nat) (a' : τ), acyclic r.heap root' →
          ∃ r', pdf_name_tree_map fn' root' r.heap a' = some r' ∧
            r'.res ≠ .error .RecursiveStructure) := by
  obtain ⟨r, hr⟩ := pdf_name_tree_map_total fn root h a
  have hev := do_name_tree_map_evolves fn _ root h a r hr
  have hm : ∀ x, (node_at r.heap x).marked = (node_at h x).marked := fun x => (hev.2 x).1
  refine ⟨r, hr, hm, fun hun => ⟨fun x => by rw [hm x, hun x], fun fn' root' a' hac => ?_⟩⟩
  obtain ⟨r', hr'⟩ := pdf_name_tree_map_total fn' root' r.heap a'
  exact ⟨r', hr', do_name_tree_map_not_recursive fn' _ root' r.heap a' r' hac
    (fun x _ => by rw [hm x, hun x]) hr'⟩

/-! ## The lazy load of the registry -/

theorem load_insert_perm (p : pdf_portfolio) (l : List pdf_portfolio) :
    (load_insert p l).Perm (p :: l) := by
  induction l with
  | nil => exact List.Perm.refl _
  | cons q qs ih =>
    unfold load_insert
    split
    · exact (List.Perm.cons q ih).trans (List.Perm.swap p q qs)
    · exact List.Perm.refl _

theorem load_insert_sorted (p : pdf_portfolio) (l : List pdf_portfolio)
    (hs : l.Pairwise (fun a b => a.sort ≤ b.sort)) :
    (load_insert p l).Pairwise (fun a b => a.sort ≤ b.sort) := by
  induction l with
  | nil => simp [load_insert]
  | cons q qs ih =>
    rw [List.pairwise_cons] at hs
    unfold load_insert
    split
    · rename_i hq
      rw [List.pairwise_cons]
      refine ⟨fun b hb => ?_, ih hs.2⟩
      have hb' := (load_insert_perm p qs).mem_iff.1 hb
      rw [List.mem_cons] at hb'
      rcases hb' with rfl | hb'
      · exact hq
      · exact hs.1 b hb'
    · rename_i hq
      have hlt : p.sort ≤ q.sort := by omega
      rw [List.pairwise_cons]
      refine ⟨fun b hb => ?_, List.pairwise_cons.2 hs⟩
      rw [List.mem_cons] at hb
      rcases hb with rfl | hb
      · exact hlt
      · exact le_trans hlt (hs.1 b hb)

theorem load_insert_filter (p : pdf_portfolio) (l : List pdf_portfolio) (v : Int)
    (hs : l.Pairwise (fun a b => a.sort ≤ b.sort)) :
    (load_insert p l).filter (fun a => a.sort = v) =
      l.filter (fun a => a.sort = v) ++ [p].filter (fun a => a.sort = v) := by
  induction l with
  | nil => simp [load_insert]
  | cons q qs ih =>
    rw [List.pairwise_cons] at hs
    unfold load_insert
    split
    · rw [List.filter_cons, List.filter_cons, ih hs.2]
      split <;> simp
    · rename_i hq
      by_cases hv : p.sort = v
      · have hnil : (q :: qs).filter (fun a => a.sort = v) = [] := by
          rw [List.filter_eq_nil_iff]
          intro a ha
          rw [List.mem_cons] at ha
          have : q.sort ≤ a.sort := by
            rcases ha with rfl | ha
            · exact le_refl _
            · exact hs.1 a ha
          simp
          omega
        rw [List.filter_cons, hnil]
        simp [hv]
      · rw [List.filter_cons]
        simp [hv]

theorem load_fold_snoc (xs : List (String × SchemaDict)) (x : String × SchemaDict) :
    (xs ++ [x]).foldl (fun acc kv => load_insert (load_cell kv.1 kv.2) acc) [] =
      load_insert (load_cell x.1 x.2)
        (xs.foldl (fun acc kv => load_insert (load_cell kv.1 kv.2) acc) []) := by
  rw [List.foldl_append]
  rfl

theorem load_fold_facts (xs : List (String × SchemaDict)) :
    (xs.foldl (fun acc kv => load_insert (load_cell kv.1 kv.2) acc) []).Perm
        (xs.map (fun kv => load_cell kv.1 kv.2)) ∧
      (xs.foldl (fun acc kv => load_insert (load_cell kv.1 kv.2) acc) []).Pairwise
        (fun a b => a.sort ≤ b.sort) ∧
      ∀ v : Int, (xs.foldl (fun acc kv => load_insert (load_cell kv.1 kv.2) acc) []).filter
          (fun a => a.sort = v) =
        (xs.map (fun kv => load_cell kv.1 kv.2)).filter (fun a => a.sort = v) := by
  induction xs using List.reverseRecOn with
  | nil => simp
  | append_singleton xs x ih =>
    obtain ⟨h1, h2, h3⟩ := ih
    rw [load_fold_snoc]
    refine ⟨?_, load_insert_sorted _ _ h2, fun v => ?_⟩
    · rw [List.map_append]
      refine (load_insert_perm _ _).trans ?_
      refine (List.Perm.cons _ h1).trans ?_
      simpa using (List.perm_append_comm :
        ([load_cell x.1 x.2] ++ xs.map (fun kv => load_cell kv.1 kv.2)).Perm _)
    · rw [load_insert_filter _ _ v h2, h3 v, List.map_append, List.filter_append]
      rfl

/-- C18: for every document whose registry is not built yet, the list that `load_portfolio`
builds consists of the cells of the entries of the schema container (it is a permutation of
them, keys and descriptor dictionaries included), every cell is sorted under its attribute `O`
read with 0 for an absent one, the list is in non-decreasing order of it, and the cells of
one order value are in the order of the container; loading once more changes nothing. -/
theorem load_is_stable_sort (doc : pdf_document) (hdoc : doc.portfolio = []) :
    ((load_portfolio doc).portfolio.map (fun p => (p.key, p.val))).Perm (schema_entries doc) ∧
    (load_portfolio doc).portfolio.Perm
      ((schema_entries doc).map (fun kv => load_cell kv.1 kv.2)) ∧
    (∀ p ∈ (load_portfolio doc).portfolio, p.sort = p.val.O.getD 0) ∧
    (load_portfolio doc).portfolio.Pairwise (fun p q => p.val.O.getD 0 ≤ q.val.O.getD 0) ∧
    (∀ v : Int, (load_portfolio doc).portfolio.filter (fun p => p.val.O.getD 0 = v) =
      ((schema_entries doc).map (fun kv => load_cell kv.1 kv.2)).filter
        (fun p => p.val.O.getD 0 = v)) ∧
    load_portfolio (load_portfolio doc) = load_portfolio doc := by
  obtain ⟨h1, h2, h3⟩ := load_fold_facts (schema_entries doc)
  have hL : (load_portfolio doc).portfolio =
      (schema_entries doc).foldl (fun acc kv => load_insert (load_cell kv.1 kv.2) acc) [] := by
    simp [load_portfolio, hdoc]
  have hsort : ∀ p ∈ (schema_entries doc).map (fun kv => load_cell kv.1 kv.2),
      p.sort = p.val.O.getD 0 := by
    intro p hp
    rw [List.mem_map] at hp
    obtain ⟨kv, -, rfl⟩ := hp
    rfl
  have hsortL : ∀ p ∈ (load_portfolio doc).portfolio, p.sort = p.val.O.getD 0 := by
    intro p hp
    rw [hL] at hp
    exact hsort p (h1.mem_iff.1 hp)
  have hf : ∀ (l : List pdf_portfolio) (v : Int), (∀ p ∈ l, p.sort = p.val.O.getD 0) →
      l.filter (fun p => p.val.O.getD 0 = v) = l.filter (fun p => p.sort = v) := by
    intro l v hl
    apply List.filter_congr
    intro p hp
    rw [hl p hp]
  refine ⟨?_, hL ▸ h1, hsortL, ?_, fun v => ?_, load_portfolio_idem doc⟩
  · have := (hL ▸ h1).map (fun p : pdf_portfolio => (p.key, p.val))
    simpa [load_cell, Function.comp_def] using this
  · rw [hL] at hsortL ⊢
    refine h2.imp_of_mem (fun {a b} ha hb hab => ?_)
    rw [← hsortL a ha, ← hsortL b hb]
    exact hab
  · rw [hf _ v hsortL, hf _ v hsort, hL]
    exact h3 v

/-- C18 (witness): the registry of `doc_XY` is loaded from its container of two fields. -/
theorem load_is_stable_sort_witness :
    doc_XY.portfolio = [] ∧
    ((load_portfolio doc_XY).portfolio.map (fun p => (p.key, p.val))).Perm
      (schema_entries doc_XY) ∧
    (load_portfolio doc_XY).portfolio.Perm
      ((schema_entries doc_XY).map (fun kv => load_cell kv.1 kv.2)) ∧
    (∀ p ∈ (load_portfolio doc_XY).portfolio, p.sort = p.val.O.getD 0) ∧
    (load_portfolio doc_XY).portfolio.Pairwise (fun p q => p.val.O.getD 0 ≤ q.val.O.getD 0) ∧
    (∀ v : Int, (load_portfolio doc_XY).portfolio.filter (fun p => p.val.O.getD 0 = v) =
      ((schema_entries doc_XY).map (fun kv => load_cell kv.1 kv.2)).filter
        (fun p => p.val.O.getD 0 = v)) ∧
    load_portfolio (load_portfolio doc_XY) = load_portfolio doc_XY :=
  ⟨rfl, load_is_stable_sort doc_XY rfl⟩

/-! ## The synthesised key -/

theorem digitChar_val : ∀ k, k < 10 → (Nat.digitChar k).toNat - 48 = k := by decide

theorem toDigitsCore_decode (fuel n : Nat) (ds : List Char) (hf : n < fuel) :
    (Nat.toDigitsCore 10 fuel n ds).foldl (fun a c => 10 * a + (c.toNat - 48)) 0 =
      ds.foldl (fun a c => 10 * a + (c.toNat - 48)) n := by
  induction fuel generalizing n ds with
  | zero => omega
  | succ fuel ih =>
    unfold Nat.toDigitsCore
    simp only
    split
    · rename_i h0
      rw [List.foldl_cons, digitChar_val _ (Nat.mod_lt _ (by decide))]
      congr 1
      omega
    · rename_i h0
      rw [ih (n / 10) _ (by omega), List.foldl_cons,
        digitChar_val _ (Nat.mod_lt _ (by decide))]
      congr 1
      omega

theorem nat_repr_injective (m n : Nat) (h : Nat.repr m = Nat.repr n) : m = n := by
  have h1 : Nat.toDigits 10 m = Nat.toDigits 10 n := by
    have := congrArg String.data h
    simpa [Nat.repr, List.asString] using this
  have h2 := congrArg (fun l => l.foldl (fun a c => 10 * a + (c.toNat - 48)) 0) h1
  simp only [Nat.toDigits] at h2
  rw [toDigitsCore_decode _ _ _ (by omega), toDigitsCore_decode _ _ _ (by omega)] at h2
  simpa using h2

theorem int_toString_nat (m : Nat) : toString ((m : Nat) : Int) = Nat.repr m := rfl

theorem fz_snprintf_d_injective (m n : Nat)
    (h : fz_snprintf_d (m : Int) = fz_snprintf_d (n : Int)) : m = n :=
  nat_repr_injective m n h

theorem find_name_least (keys : List String) (fuel : Nat) (num : Int) (j : Nat) (h1 : 1 ≤ j)
    (hj : j ≤ fuel) (hnot : fz_snprintf_d (num + j) ∉ keys)
    (hmin : ∀ i : Nat, 1 ≤ i → i < j → fz_snprintf_d (num + i) ∈ keys) :
    find_name keys fuel num = some (num + j, fz_snprintf_d (num + j)) := by
  induction fuel generalizing num j with
  | zero => omega
  | succ fuel ih =>
    unfold find_name
    simp only
    by_cases hone : j = 1
    · subst hone
      have : ¬ (keys.any (fun k => k = fz_snprintf_d (num + 1)) = true) := by
        simpa using hnot
      rw [if_neg this]
      rfl
    · have hin := hmin 1 (le_refl 1) (by omega)
      have : keys.any (fun k => k = fz_snprintf_d (num + 1)) = true := by
        simpa using hin
      rw [if_pos this]
      have hcast : ∀ i : Nat, num + 1 + (i : Int) = num + ((i + 1 : Nat) : Int) := by
        intro i
        push_cast
        ring
      have := ih (num + 1) (j - 1) (by omega) (by omega)
        (by rw [hcast, Nat.sub_add_cancel h1]; exact hnot)
        (fun i hi1 hi2 => by rw [hcast]; exact hmin (i + 1) (by omega) (by omega))
      rw [this, hcast, Nat.sub_add_cancel h1]

theorem exists_unused_name (keys : List String) :
    ∃ j : Nat, 1 ≤ j ∧ j ≤ keys.length + 1 ∧ fz_snprintf_d (j : Int) ∉ keys := by
  by_contra hcon
  push_neg at hcon
  have hsub : (Finset.Icc 1 (keys.length + 1)).image (fun j : Nat => fz_snprintf_d (j : Int))
      ⊆ keys.toFinset := by
    intro s hs
    rw [Finset.mem_image] at hs
    obtain ⟨j, hj, rfl⟩ := hs
    rw [Finset.mem_Icc] at hj
    exact List.mem_toFinset.2 (hcon j hj.1 hj.2)
  have hcard := Finset.card_le_card hsub
  rw [Finset.card_image_of_injective _ (fun a b hab => fz_snprintf_d_injective a b hab)] at hcard
  have := List.toFinset_card_le keys
  simp at hcard
  omega

theorem find_name_spec (keys : List String) :
    ∃ m : Nat, 1 ≤ m ∧ m ≤ keys.length + 1 ∧
      find_name keys (keys.length + 1) 0 = some ((m : Int), fz_snprintf_d (m : Int)) ∧
      fz_snprintf_d (m : Int) ∉ keys ∧
      ∀ j : Nat, 1 ≤ j → j < m → fz_snprintf_d (j : Int) ∈ keys := by
  classical
  have hex : ∃ j : Nat, 1 ≤ j ∧ fz_snprintf_d (j : Int) ∉ keys := by
    obtain ⟨j, h1, -, h3⟩ := exists_unused_name keys
    exact ⟨j, h1, h3⟩
  obtain ⟨j, hj1, hj2, hj3⟩ := exists_unused_name keys
  have hspec := Nat.find_spec hex
  have hle : Nat.find hex ≤ j := Nat.find_min' hex ⟨hj1, hj3⟩
  have hmin : ∀ i : Nat, 1 ≤ i → i < Nat.find hex → fz_snprintf_d (i : Int) ∈ keys := by
    intro i hi1 hi2
    by_contra hn
    exact Nat.find_min hex hi2 ⟨hi1, hn⟩
  refine ⟨Nat.find hex, hspec.1, by omega, ?_, hspec.2, hmin⟩
  have := find_name_least keys (keys.length + 1) 0 (Nat.find hex) hspec.1 (by omega)
    (by simpa using hspec.2) (fun i hi1 hi2 => by simpa using hmin i hi1 hi2)
  simpa using this

theorem renumber_keys (l : List pdf_portfolio) (n : Int) :
    (renumber l n).map (fun p => p.key) = l.map (fun p => p.key) := by
  induction l generalizing n with
  | nil => rfl
  | cons p ps ih => simp [renumber, ih]

theorem add_schema_keys (doc : pdf_document) (entry : Int) (info : pdf_portfolio_schema)
    (m : Int) (name : String)
    (hf : find_name ((load_portfolio doc).portfolio.map (fun p => p.key))
      ((load_portfolio doc).portfolio.length + 1) 0 = some (m, name)) :
    ∃ doc' res, pdf_add_portfolio_schema doc entry info = some (doc', res) ∧
      doc'.portfolio.map (fun p => p.key) =
        (seek (load_portfolio doc).portfolio entry).1.map (fun p => p.key) ++
          name :: (seek (load_portfolio doc).portfolio entry).2.1.map (fun p => p.key) := by
  unfold pdf_add_portfolio_schema
  simp only [hf]
  split
  · exact ⟨_, _, rfl, by simp [renumber_keys]⟩
  · exact ⟨_, _, rfl, by simp⟩

/-- C13: for every document and every call of `pdf_add_portfolio_schema`, with `L` the registry
before the call: the probing loop stops within `length L + 1` candidates; the key it returns is
the decimal string of a positive `m` that is the key of no cell of `L`, while the decimal
string of every positive number below `m` is the key of some cell; the call returns, the keys
of the list it leaves are those of `L` and the new key, and if the keys of `L` are pairwise
distinct so are the keys afterwards. -/
theorem add_key_is_least_unused (doc : pdf_document) (entry : Int)
    (info : pdf_portfolio_schema) :
    ∃ m : Nat, 1 ≤ m ∧ m ≤ (load_portfolio doc).portfolio.length + 1 ∧
      find_name ((load_portfolio doc).portfolio.map (fun p => p.key))
        ((load_portfolio doc).portfolio.length + 1) 0 =
          some ((m : Int), fz_snprintf_d (m : Int)) ∧
      fz_snprintf_d (m : Int) ∉ (load_portfolio doc).portfolio.map (fun p => p.key) ∧
      (∀ j : Nat, 1 ≤ j → j < m →
        fz_snprintf_d (j : Int) ∈ (load_portfolio doc).portfolio.map (fun p => p.key)) ∧
      ∃ doc' res, pdf_add_portfolio_schema doc entry info = some (doc', res) ∧
        (doc'.portfolio.map (fun p => p.key)).Perm
          (fz_snprintf_d (m : Int) :: (load_portfolio doc).portfolio.map (fun p => p.key)) ∧
        (((load_portfolio doc).portfolio.map (fun p => p.key)).Nodup →
          (doc'.portfolio.map (fun p => p.key)).Nodup) := by
  obtain ⟨m, h1, h2, h3, h4, h5⟩ :=
    find_name_spec ((load_portfolio doc).portfolio.map (fun p => p.key))
  rw [List.length_map] at h2 h3
  obtain ⟨doc', res, hadd, hkeys⟩ := add_schema_keys doc entry info _ _ h3
  have hperm : (doc'.portfolio.map (fun p => p.key)).Perm
      (fz_snprintf_d (m : Int) :: (load_portfolio doc).portfolio.map (fun p => p.key)) := by
    rw [hkeys]
    refine List.perm_middle.trans (List.Perm.cons _ ?_)
    rw [← List.map_append, seek_append]
  exact ⟨m, h1, h2, h3, h4, h5, doc', res, hadd, hperm,
    fun hnd => hperm.nodup_iff.2 (List.nodup_cons.2 ⟨h4, hnd⟩)⟩

/-! ## Adding a schema field -/

theorem renumber_erase_position (l : List pdf_portfolio) (n : Int) :
    (renumber l n).map erase_position = l.map erase_position := by
  induction l generalizing n with
  | nil => rfl
  | cons p ps ih => simp [renumber, ih, erase_position, erase_order]

theorem renumber_length (l : List pdf_portfolio) (n : Int) :
    (renumber l n).length = l.length := by
  induction l generalizing n with
  | nil => rfl
  | cons p ps ih => simp [renumber, ih]

theorem schema_info_of_get (doc : pdf_document) (k : Nat) (p : pdf_portfolio)
    (hp : doc.portfolio[k]? = some p) :
    pdf_portfolio_schema_info doc (k : Int) = (doc, .ok p.entry) := by
  have hne : doc.portfolio ≠ [] := by
    intro h
    rw [h] at hp
    simp at hp
  have hl := load_portfolio_of_ne doc hne
  have := schema_info_in_range doc (k : Int) p (by omega) (by rw [hl]; simpa using hp)
  rw [hl] at this
  exact this

theorem add_schema_result (doc : pdf_document) (k : Nat) (info : pdf_portfolio_schema) :
    ∃ (m : Nat) (doc' : pdf_document) (res : Except fz_error Unit),
      pdf_add_portfolio_schema doc (k : Int) info = some (doc', res) ∧
      doc'.portfolio.map erase_position =
        ((load_portfolio doc).portfolio.take k).map erase_position ++
          erase_position (new_cell (fz_snprintf_d (m : Int)) info) ::
            ((load_portfolio doc).portfolio.drop k).map erase_position ∧
      ((∃ s, doc.Collection = some (some s)) → res = .ok ()) := by
  obtain ⟨m, -, -, h3, -, -⟩ :=
    find_name_spec ((load_portfolio doc).portfolio.map (fun p => p.key))
  rw [List.length_map] at h3
  have hC : (load_portfolio doc).Collection = doc.Collection := by
    unfold load_portfolio
    split <;> rfl
  refine ⟨m, ?_⟩
  unfold pdf_add_portfolio_schema
  simp only [h3, seek_nat]
  split
  · refine ⟨_, _, rfl, ?_, fun _ => rfl⟩
    simp [renumber_erase_position, new_cell]
  · rename_i hnone
    refine ⟨_, _, rfl, ?_, fun ⟨s, hs⟩ => ?_⟩
    · simp [new_cell]
    · exact absurd (hC.trans hs) (hnone s)

/-- C14: for every document, with `L` the registry of `n` cells before the call, every
position `0 ≤ position ≤ n` and every descriptor: `pdf_add_portfolio_schema` returns and leaves
a list of `n + 1` cells which, the position dependent members `O` and `sort` apart, is `L` with
the new cell (the supplied descriptor under a synthesised key) inserted at the index
`position`: the cells before it and the cells from it on are those of `L` in their order;
`pdf_portfolio_schema_info` at `position` then returns the supplied descriptor. The call
succeeds when the document has a schema container. -/
theorem add_inserts_at_position (doc : pdf_document) (position : Int)
    (info : pdf_portfolio_schema) (h0 : 0 ≤ position)
    (hn : position ≤ (load_portfolio doc).portfolio.length) :
    ∃ (m : Nat) (doc' : pdf_document) (res : Except fz_error Unit),
      pdf_add_portfolio_schema doc position info = some (doc', res) ∧
      doc'.portfolio.length = (load_portfolio doc).portfolio.length + 1 ∧
      doc'.portfolio.map erase_position =
        ((load_portfolio doc).portfolio.take position.toNat).map erase_position ++
          erase_position (new_cell (fz_snprintf_d (m : Int)) info) ::
            ((load_portfolio doc).portfolio.drop position.toNat).map erase_position ∧
      pdf_portfolio_schema_info doc' position = (doc', .ok info) ∧
      ((∃ s, doc.Collection = some (some s)) → res = .ok ()) := by
  obtain ⟨k, rfl⟩ := Int.eq_ofNat_of_zero_le h0
  have hk : k ≤ (load_portfolio doc).portfolio.length := by omega
  obtain ⟨m, doc', res, hadd, hlist, hres⟩ := add_schema_result doc k info
  have hlen : doc'.portfolio.length = (load_portfolio doc).portfolio.length + 1 := by
    have := congrArg List.length hlist
    simp at this
    omega
  have hget : (doc'.portfolio.map erase_position)[k]? =
      some (erase_position (new_cell (fz_snprintf_d (m : Int)) info)) := by
    rw [hlist, List.getElem?_append_right (by simp [hk])]
    simp [hk]
  rw [List.getElem?_map] at hget
  cases hp : doc'.portfolio[k]? with
  | none => rw [hp] at hget; cases hget
  | some p =>
    rw [hp] at hget
    have he : p.entry = info := by
      have := congrArg (fun q : pdf_portfolio => q.entry) (Option.some.inj hget)
      simpa [erase_position, erase_order, new_cell] using this
    refine ⟨m, doc', res, hadd, hlen, ?_, ?_, hres⟩
    · simpa using hlist
    · rw [schema_info_of_get doc' k p hp, he]

/-- C14 (witness): a field is added at the position 1 of the registry of `doc_XY`. -/
theorem add_inserts_at_position_witness :
    (0 : Int) ≤ 1 ∧ (1 : Int) ≤ (load_portfolio doc_XY).portfolio.length ∧
    ∃ (m : Nat) (doc' : pdf_document) (res : Except fz_error Unit),
      pdf_add_portfolio_schema doc_XY 1
        { type := .PDF_SCHEMA_TEXT, visible := 1, editable := 0, name := some "z" } =
          some (doc', res) ∧
      doc'.portfolio.length = (load_portfolio doc_XY).portfolio.length + 1 ∧
      doc'.portfolio.map erase_position =
        ((load_portfolio doc_XY).portfolio.take (1 : Int).toNat).map erase_position ++
          erase_position (new_cell (fz_snprintf_d (m : Int))
            { type := .PDF_SCHEMA_TEXT, visible := 1, editable := 0, name := some "z" }) ::
            ((load_portfolio doc_XY).portfolio.drop (1 : Int).toNat).map erase_position ∧
      pdf_portfolio_schema_info doc' 1 =
        (doc', .ok { type := .PDF_SCHEMA_TEXT, visible := 1, editable := 0, name := some "z" }) ∧
      ((∃ s, doc_XY.Collection = some (some s)) → res = .ok ()) :=
  ⟨by decide, by decide, add_inserts_at_position doc_XY 1
    { type := .PDF_SCHEMA_TEXT, visible := 1, editable := 0, name := some "z" }
    (by decide) (by decide)⟩

/-! ## The loop on `Kids` by the children it keeps -/

theorem take_succ_append_eraseIdx {α : Type} (K S : List α) (i : Nat) (kid : α)
    (hk : K[i]? = some kid) :
    K.take (i + 1) = K.take i ++ [kid] ∧
      (K.take (i + 1) ++ S).eraseIdx i = K.take i ++ S := by
  have hi : i < K.length := by
    by_contra hn
    rw [List.getElem?_eq_none (by omega)] at hk
    cases hk
  have h1 : K.take (i + 1) = K.take i ++ [kid] := by
    rw [List.take_succ, hk]
    rfl
  refine ⟨h1, ?_⟩
  rw [h1, List.append_assoc, List.eraseIdx_append_of_length_le (by simp)]
  simp [Nat.min_eq_left (Nat.le_of_lt hi)]

/-- The loop on `Kids` of a marked node `t` whose children are `K`, by the list `S` of the
children kept so far: when `i` children are left to process the array is `K.take i ++ S`.
An invariant `J` of the iterations that every call re-establishes holds at the end, where the
array is `S` and the counter is its length. -/
theorem kids_loop_survivors {σ : Type} (call : Nat → List Node → σ → Option (MapResult σ))
    (t : Nat) (K : List Nat)
    (hframe : ∀ kid g a r, call kid g a = some r → heap_evolves g r.heap)
    (J : Nat → List Nat → List Node → σ → Prop) (E : fz_error → List Node → σ → Prop)
    (hstep : ∀ i S g a kid r, K[i]? = some kid → J (i + 1) S g a →
      (node_at g t).Kids = K.take (i + 1) ++ S → (node_at g t).marked = true → t < g.length →
      call kid g a = some r → node_at r.heap t = node_at g t →
      (∀ e, r.res = .error e → E e r.heap r.arg) ∧
      (r.res = .ok true → J i S (set_kids r.heap t (K.take i ++ S)) r.arg) ∧
      (r.res = .ok false → J i (kid :: S) r.heap r.arg))
    (g0 : List Node) (a0 : σ) (hK : (node_at g0 t).Kids = K)
    (hm : (node_at g0 t).marked = true) (ht : t < g0.length) (h0 : J K.length [] g0 a0)
    (g : List Node) (a : σ) (res : Except fz_error Int)
    (hloop : kids_loop call t K.length (K.length : Int) g0 a0 = some (g, a, res)) :
    (∀ e, res = .error e → E e g a) ∧
    (∀ n, res = .ok n → ∃ S, J 0 S g a ∧ (node_at g t).Kids = S ∧ n = (S.length : Int) ∧
      (node_at g t).marked = true ∧ t < g.length) := by
  have hind := kids_loop_induct call t
    (fun i n g a => ∃ S, J i S g a ∧ (node_at g t).Kids = K.take i ++ S ∧
      (node_at g t).marked = true ∧ t < g.length ∧ n = (i : Int) + S.length ∧ i ≤ K.length)
    E
    (fun i n g a hinv hk => by
      obtain ⟨S, -, hkids, -, -, -, hi⟩ := hinv
      rw [hkids, List.getElem?_eq_none_iff] at hk
      simp at hk
      omega)
    (fun i n g a kid r hinv hk hr => by
      obtain ⟨S, hJ, hkids, hmk, hlt, hn, hi⟩ := hinv
      have hKi : K[i]? = some kid := by
        rw [hkids, List.getElem?_append_left (by simp; omega), List.getElem?_take_of_lt (by omega)] at hk
        exact hk
      have hev := hframe kid g a r hr
      have hnode : node_at r.heap t = node_at g t := (hev.2 t).2.1 hmk
      obtain ⟨e1, e2, e3⟩ := hstep i S g a kid r hKi hJ hkids hmk hlt hr hnode
      obtain ⟨t1, t2⟩ := take_succ_append_eraseIdx K S i kid hKi
      have hlen : t < r.heap.length := by rw [hev.1]; exact hlt
      refine ⟨e1, fun hres => ?_, fun hres => ?_⟩
      · refine ⟨S, ?_, ?_, ?_, by simpa using hlen, by omega, by omega⟩
        · rw [hnode, hkids, t2]
          exact e2 hres
        · rw [kids_set_kids, if_pos ⟨rfl, hlen⟩, hnode, hkids, t2]
        · rw [node_at_set_kids, if_pos ⟨rfl, hlen⟩]
          show (node_at r.heap t).marked = true
          rw [hnode]
          exact hmk
      · refine ⟨kid :: S, e3 hres, ?_, by rw [hnode]; exact hmk, hlen, ?_, by omega⟩
        · rw [hnode, hkids, t1]
          simp
        · simp
          omega)
    K.length (K.length : Int) g0 a0 g a res hloop
    ⟨[], h0, by simp [hK], hm, ht, by simp, le_refl _⟩
  refine ⟨hind.1, fun n hn => ?_⟩
  obtain ⟨S, hJ, hkids, hmk, hlt, hn', -⟩ := hind.2 n hn
  exact ⟨S, hJ, by simpa using hkids, by simpa using hn', hmk, hlt⟩

/-- Inversion of a call of `do_name_tree_map` on an object of the heap that returns
normally. -/
theorem do_name_tree_map_ok_inv {σ : Type} (fn : pdf_name_tree_map_fn σ) (fuel t : Nat)
    (h : List Node) (a : σ) (r : MapResult σ) (b : Bool)
    (hr : do_name_tree_map fn (fuel + 1) t h a = some r) (hok : r.res = .ok b) :
    (node_at h t).marked = false ∧ ∃ g a' n,
      kids_loop (do_name_tree_map fn fuel) t (node_at h t).Kids.length
        ((node_at h t).Kids.length : Int) (pdf_mark_obj h t) a = some (g, a', .ok n) ∧
      (node_at g t).Names.length % 2 = 0 ∧
      r.heap = pdf_unmark_obj (set_names g t
        (names_loop fn t ((node_at g t).Names.length / 2) (node_at g t).Names
          ((node_at g t).Names.length : Int) a').1) t ∧
      r.arg = (names_loop fn t ((node_at g t).Names.length / 2) (node_at g t).Names
          ((node_at g t).Names.length : Int) a').2.2 ∧
      b = (n == 0 && (names_loop fn t ((node_at g t).Names.length / 2)
          (node_at g t).Names ((node_at g t).Names.length : Int) a').2.1 == 0) := by
  rcases do_name_tree_map_succ fn fuel t h a r hr with ⟨-, rfl⟩ | ⟨hm, g, a', res, hloop, hc⟩
  · simp at hok
  · refine ⟨hm, ?_⟩
    rw [kids_mark] at hloop
    rcases hc with ⟨e', rfl, rfl⟩ | ⟨n, -, -, rfl⟩ | ⟨n, rfl, hev, rfl⟩
    · simp at hok
    · simp at hok
    · refine ⟨g, a', n, hloop, hev, rfl, rfl, ?_⟩
      simp only [Except.ok.injEq] at hok
      exact hok.symm

theorem erase_pair_length {α : Type} (arr : List α) (c : Nat) (v : α)
    (hc : 2 * (c + 1) ≤ arr.length) :
    (((arr.set (2 * c + 1) v).eraseIdx (2 * c + 1)).eraseIdx (2 * c)).length =
      arr.length - 2 := by
  rw [List.length_eraseIdx_of_lt, List.length_eraseIdx_of_lt]
  · simp only [List.length_set]; omega
  · simp only [List.length_set]; omega
  · rw [List.length_eraseIdx_of_lt]
    · simp only [List.length_set]; omega
    · simp only [List.length_set]; omega

theorem names_loop_counter {σ : Type} (fn : pdf_name_tree_map_fn σ) (t c : Nat)
    (arr : List pdf_obj) (m : Int) (a : σ) (hc : 2 * c ≤ arr.length) :
    (names_loop fn t c arr m a).2.1 - ((names_loop fn t c arr m a).1.length : Int) =
      m - (arr.length : Int) := by
  induction c generalizing arr m a with
  | zero => rfl
  | succ c ih =>
    unfold names_loop
    simp only
    split
    · have hl := erase_pair_length arr c (fn t (pdf_array_get arr (2 * c))
        (pdf_array_get arr (2 * c + 1)) a).2.1 hc
      rw [ih _ _ _ (by rw [hl]; omega), hl]
      omega
    · rw [ih _ _ _ (by simp only [List.length_set]; omega)]
      simp only [List.length_set]

/-- What the flag returned by `do_name_tree_map` says: the call returns 1 exactly when it
leaves the node without children and without pairs. -/
theorem do_name_tree_map_flag {σ : Type} (fn : pdf_name_tree_map_fn σ) (fuel t : Nat)
    (h : List Node) (a : σ) (r : MapResult σ) (b : Bool)
    (hr : do_name_tree_map fn fuel t h a = some r) (hok : r.res = .ok b) :
    b = true ↔ ((node_at r.heap t).Kids = [] ∧ (node_at r.heap t).Names = []) := by
  cases fuel with
  | zero => simp [do_name_tree_map] at hr
  | succ fuel =>
    by_cases ht : t < h.length
    · obtain ⟨hm, g, a', n, hloop, -, hheap, -, hb⟩ :=
        do_name_tree_map_ok_inv fn fuel t h a r b hr hok
      have hks := kids_loop_survivors (do_name_tree_map fn fuel) t (node_at h t).Kids
        (fun kid g a r hr => do_name_tree_map_evolves fn fuel kid g a r hr)
        (fun _ _ _ _ => True) (fun _ _ _ => True)
        (fun _ _ _ _ _ _ _ _ _ _ _ _ _ => ⟨fun _ _ => trivial, fun _ => trivial, fun _ => trivial⟩)
        (pdf_mark_obj h t) a (kids_mark h t t) (by simp [node_at_mark, ht]) (by simpa using ht)
        trivial g a' (.ok n) hloop
      obtain ⟨S, -, hkids, hn, -, hlt⟩ := hks.2 n rfl
      have hcnt := names_loop_counter fn t ((node_at g t).Names.length / 2) (node_at g t).Names
        ((node_at g t).Names.length : Int) a' (by omega)
      rw [hheap, kids_finish, names_finish, if_pos ⟨rfl, hlt⟩, hkids, hb]
      simp only [Bool.and_eq_true, beq_iff_eq]
      constructor
      · rintro ⟨h1, h2⟩
        refine ⟨List.length_eq_zero.1 (by omega), List.length_eq_zero.1 ?_⟩
        omega
      · rintro ⟨h1, h2⟩
        rw [h2] at hcnt
        rw [h1] at hn
        simp at hn hcnt
        exact ⟨hn, by omega⟩
    · rw [do_name_tree_map_null fn fuel t h a (by omega)] at hr
      injection hr with hr
      subst hr
      simp only [Except.ok.injEq] at hok
      rw [node_at_of_le h t (by omega)]
      simp [null_node, ← hok]

/-! ## The depth first walk -/

theorem walk_kids_cons {α : Type} (f : Nat → Option (List α)) (k : Nat) (ks : List Nat)
    (l : List α) :
    walk_kids f (k :: ks) = some l ↔
      ∃ a b, f k = some a ∧ walk_kids f ks = some b ∧ l = a ++ b := by
  simp only [walk_kids]
  constructor
  · intro h
    split at h
    · rename_i a b ha hb
      injection h with h
      exact ⟨a, b, ha, hb, h.symm⟩
    · cases h
  · rintro ⟨a, b, ha, hb, rfl⟩
    simp [ha, hb]

theorem walk_kids_imp {α : Type} (f f' : Nat → Option (List α)) (ks : List Nat)
    (hf : ∀ k, k ∈ ks → ∀ l, f k = some l → f' k = some l) (l : List α)
    (h : walk_kids f ks = some l) : walk_kids f' ks = some l := by
  induction ks generalizing l with
  | nil => exact h
  | cons k ks ih =>
    rw [walk_kids_cons] at h ⊢
    obtain ⟨a, b, ha, hb, rfl⟩ := h
    exact ⟨a, b, hf k (List.mem_cons_self _ _) a ha,
      ih (fun k' hk' => hf k' (List.mem_cons_of_mem _ hk')) b hb, rfl⟩

theorem walk_kids_mem {α : Type} (f : Nat → Option (List α)) (ks : List Nat) (l : List α)
    (h : walk_kids f ks = some l) (k : Nat) (hk : k ∈ ks) : ∃ a, f k = some a := by
  induction ks generalizing l with
  | nil => cases hk
  | cons x xs ih =>
    obtain ⟨a, b, ha, hb, -⟩ := (walk_kids_cons f x xs l).1 h
    rw [List.mem_cons] at hk
    rcases hk with rfl | hk
    · exact ⟨a, ha⟩
    · exact ih b hb hk

theorem walk_kids_eraseIdx {α : Type} (f : Nat → Option (List α)) (ks : List Nat) (i kid : Nat)
    (hk : ks[i]? = some kid) (hkid : f kid = some []) (l : List α)
    (h : walk_kids f ks = some l) : walk_kids f (ks.eraseIdx i) = some l := by
  induction ks generalizing i l with
  | nil => simp at hk
  | cons x xs ih =>
    obtain ⟨a, b, ha, hb, rfl⟩ := (walk_kids_cons f x xs l).1 h
    cases i with
    | zero =>
      simp only [List.getElem?_cons_zero, Option.some.injEq] at hk
      subst hk
      rw [hkid] at ha
      injection ha with ha
      subst ha
      simpa using hb
    | succ i =>
      simp only [List.getElem?_cons_succ] at hk
      rw [List.eraseIdx_cons_succ, walk_kids_cons]
      exact ⟨a, b, ha, ih i hk b hb, rfl⟩

theorem walk_gen_succ {α : Type} (own : Nat → Node → List α) (d : Nat) (h : List Node)
    (t : Nat) (l : List α) :
    walk_gen own (d + 1) h t = some l ↔
      ∃ lk, walk_kids (walk_gen own d h) (node_at h t).Kids = some lk ∧
        l = own t (node_at h t) ++ lk := by
  unfold walk_gen
  rw [Option.map_eq_some']
  constructor
  · rintro ⟨lk, h1, h2⟩
    exact ⟨lk, h1, h2.symm⟩
  · rintro ⟨lk, h1, h2⟩
    exact ⟨lk, h1, h2.symm⟩

theorem walk_gen_mono {α : Type} (own : Nat → Node → List α) (d : Nat) (h : List Node)
    (t : Nat) (l : List α) (hw : walk_gen own d h t = some l) :
    walk_gen own (d + 1) h t = some l := by
  induction d generalizing t l with
  | zero => simp [walk_gen] at hw
  | succ d ih =>
    rw [walk_gen_succ] at hw ⊢
    obtain ⟨lk, h1, rfl⟩ := hw
    exact ⟨lk, walk_kids_imp _ _ _ (fun k _ l hl => ih k l hl) lk h1, rfl⟩

theorem walk_gen_mono_le {α : Type} (own : Nat → Node → List α) (d d' : Nat) (h : List Node)
    (t : Nat) (l : List α) (hd : d ≤ d') (hw : walk_gen own d h t = some l) :
    walk_gen own d' h t = some l := by
  induction hd with
  | refl => exact hw
  | step _ ih => exact walk_gen_mono own _ h t l ih

theorem walk_kids_exists {α : Type} (own : Nat → Node → List α) (h : List Node)
    (ks : List Nat) (hk : ∀ k, k ∈ ks → ∃ d l, walk_gen own d h k = some l) :
    ∃ d l, walk_kids (walk_gen own d h) ks = some l := by
  induction ks with
  | nil => exact ⟨0, [], rfl⟩
  | cons x xs ih =>
    obtain ⟨d1, l1, h1⟩ := hk x (List.mem_cons_self _ _)
    obtain ⟨d2, l2, h2⟩ := ih (fun k hk' => hk k (List.mem_cons_of_mem _ hk'))
    refine ⟨max d1 d2, l1 ++ l2, (walk_kids_cons _ x xs _).2 ⟨l1, l2, ?_, ?_, rfl⟩⟩
    · exact walk_gen_mono_le own d1 _ h x l1 (le_max_left _ _) h1
    · exact walk_kids_imp _ _ _
        (fun k _ l hl => walk_gen_mono_le own d2 _ h k l (le_max_right _ _) hl) l2 h2

/-- The walk of an acyclic graph is defined from some depth on. -/
theorem walk_gen_exists {α : Type} (own : Nat → Node → List α) (h : List Node) (t : Nat)
    (hac : acyclic h t) : ∃ d l, walk_gen own d h t = some l := by
  induction hac with
  | node t _ ih =>
    obtain ⟨d, l, hl⟩ := walk_kids_exists own h (node_at h t).Kids ih
    exact ⟨d + 1, _, (walk_gen_succ own d h t _).2 ⟨l, hl, rfl⟩⟩

theorem walk_gen_imp {α : Type} (own : Nat → Node → List α) (h h' : List Node)
    (hk : ∀ x, (node_at h' x).Kids = (node_at h x).Kids)
    (ho : ∀ x, own x (node_at h' x) = own x (node_at h x)) (d t : Nat) (l : List α)
    (hw : walk_gen own d h t = some l) : walk_gen own d h' t = some l := by
  induction d generalizing t l with
  | zero => simp [walk_gen] at hw
  | succ d ih =>
    rw [walk_gen_succ] at hw ⊢
    obtain ⟨lk, h1, rfl⟩ := hw
    rw [hk t, ho t]
    exact ⟨lk, walk_kids_imp _ _ _ (fun k _ l hl => ih k l hl) lk h1, rfl⟩

/-- The walk of a node without children. -/
theorem walk_gen_leaf {α : Type} (own : Nat → Node → List α) (d : Nat) (h : List Node)
    (t : Nat) (hk : (node_at h t).Kids = []) :
    walk_gen own (d + 1) h t = some (own t (node_at h t)) := by
  rw [walk_gen_succ, hk]
  exact ⟨[], rfl, by simp⟩

/-- Taking a child without children and with nothing of its own out of `Kids` changes no
walk. -/
theorem walk_gen_erase {α : Type} (own : Nat → Node → List α)
    (hown : ∀ x nd nd', nd.Names = nd'.Names → own x nd = own x nd')
    (g : List Node) (t i kid : Nat)
    (hk : (node_at g t).Kids[i]? = some kid) (hkk : (node_at g kid).Kids = [])
    (hko : own kid (node_at g kid) = []) (d x : Nat) (l : List α)
    (hw : walk_gen own d g x = some l) :
    walk_gen own d (set_kids g t ((node_at g t).Kids.eraseIdx i)) x = some l := by
  induction d generalizing x l with
  | zero => simp [walk_gen] at hw
  | succ d ih =>
    rw [walk_gen_succ] at hw ⊢
    obtain ⟨lk, h1, rfl⟩ := hw
    rw [hown x _ (node_at g x) (names_set_kids g t x _), kids_set_kids]
    refine ⟨lk, ?_, rfl⟩
    split
    · rename_i hc
      obtain ⟨rfl, -⟩ := hc
      obtain ⟨a, ha⟩ := walk_kids_mem _ _ lk h1 kid (mem_of_getElem?_eq_some _ i kid hk)
      have hkid : walk_gen own d g kid = some [] := by
        cases d with
        | zero => simp [walk_gen] at ha
        | succ d => rw [walk_gen_leaf own d g kid hkk, hko]
      exact walk_kids_imp _ _ _ (fun k _ l hl => ih k l hl) lk
        (walk_kids_eraseIdx _ _ i kid hk hkid lk h1)
    · exact walk_kids_imp _ _ _ (fun k _ l hl => ih k l hl) lk h1

/-! ## Visitors that remove nothing -/

theorem names_loop_keeping {σ : Type} (fn : pdf_name_tree_map_fn σ) (hfn : keeping fn)
    (t c : Nat) (arr : List pdf_obj) (m : Int) (a : σ) :
    (names_loop fn t c arr m a).1.length = arr.length := by
  induction c generalizing arr a with
  | zero => rfl
  | succ c ih =>
    unfold names_loop
    simp only [hfn t _ _ a, Bool.false_eq_true, if_false]
    rw [ih]
    simp

/-- A traversal with a visitor that removes nothing changes no walk of something that depends
on the lengths of the pair sequences only: it takes away only children that have neither
children nor pairs. -/
theorem do_name_tree_map_keeps_walk {σ α : Type} (fn : pdf_name_tree_map_fn σ)
    (hfn : keeping fn) (own : Nat → Node → List α)
    (hown : ∀ x nd nd', nd.Names.length = nd'.Names.length → own x nd = own x nd')
    (hempty : ∀ x nd, nd.Names = [] → own x nd = [])
    (fuel t : Nat) (h : List Node) (a : σ) (r : MapResult σ)
    (hr : do_name_tree_map fn fuel t h a = some r) :
    ∀ d x l, walk_gen own d h x = some l → walk_gen own d r.heap x = some l := by
  have hown' : ∀ x nd nd', nd.Names = nd'.Names → own x nd = own x nd' :=
    fun x nd nd' he => hown x nd nd' (by rw [he])
  induction fuel generalizing t h a r with
  | zero => simp [do_name_tree_map] at hr
  | succ fuel ih =>
    by_cases ht : t < h.length
    · rcases do_name_tree_map_succ fn fuel t h a r hr with ⟨-, rfl⟩ | ⟨-, g, a', res, hloop, hc⟩
      · exact fun _ _ _ hw => hw
      · have hind := kids_loop_induct (do_name_tree_map fn fuel) t
          (fun _ _ g _ => (node_at g t).marked = true ∧
            ∀ d x l, walk_gen own d h x = some l → walk_gen own d g x = some l)
          (fun _ g _ => ∀ d x l, walk_gen own d h x = some l → walk_gen own d g x = some l)
          (fun _ _ _ _ hinv _ => hinv)
          (fun i n g a kid r hinv hk hr' => by
            obtain ⟨hmk, hw⟩ := hinv
            have hev := do_name_tree_map_evolves fn fuel kid g a r hr'
            have hnode : node_at r.heap t = node_at g t := (hev.2 t).2.1 hmk
            have hw' : ∀ d x l, walk_gen own d h x = some l →
                walk_gen own d r.heap x = some l :=
              fun d x l hl => ih kid g a r hr' d x l (hw d x l hl)
            refine ⟨fun _ _ => hw', fun hres => ⟨?_, fun d x l hl => ?_⟩,
              fun _ => ⟨by rw [hnode]; exact hmk, hw'⟩⟩
            · rw [node_at_set_kids]
              split
              · show (node_at r.heap t).marked = true
                rw [hnode]; exact hmk
              · rw [hnode]; exact hmk
            · obtain ⟨e1, e2⟩ := (do_name_tree_map_flag fn fuel kid g a r true hr' hres).1 rfl
              exact walk_gen_erase own hown' r.heap t i kid (by rw [hnode]; exact hk) e1
                (hempty kid _ e2) d x l (hw' d x l hl))
          _ _ _ _ g a' res hloop
          ⟨by simp [node_at_mark, ht], fun d x l hl => walk_gen_imp own h _
            (fun x => kids_mark h t x) (fun x => hown' x _ _ (names_mark h t x)) d x l hl⟩
        have hun : ∀ g', (∀ d x l, walk_gen own d h x = some l →
              walk_gen own d g' x = some l) →
            ∀ d x l, walk_gen own d h x = some l →
              walk_gen own d (pdf_unmark_obj g' t) x = some l := by
          intro g' hg' d x l hl
          refine walk_gen_imp own g' _ (fun x => ?_) (fun x => hown' x _ _ ?_) d x l
            (hg' d x l hl)
          · have := kids_finish g' t x (node_at g' t).Names
            rwa [set_names_self] at this
          · have := names_finish g' t x (node_at g' t).Names
            rw [set_names_self] at this
            rw [this]
            split
            · rename_i hc; rw [hc.1]
            · rfl
        rcases hc with ⟨e', rfl, rfl⟩ | ⟨n, rfl, -, rfl⟩ | ⟨n, rfl, -, rfl⟩
        · exact hun g (hind.1 e' rfl)
        · exact hun g (hind.2 n rfl).2
        · intro d x l hl
          refine walk_gen_imp own g _ (fun x => kids_finish g t x _) (fun x => ?_) d x l
            ((hind.2 n rfl).2 d x l hl)
          apply hown
          rw [names_finish]
          split
          · rename_i hc
            rw [names_loop_keeping fn hfn, hc.1]
          · rfl
    · rw [do_name_tree_map_null fn fuel t h a (by omega)] at hr
      injection hr with hr
      subst hr
      exact fun _ _ _ hw => hw

theorem slots_of_length (x : Nat) (nd nd' : Node) (h : nd.Names.length = nd'.Names.length) :
    slots_of x nd = slots_of x nd' := by
  unfold slots_of
  rw [h]

theorem slots_of_empty (x : Nat) (nd : Node) (h : nd.Names = []) : slots_of x nd = [] := by
  unfold slots_of
  rw [h]
  rfl

theorem set_names_set_names (h : List Node) (t : Nat) (xs ys : List pdf_obj) :
    set_names (set_names h t xs) t ys = set_names h t ys := by
  unfold set_names
  by_cases ht : t < h.length
  · rw [node_at_set, if_pos ⟨rfl, ht⟩, List.set_set]
  · have e : ∀ nd, h.set t nd = h := fun nd => List.set_eq_of_length_le (by omega)
    simp [e]

theorem same_names_refl (h : List Node) : same_names h h := ⟨rfl, fun _ => rfl⟩

theorem same_names_trans (a b c : List Node) (h1 : same_names a b) (h2 : same_names b c) :
    same_names a c :=
  ⟨h1.1.trans h2.1, fun x => (h1.2 x).trans (h2.2 x)⟩

theorem same_names_symm (a b : List Node) (h1 : same_names a b) : same_names b a :=
  ⟨h1.1.symm, fun x => (h1.2 x).symm⟩

theorem slot_step_congr {σ : Type} (fn : pdf_name_tree_map_fn σ) (H H' : List Node) (a : σ)
    (s : Nat × Nat) (hs : same_names H H') :
    same_names (slot_step fn (H, a) s).1 (slot_step fn (H', a) s).1 ∧
      (slot_step fn (H, a) s).2 = (slot_step fn (H', a) s).2 := by
  unfold slot_step
  simp only
  rw [hs.2 s.1]
  refine ⟨⟨by simp [hs.1], fun x => ?_⟩, rfl⟩
  rw [node_at_set_names, node_at_set_names, hs.1]
  split
  · rfl
  · exact hs.2 x

theorem slot_fold_congr {σ : Type} (fn : pdf_name_tree_map_fn σ) (sl : List (Nat × Nat))
    (H H' : List Node) (a : σ) (hs : same_names H H') :
    same_names (slot_fold fn sl (H, a)).1 (slot_fold fn sl (H', a)).1 ∧
      (slot_fold fn sl (H, a)).2 = (slot_fold fn sl (H', a)).2 := by
  induction sl generalizing H H' a with
  | nil => exact ⟨hs, rfl⟩
  | cons s sl ih =>
    obtain ⟨h1, h2⟩ := slot_step_congr fn H H' a s hs
    have e1 : slot_fold fn (s :: sl) (H, a) =
        slot_fold fn sl ((slot_step fn (H, a) s).1, (slot_step fn (H, a) s).2) := rfl
    have e2 : slot_fold fn (s :: sl) (H', a) =
        slot_fold fn sl ((slot_step fn (H', a) s).1, (slot_step fn (H', a) s).2) := rfl
    rw [e1, e2, ← h2]
    exact ih _ _ _ h1

theorem slot_fold_append {σ : Type} (fn : pdf_name_tree_map_fn σ) (xs ys : List (Nat × Nat))
    (st : List Node × σ) :
    slot_fold fn (xs ++ ys) st = slot_fold fn ys (slot_fold fn xs st) := by
  unfold slot_fold
  rw [List.foldl_append]

theorem slot_fold_length {σ : Type} (fn : pdf_name_tree_map_fn σ) (sl : List (Nat × Nat))
    (st : List Node × σ) : (slot_fold fn sl st).1.length = st.1.length := by
  induction sl generalizing st with
  | nil => rfl
  | cons s sl ih =>
    have e1 : slot_fold fn (s :: sl) st = slot_fold fn sl (slot_step fn st s) := rfl
    rw [e1, ih]
    simp [slot_step]

/-- The loop on `Names` with a visitor that removes nothing is the sequence of the visits at
the places of the node, the last one first. -/
theorem names_loop_slot_fold {σ : Type} (fn : pdf_name_tree_map_fn σ) (hfn : keeping fn)
    (t c : Nat) (H : List Node) (m : Int) (a : σ) (ht : t < H.length) :
    slot_fold fn ((List.range c).map (fun j => (t, j))).reverse (H, a) =
      (set_names H t (names_loop fn t c (node_at H t).Names m a).1,
        (names_loop fn t c (node_at H t).Names m a).2.2) := by
  induction c generalizing H a with
  | zero =>
    simp only [List.range_zero, List.map_nil, List.reverse_nil, names_loop]
    rw [set_names_self]
    rfl
  | succ c ih =>
    rw [List.range_succ, List.map_append, List.reverse_append]
    simp only [List.map_cons, List.map_nil, List.reverse_cons, List.reverse_nil, List.nil_append,
      List.singleton_append]
    have e1 : ∀ st, slot_fold fn ((t, c) :: ((List.range c).map (fun j => (t, j))).reverse) st =
        slot_fold fn ((List.range c).map (fun j => (t, j))).reverse (slot_step fn st (t, c)) :=
      fun _ => rfl
    rw [e1]
    unfold slot_step
    simp only
    rw [ih _ _ (by simpa using ht)]
    conv_rhs => unfold names_loop
    simp only [hfn t _ _ a, Bool.false_eq_true, if_false]
    rw [set_names_set_names, node_at_set_names, if_pos ⟨rfl, ht⟩]

theorem leaf_slots_null (d : Nat) (h : List Node) (t : Nat) (sl : List (Nat × Nat))
    (ht : h.length ≤ t) (hsl : walk_gen slots_of d h t = some sl) : sl = [] := by
  cases d with
  | zero => simp [walk_gen] at hsl
  | succ d =>
    rw [walk_gen_leaf slots_of d h t (by rw [node_at_of_le h t ht]; rfl)] at hsl
    injection hsl with hsl
    rw [← hsl, node_at_of_le h t ht]
    rfl

/-- A traversal with a visitor that removes nothing, when it returns normally, has made the
visits at the places of the leaf pairs below `t` from the last one to the first: `arg` and
the pair sequences are those that this sequence of visits gives. -/
theorem do_name_tree_map_keeping {σ : Type} (fn : pdf_name_tree_map_fn σ) (hfn : keeping fn)
    (fuel t : Nat) (h : List Node) (a : σ) (r : MapResult σ) (b : Bool)
    (hr : do_name_tree_map fn fuel t h a = some r) (hok : r.res = .ok b)
    (d : Nat) (sl : List (Nat × Nat)) (hsl : walk_gen slots_of d h t = some sl) :
    same_names r.heap (slot_fold fn sl.reverse (h, a)).1 ∧
      r.arg = (slot_fold fn sl.reverse (h, a)).2 := by
  induction fuel generalizing t h a r b d sl with
  | zero => simp [do_name_tree_map] at hr
  | succ fuel ih =>
    by_cases ht : t < h.length
    · obtain ⟨hm, g, a', n, hloop, -, hheap, harg, -⟩ :=
        do_name_tree_map_ok_inv fn fuel t h a r b hr hok
      cases d with
      | zero => simp [walk_gen] at hsl
      | succ d =>
      obtain ⟨lk, hlk, rfl⟩ := (walk_gen_succ slots_of d h t sl).1 hsl
      have hks := kids_loop_survivors (do_name_tree_map fn fuel) t (node_at h t).Kids
        (fun kid g a r hr => do_name_tree_map_evolves fn fuel kid g a r hr)
        (fun i _ g a' =>
          (∀ li, walk_kids (walk_gen slots_of d h) ((node_at h t).Kids.drop i) = some li →
            same_names g (slot_fold fn li.reverse (h, a)).1 ∧
              a' = (slot_fold fn li.reverse (h, a)).2) ∧
          (∀ dd x l, walk_gen slots_of dd h x = some l → walk_gen slots_of dd g x = some l) ∧
          (node_at g t).Names = (node_at h t).Names)
        (fun _ _ _ => True)
        (fun i S g a' kid r' hKi hJ hkids hmk hlt hr' hnode => by
          obtain ⟨hJ1, hJ2, hJ3⟩ := hJ
          have hi : i < (node_at h t).Kids.length := by
            by_contra hn
            rw [List.getElem?_eq_none (by omega)] at hKi
            cases hKi
          have hdrop : (node_at h t).Kids.drop i = kid :: (node_at h t).Kids.drop (i + 1) := by
            rw [List.drop_eq_getElem_cons hi]
            rw [List.getElem?_eq_getElem hi] at hKi
            injection hKi with hKi
            rw [hKi]
          have hshape : ∀ dd x l, walk_gen slots_of dd h x = some l →
              walk_gen slots_of dd r'.heap x = some l :=
            fun dd x l hl => do_name_tree_map_keeps_walk fn hfn slots_of slots_of_length
              slots_of_empty fuel kid g a' r' hr' dd x l (hJ2 dd x l hl)
          have hev := do_name_tree_map_evolves fn fuel kid g a' r' hr'
          have key : ∀ b', r'.res = .ok b' → ∀ li,
              walk_kids (walk_gen slots_of d h) ((node_at h t).Kids.drop i) = some li →
              same_names r'.heap (slot_fold fn li.reverse (h, a)).1 ∧
                r'.arg = (slot_fold fn li.reverse (h, a)).2 := by
            intro b' hb' li hli
            rw [hdrop, walk_kids_cons] at hli
            obtain ⟨V, li', hV, hli', rfl⟩ := hli
            obtain ⟨sn, ha'⟩ := hJ1 li' hli'
            obtain ⟨i1, i2⟩ := ih kid g a' r' b' hr' hb' d V (hJ2 d kid V hV)
            obtain ⟨c1, c2⟩ := slot_fold_congr fn V.reverse g _ a' sn
            rw [List.reverse_append, slot_fold_append]
            have hst : slot_fold fn li'.reverse (h, a) =
                ((slot_fold fn li'.reverse (h, a)).1, a') := by
              rw [ha']
            rw [hst]
            exact ⟨same_names_trans _ _ _ i1 c1, i2.trans c2⟩
          refine ⟨fun _ _ => trivial,
            fun hres => ⟨fun li hli => ?_, fun dd x l hl => ?_, by rw [names_set_kids, hnode, hJ3]⟩,
            fun hres => ⟨key false hres, hshape, by rw [hnode, hJ3]⟩⟩
          · obtain ⟨k1, k2⟩ := key true hres li hli
            exact ⟨⟨by simpa using k1.1, fun x => by rw [names_set_kids]; exact k1.2 x⟩, k2⟩
          · obtain ⟨e1, e2⟩ := (do_name_tree_map_flag fn fuel kid g a' r' true hr' hres).1 rfl
            have hk' : (node_at r'.heap t).Kids[i]? = some kid := by
              rw [hnode, hkids, List.getElem?_append_left (by simp; omega),
                List.getElem?_take_of_lt (by omega)]
              exact hKi
            have := walk_gen_erase slots_of (fun x nd nd' he => slots_of_length x nd nd'
              (by rw [he])) r'.heap t i kid hk' e1 (slots_of_empty kid _ e2) dd x l
              (hshape dd x l hl)
            rw [hnode, hkids, (take_succ_append_eraseIdx _ S i kid hKi).2] at this
            exact this)
        (pdf_mark_obj h t) a (kids_mark h t t) (by simp [node_at_mark, ht]) (by simpa using ht)
        ⟨fun li hli => by
          rw [List.drop_length] at hli
          simp only [walk_kids, Option.some.injEq] at hli
          subst hli
          exact ⟨⟨by simp [pdf_mark_obj, slot_fold], fun x => names_mark h t x⟩, rfl⟩,
          fun dd x l hl => walk_gen_imp slots_of h _ (fun x => kids_mark h t x)
            (fun x => slots_of_length x _ _ (by rw [names_mark])) dd x l hl,
          names_mark h t t⟩
        g a' (.ok n) hloop
      obtain ⟨S, ⟨hJ1, -, hJ3⟩, -, -, -, hlt⟩ := hks.2 n rfl
      obtain ⟨sn, ha'⟩ := hJ1 lk (by simpa using hlk)
      rw [List.reverse_append, slot_fold_append]
      have hst : slot_fold fn lk.reverse (h, a) = ((slot_fold fn lk.reverse (h, a)).1, a') := by
        rw [ha']
      have hlen : t < (slot_fold fn lk.reverse (h, a)).1.length := by
        rw [slot_fold_length]; exact ht
      have hnames : (node_at (slot_fold fn lk.reverse (h, a)).1 t).Names = (node_at g t).Names :=
        (sn.2 t).symm
      have hfold := names_loop_slot_fold fn hfn t ((node_at g t).Names.length / 2)
        (slot_fold fn lk.reverse (h, a)).1 ((node_at g t).Names.length : Int) a' hlen
      rw [hnames] at hfold
      rw [hst]
      unfold slots_of
      rw [← hJ3, hfold, hheap, harg]
      refine ⟨⟨by simpa using sn.1, fun x => ?_⟩, rfl⟩
      rw [names_finish, node_at_set_names, sn.1]
      split
      · rfl
      · exact sn.2 x
    · rw [do_name_tree_map_null fn fuel t h a (by omega)] at hr
      injection hr with hr
      subst hr
      rw [leaf_slots_null d h t sl (by omega) hsl]
      exact ⟨same_names_refl h, rfl⟩

/-! ## Counting the entries -/

theorem pairs_of_length : ∀ l : List pdf_obj, (pairs_of l).length = l.length / 2
  | [] => rfl
  | [_] => by simp [pairs_of]
  | _ :: _ :: rest => by
    simp only [pairs_of, List.length_cons, pairs_of_length rest]
    omega

theorem sound_two_leaves : sound_index doc_two_leaves := by
  intro root hroot
  have h0 : root = 0 := by
    have : some 0 = some root := hroot
    injection this with this
    exact this.symm
  subst h0
  refine ⟨well_formed.node 0 rfl (fun k hk => ?_), fun x _ => ?_⟩
  · have hk' : k = 1 ∨ k = 2 := by simpa [node_at, doc_two_leaves] using hk
    rcases hk' with rfl | rfl <;>
      exact well_formed.node _ rfl (fun k hk => by simp [node_at, doc_two_leaves] at hk)
  · rcases x with _ | _ | _ | x <;> rfl

theorem set_get_self (arr : List pdf_obj) (i : Nat) : arr.set i (pdf_array_get arr i) = arr := by
  by_cases hi : i < arr.length
  · exact set_pdf_array_get_self arr i hi
  · exact List.set_eq_of_length_le (by omega)

theorem slot_step_find_entry (H : List Node) (a : find_data) (s : Nat × Nat) :
    slot_step find_entry (H, a) s =
      (H, if a.count = 0 then { key := (slot_pair H s).1, val := (slot_pair H s).2, count := -1 }
          else { a with count := a.count - 1 }) := by
  unfold slot_step find_entry
  simp only [set_get_self, set_names_self, slot_pair]
  by_cases hc : a.count = 0 <;> simp [hc]

theorem slot_fold_cons {σ : Type} (fn : pdf_name_tree_map_fn σ) (s : Nat × Nat)
    (sl : List (Nat × Nat)) (st : List Node × σ) :
    slot_fold fn (s :: sl) st = slot_fold fn sl (slot_step fn st s) := rfl

/-- The visits of `find_entry` at a sequence of places: the heap is left as it is, the counter
goes down by the number of places, and the pair captured is the one at the place whose
position in the sequence is the initial counter. -/
theorem slot_fold_find_entry (sl : List (Nat × Nat)) (H : List Node) (a : find_data) :
    (slot_fold find_entry sl (H, a)).1 = H ∧
    (slot_fold find_entry sl (H, a)).2.count = a.count - sl.length ∧
    (∀ (c : Nat) (s : Nat × Nat), a.count = c → sl[c]? = some s →
      ((slot_fold find_entry sl (H, a)).2.key, (slot_fold find_entry sl (H, a)).2.val) =
        slot_pair H s) ∧
    ((a.count < 0 ∨ (sl.length : Int) ≤ a.count) →
      (slot_fold find_entry sl (H, a)).2.key = a.key ∧
      (slot_fold find_entry sl (H, a)).2.val = a.val) := by
  induction sl generalizing a with
  | nil =>
    refine ⟨rfl, by simp [slot_fold], fun c s _ hs => by simp at hs, fun _ => ⟨rfl, rfl⟩⟩
  | cons s0 sl ih =>
    rw [slot_fold_cons, slot_step_find_entry]
    by_cases hc : a.count = 0
    · simp only [hc, if_true]
      obtain ⟨i1, i2, -, i4⟩ := ih ⟨(slot_pair H s0).1, (slot_pair H s0).2, -1⟩
      refine ⟨i1, by rw [i2]; simp; omega, fun c s hcs hs => ?_, fun hr => ?_⟩
      · have hc0 : c = 0 := by omega
        subst hc0
        simp only [List.getElem?_cons_zero, Option.some.injEq] at hs
        subst hs
        obtain ⟨k1, k2⟩ := i4 (Or.inl (by simp))
        rw [k1, k2]
      · simp at hr
        omega
    · simp only [hc, if_false]
      obtain ⟨i1, i2, i3, i4⟩ := ih { a with count := a.count - 1 }
      refine ⟨i1, by rw [i2]; simp; omega, fun c s hcs hs => ?_, fun hr => ?_⟩
      · cases c with
        | zero => exact absurd hcs (by simpa using hc)
        | succ c =>
          simp only [List.getElem?_cons_succ] at hs
          exact i3 c s (by simp [hcs]) hs
      · exact i4 (by
          rcases hr with hr | hr
          · left; simp; omega
          · right; simp at hr ⊢; omega)

theorem slot_step_store_entry (nv : pdf_obj) (H : List Node) (a : find_data) (s : Nat × Nat) :
    slot_step (store_entry nv) (H, a) s =
      (if a.count = 0 then write_slot H s nv else H,
        if a.count = 0 then { key := (slot_pair H s).1, val := nv, count := -1 }
        else { a with count := a.count - 1 }) := by
  unfold slot_step store_entry
  by_cases hc : a.count = 0
  · simp [hc, write_slot, slot_pair]
  · simp [hc, set_get_self, set_names_self]

/-- The visits of `store_entry` at a sequence of places: the value at the place whose position
in the sequence is the initial counter is replaced, nothing else is changed. -/
theorem slot_fold_store_entry (nv : pdf_obj) (sl : List (Nat × Nat)) (H : List Node)
    (a : find_data) :
    (∀ (c : Nat) (s : Nat × Nat), a.count = c → sl[c]? = some s →
      (slot_fold (store_entry nv) sl (H, a)).1 = write_slot H s nv) ∧
    ((a.count < 0 ∨ (sl.length : Int) ≤ a.count) →
      (slot_fold (store_entry nv) sl (H, a)).1 = H) := by
  induction sl generalizing H a with
  | nil => exact ⟨fun c s _ hs => by simp at hs, fun _ => rfl⟩
  | cons s0 sl ih =>
    rw [slot_fold_cons, slot_step_store_entry]
    by_cases hc : a.count = 0
    · simp only [hc, if_true]
      obtain ⟨-, i2⟩ := ih (write_slot H s0 nv) ⟨(slot_pair H s0).1, nv, -1⟩
      refine ⟨fun c s hcs hs => ?_, fun hr => ?_⟩
      · have hc0 : c = 0 := by omega
        subst hc0
        simp only [List.getElem?_cons_zero, Option.some.injEq] at hs
        subst hs
        exact i2 (Or.inl (by simp))
      · simp at hr
        omega
    · simp only [hc, if_false]
      obtain ⟨i1, i2⟩ := ih H { a with count := a.count - 1 }
      refine ⟨fun c s hcs hs => ?_, fun hr => ?_⟩
      · cases c with
        | zero => exact absurd hcs (by simpa using hc)
        | succ c =>
          simp only [List.getElem?_cons_succ] at hs
          exact i1 c s (by simp [hcs]) hs
      · exact i2 (by
          rcases hr with hr | hr
          · left; simp; omega
          · right; simp at hr ⊢; omega)

theorem walk_kids_mem_of {α : Type} (f : Nat → Option (List α)) (ks : List Nat) (l : List α)
    (h : walk_kids f ks = some l) (z : α) (hz : z ∈ l) :
    ∃ k a, k ∈ ks ∧ f k = some a ∧ z ∈ a := by
  induction ks generalizing l with
  | nil =>
    simp only [walk_kids, Option.some.injEq] at h
    subst h
    cases hz
  | cons x xs ih =>
    obtain ⟨a, b, ha, hb, rfl⟩ := (walk_kids_cons f x xs l).1 h
    rw [List.mem_append] at hz
    rcases hz with hz | hz
    · exact ⟨x, a, List.mem_cons_self _ _, ha, hz⟩
    · obtain ⟨k, a', hk, ha', hz'⟩ := ih b hb hz
      exact ⟨k, a', List.mem_cons_of_mem _ hk, ha', hz'⟩

/-- What a walk collects comes from a node. -/
theorem walk_gen_mem {α : Type} (own : Nat → Node → List α) (d : Nat) (h : List Node)
    (t : Nat) (l : List α) (hw : walk_gen own d h t = some l) (z : α) (hz : z ∈ l) :
    ∃ x, z ∈ own x (node_at h x) := by
  induction d generalizing t l with
  | zero => simp [walk_gen] at hw
  | succ d ih =>
    obtain ⟨lk, h1, rfl⟩ := (walk_gen_succ own d h t l).1 hw
    rw [List.mem_append] at hz
    rcases hz with hz | hz
    · exact ⟨t, hz⟩
    · obtain ⟨k, a, -, ha, hza⟩ := walk_kids_mem_of _ _ lk h1 z hz
      exact ih k a ha hza

/-- A place of a walk is the place of a pair: both slots exist. -/
theorem leaf_slots_valid (d : Nat) (h : List Node) (t : Nat) (sl : List (Nat × Nat))
    (hw : walk_gen slots_of d h t = some sl) (s : Nat × Nat) (hs : s ∈ sl) :
    2 * s.2 + 1 < (node_at h s.1).Names.length ∧ s.1 < h.length := by
  obtain ⟨x, hx⟩ := walk_gen_mem slots_of d h t sl hw s hs
  unfold slots_of at hx
  rw [List.mem_map] at hx
  obtain ⟨j, hj, rfl⟩ := hx
  rw [List.mem_range] at hj
  have h1 : 2 * j + 1 < (node_at h x).Names.length := by omega
  refine ⟨h1, ?_⟩
  by_contra hn
  rw [node_at_of_le h x (by omega)] at h1
  simp [null_node] at h1

theorem slot_pair_write (h : List Node) (s : Nat × Nat) (nv : pdf_obj)
    (hv : 2 * s.2 + 1 < (node_at h s.1).Names.length) (hs : s.1 < h.length) :
    slot_pair (write_slot h s nv) s = ((slot_pair h s).1, nv) := by
  unfold slot_pair write_slot
  rw [node_at_set_names, if_pos ⟨rfl, hs⟩]
  simp only [pdf_array_get]
  rw [List.getElem?_set_ne (by omega), List.getElem?_set_self hv]
  rfl

theorem slot_pair_same (h h' : List Node) (hs : same_names h h') (s : Nat × Nat) :
    slot_pair h s = slot_pair h' s := by
  unfold slot_pair
  rw [hs.2 s.1]

theorem sound_evolves (h h' : List Node) (root : Nat) (hev : heap_evolves h h')
    (hwf : well_formed h root) (hun : ∀ x, reach h root x → (node_at h x).marked = false) :
    well_formed h' root ∧ ∀ x, reach h' root x → (node_at h' x).marked = false := by
  refine ⟨well_formed_mono h h' (heap_evolves_kids h h' hev) (fun x => (hev.2 x).2.2.2.1) root
    hwf, fun x hx => ?_⟩
  rw [(hev.2 x).1]
  exact hun x (reach_mono h h' (heap_evolves_kids h h' hev) root x hx)

theorem keeping_find_entry : keeping find_entry := fun _ _ _ _ => rfl

theorem keeping_store_entry (nv : pdf_obj) : keeping (store_entry nv) := by
  intro c k v a
  unfold store_entry
  split <;> rfl

theorem getElem?_reverse_lt {α : Type} (l : List α) (c : Nat) (s : α)
    (h : l.reverse[c]? = some s) : c < l.length ∧ s ∈ l := by
  have hc : c < l.reverse.length := by
    by_contra hn
    rw [List.getElem?_eq_none (by omega)] at h
    cases h
  exact ⟨by simpa using hc, List.mem_reverse.1 (mem_of_getElem?_eq_some _ c s h)⟩

/-- The traversal of a sound index with `find_entry`: it returns normally, leaves the pair
sequences and the places as they are, and captures the pair at the place whose position in
the visiting order (the reverse of the walk) is the initial counter. -/
theorem find_entry_run (h : List Node) (root : Nat) (hwf : well_formed h root)
    (hun : ∀ x, reach h root x → (node_at h x).marked = false) (i : Int) (d : Nat)
    (sl : List (Nat × Nat)) (hsl : walk_gen slots_of d h root = some sl) :
    ∃ r b, pdf_name_tree_map find_entry root h { key := .null, val := .null, count := i } =
        some r ∧ r.res = .ok b ∧ same_names r.heap h ∧ heap_evolves h r.heap ∧
      walk_gen slots_of d r.heap root = some sl ∧
      (∀ (c : Nat) (s : Nat × Nat), i = c → sl.reverse[c]? = some s →
        (r.arg.key, r.arg.val) = slot_pair h s) ∧
      ((i < 0 ∨ (sl.length : Int) ≤ i) → r.arg.key = .null ∧ r.arg.val = .null) := by
  obtain ⟨r, hr⟩ := pdf_name_tree_map_total find_entry root h
    { key := .null, val := .null, count := i }
  obtain ⟨b, hb⟩ := do_name_tree_map_ok find_entry _ root h _ r hwf hun hr
  obtain ⟨k1, k2⟩ := do_name_tree_map_keeping find_entry keeping_find_entry _ root h _ r b hr hb
    d sl hsl
  obtain ⟨f1, -, f3, f4⟩ := slot_fold_find_entry sl.reverse h
    { key := .null, val := .null, count := i }
  rw [f1] at k1
  refine ⟨r, b, hr, hb, k1, do_name_tree_map_evolves find_entry _ root h _ r hr,
    do_name_tree_map_keeps_walk find_entry keeping_find_entry slots_of slots_of_length
      slots_of_empty _ root h _ r hr d root sl hsl, fun c s hc hs => ?_, fun hr' => ?_⟩
  · rw [k2]
    exact f3 c s hc hs
  · rw [k2]
    exact f4 (by simpa using hr')

/-- The traversal of a sound index with `store_entry`: it returns normally, leaves the places
as they are, and the pair sequences are those of the heap with the value replaced at the
place whose position in the visiting order is the initial counter. -/
theorem store_entry_run (nv : pdf_obj) (h : List Node) (root : Nat) (hwf : well_formed h root)
    (hun : ∀ x, reach h root x → (node_at h x).marked = false) (c : Nat) (d : Nat)
    (sl : List (Nat × Nat)) (hsl : walk_gen slots_of d h root = some sl) (s : Nat × Nat)
    (hs : sl.reverse[c]? = some s) :
    ∃ r b, pdf_name_tree_map (store_entry nv) root h
        { key := .null, val := .null, count := (c : Int) } = some r ∧ r.res = .ok b ∧
      same_names r.heap (write_slot h s nv) ∧ heap_evolves h r.heap ∧
      walk_gen slots_of d r.heap root = some sl := by
  obtain ⟨r, hr⟩ := pdf_name_tree_map_total (store_entry nv) root h
    { key := .null, val := .null, count := (c : Int) }
  obtain ⟨b, hb⟩ := do_name_tree_map_ok (store_entry nv) _ root h _ r hwf hun hr
  obtain ⟨k1, -⟩ := do_name_tree_map_keeping (store_entry nv) (keeping_store_entry nv) _ root h
    _ r b hr hb d sl hsl
  rw [(slot_fold_store_entry nv sl.reverse h _).1 c s rfl hs] at k1
  exact ⟨r, b, hr, hb, k1, do_name_tree_map_evolves (store_entry nv) _ root h _ r hr,
    do_name_tree_map_keeps_walk (store_entry nv) (keeping_store_entry nv) slots_of
      slots_of_length slots_of_empty _ root h _ r hr d root sl hsl⟩

theorem load_with_heap (doc : pdf_document) (h : List Node) :
    load_portfolio { load_portfolio doc with heap := h } = { load_portfolio doc with heap := h } := by
  rcases load_portfolio_portfolio doc with hne | heq
  · exact load_portfolio_of_ne _ hne
  · apply load_portfolio_fixed
    show (load_portfolio doc).portfolio = _
    rw [heq]
    have hC : (load_portfolio doc).Collection = doc.Collection := by
      unfold load_portfolio
      split <;> rfl
    simp [schema_entries, hC]

/-- The lookup by rank in a document with a sound index rooted at `root`. -/
theorem entry_obj_name_run (doc : pdf_document) (root : Nat) (i : Int)
    (hroot : doc.EmbeddedFiles = some root) (hwf : well_formed doc.heap root)
    (hun : ∀ x, reach doc.heap root x → (node_at doc.heap x).marked = false) (d : Nat)
    (sl : List (Nat × Nat)) (hsl : walk_gen slots_of d doc.heap root = some sl) :
    ∃ h1 k v, pdf_portfolio_entry_obj_name doc i =
        some ({ load_portfolio doc with heap := h1 }, .ok (k, v)) ∧
      same_names h1 doc.heap ∧ heap_evolves doc.heap h1 ∧
      walk_gen slots_of d h1 root = some sl ∧
      (∀ (c : Nat) (s : Nat × Nat), i = c → sl.reverse[c]? = some s →
        (k, v) = slot_pair doc.heap s) ∧
      ((i < 0 ∨ (sl.length : Int) ≤ i) → k = .null ∧ v = .null) := by
  obtain ⟨r, b, hr, hb, f1, f2, f3, f4, f5⟩ := find_entry_run doc.heap root hwf hun i d sl hsl
  obtain ⟨hh, he⟩ := load_portfolio_heap doc
  refine ⟨r.heap, r.arg.key, r.arg.val, ?_, f1, f2, f3, f4, f5⟩
  unfold pdf_portfolio_entry_obj_name
  simp only [hh, he, hroot, map_tree, hr, hb]

theorem pdf_dict_get_put {β : Type} (d : List (String × β)) (key : String) (v : β) :
    pdf_dict_get (pdf_dict_put d key v) key = some v := by
  unfold pdf_dict_get pdf_dict_put
  split
  · rename_i hany
    have : (d.map (fun kv => if kv.1 = key then (key, v) else kv)).find?
        (fun kv => kv.1 = key) = some (key, v) := by
      induction d with
      | nil => simp at hany
      | cons kv d ih =>
        by_cases hk : kv.1 = key
        · simp [hk]
        · have hany' : d.any (fun kv => decide (kv.1 = key)) = true := by
            simpa [hk] using hany
          simp only [List.map_cons, hk, if_false, List.find?_cons, decide_False]
          exact ih hany'
    rw [this]
    rfl
  · rename_i hany
    have hnone : d.find? (fun kv => kv.1 = key) = none := by
      rw [List.find?_eq_none]
      intro kv hkv hc
      exact hany (List.any_eq_true.2 ⟨kv, hkv, hc⟩)
    simp [List.find?_append, hnone]

/-- What is stored for a field is what the lookup of the field reads. -/
theorem entry_info_store_lookup (obj nv : pdf_obj) (p : pdf_portfolio) (v : Atom)
    (hv : v ≠ .null) (hst : entry_info_store obj p v = .ok nv) :
    p.entry.type ≠ .PDF_SCHEMA_SIZE ∧ ∃ dd, nv = .dict dd ∧ entry_info_lookup dd p = v ∧
      (p.entry.type = .PDF_SCHEMA_FILENAME → dd.UF = v ∧ dd.F = v) := by
  unfold entry_info_store at hst
  cases obj with
  | null => cases htype : p.entry.type <;> simp [htype] at hst
  | str s => cases htype : p.entry.type <;> simp [htype] at hst
  | dict d =>
    have hpar : ∀ (f : ParamsDict → ParamsDict) (g : ParamsDict → Atom),
        (∀ q, g (f q) = v) → store_params d f = .ok nv →
        ∃ dd, nv = .dict dd ∧ ((params_of dd).map g).getD .null = v := by
      intro f g hfg hs
      unfold store_params at hs
      split at hs
      · rename_i sobj hef
        split at hs
        · rename_i q hq
          injection hs with hs
          exact ⟨_, hs.symm, by simp [params_of, hfg]⟩
        · cases hs
      · cases hs
    cases htype : p.entry.type with
    | PDF_SCHEMA_SIZE => simp [htype] at hst
    | PDF_SCHEMA_NUMBER =>
      simp only [htype, Except.ok.injEq] at hst
      subst hst
      exact ⟨by simp, _, rfl, by simp [entry_info_lookup, htype, pdf_dict_get_put],
        fun hc => by cases hc⟩
    | PDF_SCHEMA_TEXT =>
      simp only [htype, Except.ok.injEq] at hst
      subst hst
      exact ⟨by simp, _, rfl, by simp [entry_info_lookup, htype, pdf_dict_get_put],
        fun hc => by cases hc⟩
    | PDF_SCHEMA_DATE =>
      simp only [htype, Except.ok.injEq] at hst
      subst hst
      exact ⟨by simp, _, rfl, by simp [entry_info_lookup, htype, pdf_dict_get_put],
        fun hc => by cases hc⟩
    | PDF_SCHEMA_UNKNOWN =>
      simp only [htype, Except.ok.injEq] at hst
      subst hst
      exact ⟨by simp, _, rfl, by simp [entry_info_lookup, htype, pdf_dict_get_put],
        fun hc => by cases hc⟩
    | PDF_SCHEMA_DESC =>
      simp only [htype, Except.ok.injEq] at hst
      exact ⟨by simp, _, hst.symm, by simp only [entry_info_lookup, htype],
        fun hc => by cases hc⟩
    | PDF_SCHEMA_FILENAME =>
      simp only [htype, Except.ok.injEq] at hst
      exact ⟨by simp, _, hst.symm, by simp only [entry_info_lookup, htype, hv, if_false],
        fun _ => ⟨rfl, rfl⟩⟩
    | PDF_SCHEMA_MODDATE =>
      simp only [htype] at hst
      obtain ⟨dd, h1, h2⟩ := hpar _ (fun q => q.ModDate) (fun _ => rfl) hst
      exact ⟨by simp, dd, h1, by simp only [entry_info_lookup, htype]; exact h2,
        fun hc => by cases hc⟩
    | PDF_SCHEMA_CREATIONDATE =>
      simp only [htype] at hst
      obtain ⟨dd, h1, h2⟩ := hpar _ (fun q => q.CreationDate) (fun _ => rfl) hst
      exact ⟨by simp, dd, h1, by simp only [entry_info_lookup, htype]; exact h2,
        fun hc => by cases hc⟩

theorem seek_found (l : List pdf_portfolio) (e : Int) (p : pdf_portfolio)
    (rest : List pdf_portfolio) (h0 : (seek l e).2.2 = 0) (h1 : (seek l e).2.1 = p :: rest) :
    0 ≤ e ∧ l[e.toNat]? = some p := by
  by_cases he : e < 0
  · rw [seek_nonpos l e (by omega)] at h0
    exact absurd h0 (by simp; omega)
  · obtain ⟨k, rfl⟩ := Int.eq_ofNat_of_zero_le (by omega : 0 ≤ e)
    rw [seek_nat] at h1
    simp only at h1
    refine ⟨by omega, ?_⟩
    rw [Int.toNat_ofNat]
    have := congrArg List.head? h1
    simpa [List.head?_drop] using this

/-- C17: for every document whose entry index is an acyclic tree with pair sequences of even
length (no node marked), every rank `i`, schema index `s` and value `v` that is not null: if
`pdf_set_portfolio_entry_info` returns normally, then `s` is the index of a cell of the
registry whose type is not Size, and in the document it leaves `pdf_portfolio_entry_info`
for the same rank and schema index returns `v`; when the type is Filename, the value object
of the entry holds `v` under both `UF` and `F`. -/
theorem set_then_get_agree (doc doc' : pdf_document) (i s : Int) (v : Atom)
    (hs : sound_index doc) (hv : v ≠ .null)
    (hset : pdf_set_portfolio_entry_info doc i s v = some (doc', .ok ())) :
    (∃ doc'', pdf_portfolio_entry_info doc' i s = some (doc'', .ok v)) ∧
    ∃ p, 0 ≤ s ∧ (load_portfolio doc).portfolio[s.toNat]? = some p ∧
      p.entry.type ≠ .PDF_SCHEMA_SIZE ∧
      (p.entry.type = .PDF_SCHEMA_FILENAME → ∃ doc'' key dd,
        pdf_portfolio_entry_obj_name doc' i = some (doc'', .ok (key, .dict dd)) ∧
          dd.UF = v ∧ dd.F = v) := by
  obtain ⟨hh, he⟩ := load_portfolio_heap doc
  cases hroot : doc.EmbeddedFiles with
  | none =>
    exfalso
    unfold pdf_set_portfolio_entry_info pdf_portfolio_entry_obj_name at hset
    simp [load_portfolio_idem, he, hroot, map_tree] at hset
  | some root =>
    obtain ⟨hwf, hun⟩ := hs root hroot
    obtain ⟨d, sl, hsl⟩ := walk_gen_exists slots_of doc.heap root (well_formed_acyclic _ _ hwf)
    obtain ⟨h1, k, obj, hobj, f1, f2, f3, f4, f5⟩ := entry_obj_name_run (load_portfolio doc) root i
      (he.trans hroot) (by rw [hh]; exact hwf) (by rw [hh]; exact hun) d sl
      (by rw [hh]; exact hsl)
    rw [load_portfolio_idem] at hobj
    rw [hh] at f1 f2 f4
    unfold pdf_set_portfolio_entry_info at hset
    rw [hobj] at hset
    simp only at hset
    by_cases hnull : obj = .null
    · simp [hnull] at hset
    rw [if_neg hnull] at hset
    have hrange : 0 ≤ i ∧ i < sl.length := by
      by_contra hn
      exact hnull (f5 (by omega)).2
    obtain ⟨c, rfl⟩ := Int.eq_ofNat_of_zero_le hrange.1
    have hc : c < sl.reverse.length := by simpa using hrange.2
    have hsc : sl.reverse[c]? = some sl.reverse[c] := List.getElem?_eq_getElem hc
    have hpair := f4 c _ rfl hsc
    by_cases hseek : (seek (load_portfolio doc).portfolio s).2.2 ≠ 0
    · simp [hseek] at hset
    rw [if_neg hseek] at hset
    have hseek0 : (seek (load_portfolio doc).portfolio s).2.2 = 0 := by
      by_contra hn
      exact hseek hn
    cases hrest : (seek (load_portfolio doc).portfolio s).2.1 with
    | nil =>
      rw [hrest] at hset
      simp at hset
    | cons p rest =>
      rw [hrest] at hset
      simp only at hset
      obtain ⟨hs0, hp⟩ := seek_found _ s p rest hseek0 hrest
      cases hst : entry_info_store obj p v with
      | error e =>
        rw [hst] at hset
        simp at hset
      | ok nv =>
        rw [hst] at hset
        simp only at hset
        obtain ⟨hsize, dd, rfl, hlook, hfile⟩ := entry_info_store_lookup obj _ p v hv hst
        obtain ⟨w1, u1⟩ := sound_evolves doc.heap h1 root f2 hwf hun
        obtain ⟨r2, b2, hr2, hb2, g1, g2, g3⟩ := store_entry_run (.dict dd) h1 root w1 u1 c d sl
          f3 _ hsc
        have hmt : map_tree (store_entry (.dict dd)) (load_portfolio doc).EmbeddedFiles h1
            { key := .null, val := .null, count := (c : Int) } = some r2 := by
          rw [he, hroot]
          exact hr2
        simp only [hmt, hb2, Option.some.injEq, Prod.mk.injEq, and_true] at hset
        subst hset
        obtain ⟨w2, u2⟩ := sound_evolves h1 r2.heap root g2 w1 u1
        obtain ⟨h3, k3, v3, hobj3, -, -, -, e4, -⟩ := entry_obj_name_run
          { load_portfolio doc with heap := r2.heap } root (c : Int) (he.trans hroot) w2 u2 d sl g3
        have hval := leaf_slots_valid d h1 root sl f3 sl.reverse[c]
          (List.mem_reverse.1 (List.getElem_mem hc))
        have hk3 := e4 c _ rfl hsc
        rw [show slot_pair r2.heap sl.reverse[c] = slot_pair (write_slot h1 sl.reverse[c]
            (.dict dd)) sl.reverse[c] from slot_pair_same _ _ g1 _,
          slot_pair_write h1 _ _ hval.1 hval.2] at hk3
        have hv3 : v3 = .dict dd := (Prod.mk.inj hk3).2
        subst hv3
        rw [load_with_heap] at hobj3
        refine ⟨⟨{ load_portfolio doc with heap := h3 }, ?_⟩, p, hs0, hp, hsize,
          fun hf => ⟨_, k3, dd, hobj3, hfile hf⟩⟩
        unfold pdf_portfolio_entry_info
        rw [hobj3]
        simp [hseek0, hrest, hlook]

/-- C17 (witness): the value "v" is set for the field 0 of the entry of rank 0 of
`doc_two_leaves` and read back. -/
theorem set_then_get_agree_witness :
    sound_index doc_two_leaves ∧ Atom.str "v" ≠ .null ∧
    pdf_set_portfolio_entry_info doc_two_leaves 0 0 (.str "v") =
      some (doc_two_leaves_set, .ok ()) ∧
    (pdf_portfolio_entry_info doc_two_leaves_set 0 0).map Prod.snd = some (.ok (.str "v")) ∧
    (∃ doc'', pdf_portfolio_entry_info doc_two_leaves_set 0 0 = some (doc'', .ok (.str "v"))) ∧
    ∃ p, (0 : Int) ≤ 0 ∧ (load_portfolio doc_two_leaves).portfolio[(0 : Int).toNat]? = some p ∧
      p.entry.type ≠ .PDF_SCHEMA_SIZE ∧
      (p.entry.type = .PDF_SCHEMA_FILENAME → ∃ doc'' key dd,
        pdf_portfolio_entry_obj_name doc_two_leaves_set 0 = some (doc'', .ok (key, .dict dd)) ∧
          dd.UF = .str "v" ∧ dd.F = .str "v") :=
  ⟨sound_two_leaves, by decide, rfl, rfl,
    set_then_get_agree doc_two_leaves doc_two_leaves_set 0 0 (.str "v") sound_two_leaves
      (by decide) rfl⟩

/-! ## Visitors that remove by a predicate -/

theorem filter_pairs_append (P : pdf_obj → pdf_obj → Bool) :
    ∀ (l1 l2 : List pdf_obj), l1.length % 2 = 0 →
      filter_pairs P (l1 ++ l2) = filter_pairs P l1 ++ filter_pairs P l2
  | [], l2, _ => by simp [filter_pairs]
  | [_], _, h => by simp at h
  | k :: v :: rest, l2, h => by
    have ih := filter_pairs_append P rest l2 (by simp at h; omega)
    simp only [List.cons_append, filter_pairs]
    split <;> simp [ih]

theorem pairs_of_filter_pairs (P : pdf_obj → pdf_obj → Bool) :
    ∀ l : List pdf_obj,
      pairs_of (filter_pairs P l) = (pairs_of l).filter (fun p => !P p.1 p.2)
  | [] => by simp [filter_pairs, pairs_of]
  | [_] => by simp [filter_pairs, pairs_of]
  | k :: v :: rest => by
    have ih := pairs_of_filter_pairs P rest
    simp only [filter_pairs, pairs_of, List.filter_cons]
    by_cases hp : P k v = true
    · simp [hp, ih]
    · simp [hp, ih, pairs_of]

theorem filter_pairs_of_clean (P : pdf_obj → pdf_obj → Bool) :
    ∀ l : List pdf_obj, (∀ p, p ∈ pairs_of l → P p.1 p.2 = false) → filter_pairs P l = l
  | [], _ => by simp [filter_pairs]
  | [_], _ => by simp [filter_pairs]
  | k :: v :: rest, h => by
    have h1 : P k v = false := h (k, v) (by simp [pairs_of])
    have ih := filter_pairs_of_clean P rest (fun p hp => h p (by simp [pairs_of, hp]))
    simp [filter_pairs, h1, ih]

theorem filter_pairs_clean (P : pdf_obj → pdf_obj → Bool) (l : List pdf_obj) (p : pdf_obj × pdf_obj)
    (hp : p ∈ pairs_of (filter_pairs P l)) : P p.1 p.2 = false := by
  rw [pairs_of_filter_pairs, List.mem_filter] at hp
  simpa using hp.2

theorem list_snoc_two {α : Type} (l : List α) (c : Nat) (hl : l.length = 2 * (c + 1)) :
    ∃ l' k v, l = l' ++ [k, v] ∧ l'.length = 2 * c := by
  have h1 : 2 * c < l.length := by omega
  have h2 : 2 * c + 1 < l.length := by omega
  refine ⟨l.take (2 * c), l[2 * c], l[2 * c + 1], ?_, by simp; omega⟩
  apply List.ext_getElem
  · simp; omega
  · intro n hn1 hn2
    by_cases hlt : n < 2 * c
    · rw [List.getElem_append_left (by simp; omega)]
      simp
    · rw [List.getElem_append_right (by simp; omega)]
      have hlen : (l.take (2 * c)).length = 2 * c := by simp; omega
      simp only [hlen]
      have : n = 2 * c ∨ n = 2 * c + 1 := by omega
      rcases this with rfl | rfl
      · simp
      · simp

/-- The loop on `Names` with a visitor that removes by `P` and changes no value: the pairs
that satisfy `P` are taken out of the part of the array that the loop runs over. -/
theorem names_loop_filtering {σ : Type} (fn : pdf_name_tree_map_fn σ)
    (P : pdf_obj → pdf_obj → Bool) (hfn : filtering P fn) (t c : Nat) (pre suf : List pdf_obj)
    (m : Int) (a : σ) (hc : pre.length = 2 * c) :
    (names_loop fn t c (pre ++ suf) m a).1 = filter_pairs P pre ++ suf := by
  induction c generalizing pre suf m a with
  | zero =>
    have : pre = [] := List.length_eq_zero.1 (by omega)
    subst this
    simp [names_loop, filter_pairs]
  | succ c ih =>
    obtain ⟨pre', k, v, rfl, hl⟩ := list_snoc_two pre c hc
    have hk : pdf_array_get (pre' ++ [k, v] ++ suf) (2 * c) = k := by
      unfold pdf_array_get
      rw [List.append_assoc, List.getElem?_append_right (by omega)]
      simp [hl]
    have hv : pdf_array_get (pre' ++ [k, v] ++ suf) (2 * c + 1) = v := by
      unfold pdf_array_get
      rw [List.append_assoc, List.getElem?_append_right (by omega)]
      simp [hl]
    unfold names_loop
    simp only [hk, hv, (hfn t k v a).1, (hfn t k v a).2]
    have hset : (pre' ++ [k, v] ++ suf).set (2 * c + 1) v = pre' ++ [k, v] ++ suf := by
      have := set_get_self (pre' ++ [k, v] ++ suf) (2 * c + 1)
      rw [hv] at this
      exact this
    rw [hset, filter_pairs_append P pre' [k, v] (by omega)]
    by_cases hp : P k v = true
    · have herase : ((pre' ++ [k, v] ++ suf).eraseIdx (2 * c + 1)).eraseIdx (2 * c) =
          pre' ++ suf := by
        rw [List.append_assoc, List.eraseIdx_append_of_length_le (by omega),
          List.eraseIdx_append_of_length_le (by omega)]
        simp [hl]
      simp only [hp, if_true, herase]
      rw [ih pre' suf _ _ hl]
      simp [filter_pairs, hp]
    · simp only [hp, Bool.false_eq_true, if_false]
      rw [List.append_assoc, ih pre' ([k, v] ++ suf) _ _ hl]
      simp [filter_pairs, hp]

theorem live_eq_false (g : List Node) (k : Nat) :
    live g k = false ↔ ((node_at g k).Kids = [] ∧ (node_at g k).Names = []) := by
  unfold live
  simp [List.isEmpty_iff]

theorem live_untouched (g g' : List Node) (k : Nat) (hu : untouched g g' k) :
    live g' k = live g k := by
  unfold live
  rw [hu.1, hu.2]

theorem live_evolves (g g' : List Node) (k : Nat) (hev : heap_evolves g g')
    (hl : live g k = false) : live g' k = false := by
  rw [live_eq_false] at hl ⊢
  obtain ⟨s1, -, s3, -, -⟩ := (hev.2 k).2.2
  rw [hl.1] at s1
  rw [hl.2] at s3
  exact ⟨List.sublist_nil.1 s1, List.length_eq_zero.1 (by simpa using s3)⟩

theorem untouched_refl (h : List Node) (x : Nat) : untouched h h x := ⟨rfl, rfl⟩

theorem settled_reach (P : pdf_obj → pdf_obj → Bool) (g : List Node) (x y : Nat)
    (hs : settled P g x) (hr : reach g x y) : settled P g y := by
  induction hr with
  | refl => exact hs
  | tail _ hbc ih =>
    cases ih with
    | node _ _ _ hk => exact hk _ hbc

theorem settled_congr (P : pdf_obj → pdf_obj → Bool) (g g' : List Node) (x : Nat)
    (hs : settled P g x) (hu : ∀ y, reach g x y → untouched g g' y) : settled P g' x := by
  induction hs with
  | node x hc hl _ ih =>
    have hx := hu x Relation.ReflTransGen.refl
    refine settled.node x (by rw [hx.1]; exact hc) (fun k hk => ?_) (fun k hk => ?_)
    · rw [hx.2] at hk
      rw [live_untouched g g' k (hu k (Relation.ReflTransGen.single hk))]
      exact hl k hk
    · rw [hx.2] at hk
      exact ih k hk (fun y hy => hu y (Relation.ReflTransGen.head hk hy))

theorem settled_empty (P : pdf_obj → pdf_obj → Bool) (g : List Node) (x : Nat)
    (hl : live g x = false) : settled P g x := by
  rw [live_eq_false] at hl
  refine settled.node x ?_ ?_ ?_
  · rw [hl.2]
    intro p hp
    simp [pairs_of] at hp
  · rw [hl.1]
    intro k hk
    cases hk
  · rw [hl.1]
    intro k hk
    cases hk

/-- A node below which everything is settled is left as it is by a step after which every
node is either as before or pruned and settled. -/
theorem settled_stable (P : pdf_obj → pdf_obj → Bool) (g g' : List Node) (R : Nat → Prop)
    (hstep : ∀ y, untouched g g' y ∨ (R y ∧ pruned P g g' y ∧ settled P g' y)) (x : Nat)
    (hs : settled P g x) : untouched g g' x ∧ settled P g' x := by
  induction hs with
  | node x hc hl _ ih =>
    have hkids : ∀ k, k ∈ (node_at g x).Kids → live g' k = true := by
      intro k hk
      rw [live_untouched g g' k (ih k hk).1]
      exact hl k hk
    have hu : untouched g g' x := by
      rcases hstep x with hu | ⟨-, hp, -⟩
      · exact hu
      · refine ⟨?_, ?_⟩
        · rw [hp.1, filter_pairs_of_clean P _ hc]
        · rw [hp.2, List.filter_eq_self]
          exact hkids
    refine ⟨hu, settled.node x (by rw [hu.1]; exact hc) (fun k hk => ?_) (fun k hk => ?_)⟩
    · rw [hu.2] at hk
      exact hkids k hk
    · rw [hu.2] at hk
      exact (ih k hk).2

/-- A node that is settled and as before is pruned. -/
theorem pruned_of_untouched (P : pdf_obj → pdf_obj → Bool) (h g : List Node) (x : Nat)
    (hu : untouched h g x) (hs : settled P g x) : pruned P h g x := by
  cases hs with
  | node _ hc hl _ =>
    refine ⟨?_, ?_⟩
    · rw [← hu.1, filter_pairs_of_clean P _ hc]
    · rw [← hu.2, List.filter_eq_self.2 hl]

/-- Composition of the state of a node over a call made by the loop: `h` is the heap at the
start, `g` the heap before the call, `g'` the heap after it. -/
theorem node_state_trans (P : pdf_obj → pdf_obj → Bool) (h g g' : List Node)
    (R R' : Nat → Prop) (hRR : ∀ y, R' y → R y) (hev : heap_evolves g g')
    (hstep : ∀ y, untouched g g' y ∨ (R' y ∧ pruned P g g' y ∧ settled P g' y)) (x : Nat)
    (hx : untouched h g x ∨ (R x ∧ pruned P h g x ∧ settled P g x)) :
    untouched h g' x ∨ (R x ∧ pruned P h g' x ∧ settled P g' x) := by
  rcases hx with hu | ⟨hR, hp, hs⟩
  · rcases hstep x with hu' | ⟨hR', hp', hs'⟩
    · exact Or.inl ⟨hu'.1.trans hu.1, hu'.2.trans hu.2⟩
    · exact Or.inr ⟨hRR x hR', ⟨by rw [hp'.1, hu.1], by rw [hp'.2, hu.2]⟩, hs'⟩
  · obtain ⟨hu', hs'⟩ := settled_stable P g g' R' hstep x hs
    refine Or.inr ⟨hR, ⟨by rw [hu'.1, hp.1], ?_⟩, hs'⟩
    rw [hu'.2, hp.2]
    apply List.filter_congr
    intro k hk
    cases hlk : live g k with
    | false => rw [live_evolves g g' k hev hlk]
    | true =>
      have hkg : k ∈ (node_at g x).Kids := by
        rw [hp.2, List.mem_filter]
        exact ⟨hk, hlk⟩
      cases hs with
      | node _ _ _ hsk =>
        rw [live_untouched g g' k (settled_stable P g g' R' hstep k (hsk k hkg)).1, hlk]

theorem acyclic_no_back (h : List Node) (t x : Nat) (hac : acyclic h t) (htx : reach h t x)
    (hne : x ≠ t) : ¬ reach h x t := by
  intro hxt
  rcases Relation.reflTransGen_iff_eq_or_transGen.1 htx with heq | htr
  · exact hne heq
  · exact acyclic_not_descendant h t hac (Relation.TransGen.trans_left htr hxt)

theorem settled_off (P : pdf_obj → pdf_obj → Bool) (g g' : List Node) (t : Nat)
    (hsame : ∀ y, y ≠ t → untouched g g' y) (x : Nat) (hnr : ¬ reach g x t)
    (hs : settled P g x) : settled P g' x :=
  settled_congr P g g' x hs (fun y hy => hsame y (fun hyt => hnr (hyt ▸ hy)))

/-- The state of a node other than `t` over a step that changes the node `t` only. -/
theorem node_state_modify (P : pdf_obj → pdf_obj → Bool) (h g g' : List Node) (t : Nat)
    (hsame : ∀ y, y ≠ t → untouched g g' y) (x : Nat) (hxt : x ≠ t)
    (hback : reach h t x → ¬ reach g x t ∧ t ∉ (node_at h x).Kids)
    (hx : untouched h g x ∨ (reach h t x ∧ pruned P h g x ∧ settled P g x)) :
    untouched h g' x ∨ (reach h t x ∧ pruned P h g' x ∧ settled P g' x) := by
  have hu' := hsame x hxt
  rcases hx with hu | ⟨hR, hp, hs⟩
  · exact Or.inl ⟨hu'.1.trans hu.1, hu'.2.trans hu.2⟩
  · obtain ⟨hnr, hnk⟩ := hback hR
    refine Or.inr ⟨hR, ⟨by rw [hu'.1, hp.1], ?_⟩, settled_off P g g' t hsame x hnr hs⟩
    rw [hu'.2, hp.2]
    apply List.filter_congr
    intro k hk
    rw [live_untouched g g' k (hsame k (fun hkt => hnk (hkt ▸ hk)))]

theorem live_of_flag {σ : Type} (fn : pdf_name_tree_map_fn σ) (fuel t : Nat)
    (h : List Node) (a : σ) (r : MapResult σ) (b : Bool)
    (hr : do_name_tree_map fn fuel t h a = some r) (hok : r.res = .ok b) :
    live r.heap t = !b := by
  have hf := do_name_tree_map_flag fn fuel t h a r b hr hok
  cases b with
  | true =>
    simp only [Bool.not_true]
    exact (live_eq_false r.heap t).2 (hf.1 rfl)
  | false =>
    simp only [Bool.not_false]
    cases hl : live r.heap t with
    | true => rfl
    | false => exact absurd (hf.2 ((live_eq_false r.heap t).1 hl)) (by simp)

/-- A traversal with a visitor that removes by `P` and changes no value, when it returns
normally: every node of the heap is either as before or, being below `t`, pruned and settled;
the node `t` itself is pruned and settled. -/
theorem do_name_tree_map_filtering {σ : Type} (fn : pdf_name_tree_map_fn σ)
    (P : pdf_obj → pdf_obj → Bool) (hfn : filtering P fn) (fuel t : Nat) (h : List Node)
    (a : σ) (r : MapResult σ) (b : Bool)
    (hr : do_name_tree_map fn fuel t h a = some r) (hok : r.res = .ok b)
    (hun : ∀ x, reach h t x → (node_at h x).marked = false) :
    (∀ x, untouched h r.heap x ∨ (reach h t x ∧ pruned P h r.heap x ∧ settled P r.heap x)) ∧
      pruned P h r.heap t ∧ settled P r.heap t := by
  induction fuel generalizing t h a r b with
  | zero => simp [do_name_tree_map] at hr
  | succ fuel ih =>
    by_cases ht : t < h.length
    · have hac : acyclic h t := well_formed_acyclic h t
        (do_name_tree_map_ok_well_formed fn _ t h a r b hr hok).1
      obtain ⟨hm, g, a', n, hloop, heven, hheap, -, -⟩ :=
        do_name_tree_map_ok_inv fn fuel t h a r b hr hok
      have hKt : ∀ k, k ∈ (node_at h t).Kids → k ≠ t ∧ ¬ reach h k t := by
        intro k hk
        have hr1 : reach h t k := Relation.ReflTransGen.single hk
        have hne : k ≠ t := by
          rintro rfl
          exact acyclic_not_descendant h k hac (Relation.TransGen.single hk)
        exact ⟨hne, acyclic_no_back h t k hac hr1 hne⟩
      have hback : ∀ (g : List Node), (∀ x k, k ∈ (node_at g x).Kids → k ∈ (node_at h x).Kids) →
          ∀ x, x ≠ t → reach h t x → ¬ reach g x t ∧ t ∉ (node_at h x).Kids := by
        intro g hg x hxt hx
        have hnb := acyclic_no_back h t x hac hx hxt
        exact ⟨fun hc => hnb (reach_mono h g hg x t hc),
          fun hc => hnb (Relation.ReflTransGen.single hc)⟩
      have hks := kids_loop_survivors (do_name_tree_map fn fuel) t (node_at h t).Kids
        (fun kid g a r hr => do_name_tree_map_evolves fn fuel kid g a r hr)
        (fun i S g _ =>
          (∀ x, x ≠ t →
            untouched h g x ∨ (reach h t x ∧ pruned P h g x ∧ settled P g x)) ∧
          (node_at g t).Names = (node_at h t).Names ∧
          (∀ k, k ∈ (node_at h t).Kids.drop i → settled P g k) ∧
          S = ((node_at h t).Kids.drop i).filter (live g) ∧
          (∀ x k, k ∈ (node_at g x).Kids → k ∈ (node_at h x).Kids) ∧
          (∀ x, x ≠ t → (node_at g x).marked = (node_at h x).marked))
        (fun _ _ _ => True)
        (fun i S g a' kid r' hKi hJ hkids hmk hlt hr' hnode => by
          obtain ⟨J1, J2, J3, J4, J5, J6⟩ := hJ
          have hev := do_name_tree_map_evolves fn fuel kid g a' r' hr'
          have hi : i < (node_at h t).Kids.length := by
            by_contra hn
            rw [List.getElem?_eq_none (by omega)] at hKi
            cases hKi
          have hdrop : (node_at h t).Kids.drop i = kid :: (node_at h t).Kids.drop (i + 1) := by
            rw [List.drop_eq_getElem_cons hi]
            rw [List.getElem?_eq_getElem hi] at hKi
            injection hKi with hKi
            rw [hKi]
          have hkidK : kid ∈ (node_at h t).Kids := mem_of_getElem?_eq_some _ i kid hKi
          have hmemK : ∀ j k, k ∈ (node_at h t).Kids.drop j → k ∈ (node_at h t).Kids :=
            fun j k hk => List.mem_of_mem_drop hk
          have key : ∀ b', r'.res = .ok b' →
              (∀ x, x ≠ t → untouched h r'.heap x ∨
                (reach h t x ∧ pruned P h r'.heap x ∧ settled P r'.heap x)) ∧
              (∀ k, k ∈ (node_at h t).Kids.drop i → settled P r'.heap k) ∧
              (∀ k, k ∈ (node_at h t).Kids.drop (i + 1) → live r'.heap k = live g k) ∧
              (∀ x k, k ∈ (node_at r'.heap x).Kids → k ∈ (node_at h x).Kids) ∧
              (∀ x, x ≠ t → (node_at r'.heap x).marked = (node_at h x).marked) := by
            intro b' hb'
            have hreach : ∀ y, reach g kid y → reach h t y := fun y hy =>
              Relation.ReflTransGen.head hkidK (reach_mono h g J5 kid y hy)
            have hun' : ∀ y, reach g kid y → (node_at g y).marked = false := by
              intro y hy
              have hyt : y ≠ t := by
                rintro rfl
                exact (hKt kid hkidK).2 (reach_mono h g J5 kid y hy)
              rw [J6 y hyt]
              exact hun y (hreach y hy)
            obtain ⟨i1, -, i3⟩ := ih kid g a' r' b' hr' hb' hun'
            refine ⟨fun x hx => node_state_trans P h g r'.heap (fun y => reach h t y)
              (fun y => reach g kid y) hreach hev i1 x (J1 x hx), fun k hk => ?_, fun k hk => ?_,
              fun x k hk => J5 x k (heap_evolves_kids g r'.heap hev x k hk),
              fun x hx => by rw [(hev.2 x).1, J6 x hx]⟩
            · rw [hdrop, List.mem_cons] at hk
              rcases hk with rfl | hk
              · exact i3
              · exact (settled_stable P g r'.heap _ i1 k (J3 k hk)).2
            · exact live_untouched g r'.heap k
                (settled_stable P g r'.heap _ i1 k (J3 k hk)).1
          refine ⟨fun _ _ => trivial, fun hres => ?_, fun hres => ?_⟩
          · obtain ⟨N1, N3, N4, N5, N6⟩ := key true hres
            have hlk : live r'.heap kid = false := by
              rw [live_of_flag fn fuel kid g a' r' true hr' hres]; rfl
            have hlen : t < r'.heap.length := by rw [hev.1]; exact hlt
            have hsame : ∀ y, y ≠ t → untouched r'.heap
                (set_kids r'.heap t ((node_at h t).Kids.take i ++ S)) y := by
              intro y hy
              rw [untouched, node_at_set_kids, if_neg (fun hc => hy hc.1.symm)]
              exact ⟨rfl, rfl⟩
            have hS : S = ((node_at h t).Kids.drop (i + 1)).filter (live r'.heap) := by
              rw [J4]
              apply List.filter_congr
              intro k hk
              rw [N4 k hk]
            refine ⟨fun x hx => node_state_modify P h r'.heap _ t hsame x hx
              (hback r'.heap N5 x hx) (N1 x hx), by rw [names_set_kids, hnode, J2],
              fun k hk => ?_, ?_, fun x k hk => ?_, fun x hx => ?_⟩
            · have hkK := hKt k (hmemK i k hk)
              exact settled_off P r'.heap _ t hsame k
                (fun hc => hkK.2 (reach_mono h r'.heap N5 k t hc)) (N3 k hk)
            · rw [hdrop, List.filter_cons, live_untouched r'.heap _ kid
                (hsame kid (hKt kid hkidK).1), hlk]
              simp only [Bool.false_eq_true, if_false]
              refine hS.trans (List.filter_congr (fun k hk => ?_))
              rw [live_untouched r'.heap _ k (hsame k (hKt k (hmemK (i + 1) k hk)).1)]
            · rw [kids_set_kids] at hk
              split at hk
              · rename_i hc
                obtain ⟨rfl, -⟩ := hc
                rw [List.mem_append] at hk
                rcases hk with hk | hk
                · exact List.mem_of_mem_take hk
                · rw [J4] at hk
                  exact hmemK (i + 1) k (List.mem_of_mem_filter hk)
              · exact N5 x k hk
            · rw [node_at_set_kids, if_neg (fun hc => hx hc.1.symm)]
              exact N6 x hx
          · obtain ⟨N1, N3, N4, N5, N6⟩ := key false hres
            have hlk : live r'.heap kid = true := by
              rw [live_of_flag fn fuel kid g a' r' false hr' hres]; rfl
            refine ⟨N1, by rw [hnode, J2], N3, ?_, N5, N6⟩
            rw [hdrop, List.filter_cons, hlk]
            simp only [if_true]
            rw [J4]
            congr 1
            apply List.filter_congr
            intro k hk
            rw [N4 k hk])
        (pdf_mark_obj h t) a (kids_mark h t t) (by simp [node_at_mark, ht]) (by simpa using ht)
        ⟨fun x _ => Or.inl ⟨names_mark h t x, kids_mark h t x⟩, names_mark h t t,
          fun k hk => by simp at hk, by simp,
          fun x k hk => by rw [kids_mark] at hk; exact hk,
          fun x hx => by rw [node_at_mark, if_neg (fun hc => hx hc.1.symm)]⟩
        g a' (.ok n) hloop
      obtain ⟨S, ⟨J1, J2, J3, J4, J5, J6⟩, hkidsS, -, hmk, hlt⟩ := hks.2 n rfl
      simp only [List.drop_zero] at J3 J4
      have hnl := names_loop_filtering fn P hfn t ((node_at g t).Names.length / 2)
        (node_at g t).Names [] ((node_at g t).Names.length : Int) a' (by omega)
      rw [List.append_nil, List.append_nil] at hnl
      rw [hheap, hnl]
      have hsame : ∀ y, y ≠ t → untouched g
          (pdf_unmark_obj (set_names g t (filter_pairs P (node_at g t).Names)) t) y := by
        intro y hy
        rw [untouched, node_at_finish, if_neg (fun hc => hy hc.1.symm)]
        exact ⟨rfl, rfl⟩
      have hlive : ∀ k, k ∈ (node_at h t).Kids → live
          (pdf_unmark_obj (set_names g t (filter_pairs P (node_at g t).Names)) t) k =
            live g k :=
        fun k hk => live_untouched g _ k (hsame k (hKt k hk).1)
      have hpr : pruned P h
          (pdf_unmark_obj (set_names g t (filter_pairs P (node_at g t).Names)) t) t := by
        refine ⟨by rw [names_finish, if_pos ⟨rfl, hlt⟩, J2], ?_⟩
        rw [kids_finish, hkidsS, J4]
        apply List.filter_congr
        intro k hk
        rw [hlive k hk]
      have hst : settled P
          (pdf_unmark_obj (set_names g t (filter_pairs P (node_at g t).Names)) t) t := by
        refine settled.node t ?_ ?_ ?_
        · rw [names_finish, if_pos ⟨rfl, hlt⟩]
          exact fun p hp => filter_pairs_clean P _ p hp
        · intro k hk
          rw [kids_finish, hkidsS, J4, List.mem_filter] at hk
          rw [hlive k hk.1]
          exact hk.2
        · intro k hk
          rw [kids_finish, hkidsS, J4, List.mem_filter] at hk
          exact settled_off P g _ t hsame k
            (fun hc => (hKt k hk.1).2 (reach_mono h g J5 k t hc)) (J3 k hk.1)
      refine ⟨fun x => ?_, hpr, hst⟩
      by_cases hx : x = t
      · subst hx
        exact Or.inr ⟨Relation.ReflTransGen.refl, hpr, hst⟩
      · exact node_state_modify P h g _ t hsame x hx (hback g J5 x hx) (J1 x hx)
    · rw [do_name_tree_map_null fn fuel t h a (by omega)] at hr
      injection hr with hr
      subst hr
      have hn := node_at_of_le h t (by omega)
      have hl : live h t = false := by
        rw [live_eq_false, hn]
        exact ⟨rfl, rfl⟩
      refine ⟨fun x => Or.inl (untouched_refl h x), ⟨?_, ?_⟩, settled_empty P h t hl⟩
      · rw [hn]; rfl
      · rw [hn]; rfl

theorem filtering_reach (P : pdf_obj → pdf_obj → Bool) (h f : List Node) (t : Nat)
    (hall : ∀ x, untouched h f x ∨ (reach h t x ∧ pruned P h f x ∧ settled P f x))
    (hp : pruned P h f t) (hs : settled P f t) (x : Nat) (hx : reach h t x) :
    pruned P h f x ∧ settled P f x := by
  induction hx with
  | refl => exact ⟨hp, hs⟩
  | @tail y z _ hbc ih =>
    have hsz : settled P f z := by
      cases hl : live f z with
      | false => exact settled_empty P f z hl
      | true =>
        have hz : z ∈ (node_at f y).Kids := by
          rw [ih.1.2, List.mem_filter]
          exact ⟨hbc, hl⟩
        cases ih.2 with
        | node _ _ _ hk => exact hk z hz
    rcases hall z with hu | ⟨-, hpz, -⟩
    · exact ⟨pruned_of_untouched P h f z hu hsz, hsz⟩
    · exact ⟨hpz, hsz⟩

theorem settled_live_iff (P : pdf_obj → pdf_obj → Bool) (g : List Node) (x : Nat)
    (hs : settled P g x) :
    live g x = true ↔ ∃ y, reach g x y ∧ (node_at g y).Names ≠ [] := by
  constructor
  · intro hl
    induction hs with
    | node x _ hlk _ ih =>
      by_cases hn : (node_at g x).Names = []
      · cases hk : (node_at g x).Kids with
        | nil =>
          have : live g x = false := (live_eq_false g x).2 ⟨hk, hn⟩
          rw [this] at hl
          cases hl
        | cons k ks =>
          have hmem : k ∈ (node_at g x).Kids := by rw [hk]; exact List.mem_cons_self _ _
          obtain ⟨y, hy, hyn⟩ := ih k hmem (hlk k hmem)
          exact ⟨y, Relation.ReflTransGen.head hmem hy, hyn⟩
      · exact ⟨x, Relation.ReflTransGen.refl, hn⟩
  · rintro ⟨y, hy, hyn⟩
    cases hl : live g x with
    | true => rfl
    | false =>
      rw [live_eq_false] at hl
      rcases Relation.ReflTransGen.cases_head hy with heq | ⟨k, hk, -⟩
      · subst heq
        exact absurd hl.2 hyn
      · have hk' : k ∈ (node_at g x).Kids := hk
        rw [hl.1] at hk'
        cases hk'

theorem own_pairs_pruned (P : pdf_obj → pdf_obj → Bool) (h f : List Node) (x : Nat)
    (hp : pruned P h f x) :
    own_pairs x (node_at f x) = (own_pairs x (node_at h x)).filter (fun p => !P p.1 p.2) := by
  unfold own_pairs
  rw [hp.1, pairs_of_filter_pairs]

/-- The leaf pairs after the traversal are the leaf pairs before it without those that satisfy
`P`, below every node that is pruned together with everything below it. -/
theorem leaf_pairs_pruned (P : pdf_obj → pdf_obj → Bool) (h f : List Node) (t : Nat)
    (hall : ∀ x, reach h t x → pruned P h f x) (d x : Nat) (l : List (pdf_obj × pdf_obj))
    (hx : reach h t x) (hw : walk_gen own_pairs d h x = some l) :
    walk_gen own_pairs d f x = some (l.filter (fun p => !P p.1 p.2)) := by
  induction d generalizing x l with
  | zero => simp [walk_gen] at hw
  | succ d ih =>
    obtain ⟨lk, h1, rfl⟩ := (walk_gen_succ own_pairs d h x l).1 hw
    have hp := hall x hx
    rw [walk_gen_succ, own_pairs_pruned P h f x hp, hp.2, List.filter_append]
    refine ⟨lk.filter (fun p => !P p.1 p.2), ?_, rfl⟩
    have hkids : ∀ k, k ∈ (node_at h x).Kids → reach h t k :=
      fun k hk => Relation.ReflTransGen.tail hx hk
    clear hw
    generalize (node_at h x).Kids = ks at h1 hkids
    induction ks generalizing lk with
    | nil =>
      simp only [walk_kids, Option.some.injEq] at h1
      subst h1
      rfl
    | cons k ks ihk =>
      obtain ⟨a, b, ha, hb, rfl⟩ := (walk_kids_cons _ k ks lk).1 h1
      have hka := ih k a (hkids k (List.mem_cons_self _ _)) ha
      have hkb := ihk b hb (fun k' hk' => hkids k' (List.mem_cons_of_mem _ hk'))
      rw [List.filter_append, List.filter_cons]
      cases hl : live f k with
      | true =>
        simp only [if_true]
        exact (walk_kids_cons _ k _ _).2 ⟨_, _, hka, hkb, rfl⟩
      | false =>
        simp only [Bool.false_eq_true, if_false]
        rw [live_eq_false] at hl
        have hempty : walk_gen own_pairs d f k = some [] := by
          cases d with
          | zero => simp [walk_gen] at ha
          | succ d =>
            rw [walk_gen_leaf own_pairs d f k hl.1]
            unfold own_pairs
            rw [hl.2]
            rfl
        rw [hempty] at hka
        injection hka with hka
        rw [← hka]
        exact hkb

/-! ## The walk of the nodes and trees -/

theorem reach_cases (h : List Node) (t x : Nat) :
    reach h t x ↔ x = t ∨ ∃ k, k ∈ (node_at h t).Kids ∧ reach h k x := by
  constructor
  · intro hr
    rcases Relation.ReflTransGen.cases_head hr with heq | ⟨k, hk, hkx⟩
    · exact Or.inl heq.symm
    · exact Or.inr ⟨k, hk, hkx⟩
  · rintro (rfl | ⟨k, hk, hkx⟩)
    · exact Relation.ReflTransGen.refl
    · exact Relation.ReflTransGen.head hk hkx

theorem tree_acyclic (h : List Node) (t : Nat) (ht : tree h t) : acyclic h t := by
  induction ht with
  | node t _ _ ih => exact acyclic.node t ih

theorem tree_two_leaves : tree doc_two_leaves.heap 0 := by
  have hleaf : ∀ k, k = 1 ∨ k = 2 → ∀ x, reach doc_two_leaves.heap k x → x = k := by
    intro k hk x hx
    rcases (reach_cases _ k x).1 hx with heq | ⟨k', hk', -⟩
    · exact heq
    · rcases hk with rfl | rfl <;> simp [node_at, doc_two_leaves] at hk'
  refine tree.node 0 ?_ (fun k hk => ?_)
  · show List.Pairwise _ [1, 2]
    refine List.Pairwise.cons (fun k' hk' x hx hx' => ?_) (List.pairwise_singleton _ _)
    simp only [List.mem_singleton] at hk'
    subst hk'
    have e1 := hleaf 1 (Or.inl rfl) x hx
    have e2 := hleaf 2 (Or.inr rfl) x hx'
    omega
  · have hk' : k = 1 ∨ k = 2 := by simpa [node_at, doc_two_leaves] using hk
    rcases hk' with rfl | rfl <;>
      exact tree.node _ (by simp [node_at, doc_two_leaves])
        (fun k hk => by simp [node_at, doc_two_leaves] at hk)

/-! ## Counting the entries of an index with shared nodes -/

theorem loop_rel_append {σ : Type} (fn : pdf_name_tree_map_fn σ) (t : Nat)
    (l l' m m' : List pdf_obj) (h1 : loop_rel fn t l l') (h2 : loop_rel fn t m m') :
    loop_rel fn t (l ++ m) (l' ++ m') := by
  induction h1 with
  | nil => exact h2
  | keep k v a l l' hf _ ih => exact loop_rel.keep k v a _ _ hf ih
  | drop k v a l l' hf _ ih => exact loop_rel.drop k v a _ _ hf ih

theorem loop_rel_even {σ : Type} (fn : pdf_name_tree_map_fn σ) (t : Nat)
    (l l' : List pdf_obj) (h1 : loop_rel fn t l l') :
    l.length % 2 = 0 ∧ l'.length % 2 = 0 := by
  induction h1 with
  | nil => exact ⟨rfl, rfl⟩
  | keep k v a l l' _ _ ih =>
    simp only [List.length_cons]
    omega
  | drop k v a l l' _ _ ih =>
    simp only [List.length_cons]
    omega

theorem loop_rel_deciding {σ : Type} (fn : pdf_name_tree_map_fn σ)
    (P : pdf_obj → pdf_obj → Bool) (hfn : deciding P fn) (t : Nat)
    (l l' : List pdf_obj) (h1 : loop_rel fn t l l') :
    List.Forall₂ (left_by fn) ((pairs_of l).filter (fun p => !P p.1 p.2)) (pairs_of l') := by
  induction h1 with
  | nil => exact List.Forall₂.nil
  | keep k v a l l' hf _ ih =>
    rw [hfn] at hf
    simp only [pairs_of, List.filter_cons, hf, Bool.not_false, if_true]
    exact List.Forall₂.cons ⟨rfl, t, a, rfl⟩ ih
  | drop k v a l l' hf _ ih =>
    rw [hfn] at hf
    simp only [pairs_of, List.filter_cons, hf, Bool.not_true, Bool.false_eq_true, if_false]
    exact ih

/-- The loop on `Names`, over the part `pre` of the array that it runs over. -/
theorem names_loop_rel {σ : Type} (fn : pdf_name_tree_map_fn σ) (t c : Nat)
    (pre suf : List pdf_obj) (m : Int) (a : σ) (hc : pre.length = 2 * c) :
    ∃ pre', (names_loop fn t c (pre ++ suf) m a).1 = pre' ++ suf ∧ loop_rel fn t pre pre' := by
  induction c generalizing pre suf m a with
  | zero =>
    have : pre = [] := List.length_eq_zero.1 (by omega)
    subst this
    exact ⟨[], rfl, loop_rel.nil⟩
  | succ c ih =>
    obtain ⟨pre0, k, v, rfl, hl⟩ := list_snoc_two pre c hc
    have hk : pdf_array_get (pre0 ++ [k, v] ++ suf) (2 * c) = k := by
      unfold pdf_array_get
      rw [List.append_assoc, List.getElem?_append_right (by omega)]
      simp [hl]
    have hv : pdf_array_get (pre0 ++ [k, v] ++ suf) (2 * c + 1) = v := by
      unfold pdf_array_get
      rw [List.append_assoc, List.getElem?_append_right (by omega)]
      simp [hl]
    have hset : ∀ w, (pre0 ++ [k, v] ++ suf).set (2 * c + 1) w = pre0 ++ [k, w] ++ suf := by
      intro w
      rw [List.append_assoc, List.append_assoc, List.set_append_right _ _ (by omega)]
      simp [hl]
    unfold names_loop
    simp only [hk, hv, hset]
    by_cases hp : (fn t k v a).1 = true
    · have herase : ((pre0 ++ [k, (fn t k v a).2.1] ++ suf).eraseIdx (2 * c + 1)).eraseIdx
          (2 * c) = pre0 ++ suf := by
        rw [List.append_assoc, List.eraseIdx_append_of_length_le (by omega),
          List.eraseIdx_append_of_length_le (by omega)]
        simp [hl]
      simp only [hp, if_true, herase]
      obtain ⟨pre', e1, e2⟩ := ih pre0 suf (m - 2) (fn t k v a).2.2 hl
      refine ⟨pre', e1, ?_⟩
      have := loop_rel_append fn t _ _ _ _ e2 (loop_rel.drop k v a [] [] hp loop_rel.nil)
      simpa using this
    · have hp' : (fn t k v a).1 = false := by simpa using hp
      simp only [hp', Bool.false_eq_true, if_false]
      rw [List.append_assoc]
      obtain ⟨pre', e1, e2⟩ := ih pre0 ([k, (fn t k v a).2.1] ++ suf) m (fn t k v a).2.2 hl
      refine ⟨pre' ++ [k, (fn t k v a).2.1], by rw [e1, List.append_assoc], ?_⟩
      exact loop_rel_append fn t _ _ _ _ e2 (loop_rel.keep k v a [] [] hp' loop_rel.nil)

/-- The loop on `Names` over a whole array of even length. -/
theorem names_loop_rel_all {σ : Type} (fn : pdf_name_tree_map_fn σ) (t : Nat)
    (arr : List pdf_obj) (m : Int) (a : σ) (he : arr.length % 2 = 0) :
    loop_rel fn t arr (names_loop fn t (arr.length / 2) arr m a).1 := by
  obtain ⟨pre', e1, e2⟩ := names_loop_rel fn t (arr.length / 2) arr [] m a (by omega)
  rw [List.append_nil, List.append_nil] at e1
  rw [e1]
  exact e2

/-! ## Visitors that remove by a predicate, on a tree -/

theorem reach_congr (h g : List Node) (t : Nat)
    (hk : ∀ y, reach h t y → (node_at g y).Kids = (node_at h y).Kids) (x : Nat) :
    reach g t x ↔ reach h t x := by
  constructor
  · intro hx
    induction hx with
    | refl => exact Relation.ReflTransGen.refl
    | tail _ hbc ih =>
      refine Relation.ReflTransGen.tail ih ?_
      unfold kid_of at hbc ⊢
      rw [← hk _ ih]
      exact hbc
  · intro hx
    induction hx with
    | refl => exact Relation.ReflTransGen.refl
    | tail hab hbc ih =>
      refine Relation.ReflTransGen.tail ih ?_
      unfold kid_of at hbc ⊢
      rw [hk _ hab]
      exact hbc

theorem tree_congr (h g : List Node) (t : Nat) (ht : tree h t)
    (hk : ∀ y, reach h t y → (node_at g y).Kids = (node_at h y).Kids) : tree g t := by
  induction ht with
  | node t hp _ ih =>
    have hkt := hk t Relation.ReflTransGen.refl
    have hsub : ∀ k, k ∈ (node_at h t).Kids →
        ∀ y, reach h k y → (node_at g y).Kids = (node_at h y).Kids :=
      fun k hk1 y hy => hk y (Relation.ReflTransGen.head hk1 hy)
    refine tree.node t ?_ (fun k hkk => ?_)
    · rw [hkt]
      refine List.Pairwise.imp_of_mem ?_ hp
      intro k k' hk1 hk2 hR x hx hx'
      exact hR x ((reach_congr h g k (hsub k hk1) x).1 hx)
        ((reach_congr h g k' (hsub k' hk2) x).1 hx')
    · rw [hkt] at hkk
      exact ih k hkk (hsub k hkk)

theorem pruned_by_of_untouched_left {σ : Type} (fn : pdf_name_tree_map_fn σ)
    (P : pdf_obj → pdf_obj → Bool) (h g g' : List Node) (x : Nat) (hu : untouched h g x)
    (hp : pruned_by fn P g g' x) : pruned_by fn P h g' x := by
  unfold pruned_by at hp ⊢
  rw [← hu.1, ← hu.2]
  exact hp

theorem pruned_by_modify {σ : Type} (fn : pdf_name_tree_map_fn σ)
    (P : pdf_obj → pdf_obj → Bool) (h g g' : List Node) (x : Nat) (hp : pruned_by fn P h g x)
    (hu : untouched g g' x) (hl : ∀ k, k ∈ (node_at h x).Kids → live g' k = live g k) :
    pruned_by fn P h g' x := by
  obtain ⟨p1, p2, p3⟩ := hp
  refine ⟨by rw [hu.1]; exact p1, by rw [hu.1]; exact p2, ?_⟩
  rw [hu.2, p3]
  exact List.filter_congr (fun k hk => (hl k hk).symm)

/-- A traversal of a tree with a visitor that removes by `P`, when it returns normally: the
nodes that are not below `t` are as before, and every node below `t` is without the pairs that
satisfy `P` and without the children in which nothing is left. -/
theorem do_name_tree_map_deciding {σ : Type} (fn : pdf_name_tree_map_fn σ)
    (P : pdf_obj → pdf_obj → Bool) (hfn : deciding P fn) (fuel t : Nat) (h : List Node)
    (a : σ) (r : MapResult σ) (b : Bool)
    (hr : do_name_tree_map fn fuel t h a = some r) (hok : r.res = .ok b)
    (htree : tree h t) (hun : ∀ x, reach h t x → (node_at h x).marked = false) :
    (∀ x, ¬ reach h t x → untouched h r.heap x) ∧
      (∀ x, reach h t x → pruned_by fn P h r.heap x) := by
  induction fuel generalizing t h a r b with
  | zero => simp [do_name_tree_map] at hr
  | succ fuel ih =>
    by_cases ht : t < h.length
    · have hac : acyclic h t := tree_acyclic h t htree
      obtain ⟨hm, g, a', n, hloop, heven, hheap, -, -⟩ :=
        do_name_tree_map_ok_inv fn fuel t h a r b hr hok
      have hKt : ∀ k, k ∈ (node_at h t).Kids → k ≠ t ∧ ¬ reach h k t := by
        intro k hk
        have hr1 : reach h t k := Relation.ReflTransGen.single hk
        have hne : k ≠ t := by
          rintro rfl
          exact acyclic_not_descendant h k hac (Relation.TransGen.single hk)
        exact ⟨hne, acyclic_no_back h t k hac hr1 hne⟩
      have hnot : ∀ x, reach h t x → x ≠ t → t ∉ (node_at h x).Kids :=
        fun x hx hxt hc => acyclic_no_back h t x hac hx hxt (Relation.ReflTransGen.single hc)
      cases htree with
      | node _ hp hkt =>
      have hks := kids_loop_survivors (do_name_tree_map fn fuel) t (node_at h t).Kids
        (fun kid g a r hr => do_name_tree_map_evolves fn fuel kid g a r hr)
        (fun i S g _ =>
          (∀ x, x ≠ t → (∃ k, k ∈ (node_at h t).Kids.drop i ∧ reach h k x) →
            pruned_by fn P h g x) ∧
          (∀ x, x ≠ t → ¬ (∃ k, k ∈ (node_at h t).Kids.drop i ∧ reach h k x) →
            untouched h g x) ∧
          (node_at g t).Names = (node_at h t).Names ∧
          S = ((node_at h t).Kids.drop i).filter (live g) ∧
          (∀ x, x ≠ t → (node_at g x).marked = (node_at h x).marked))
        (fun _ _ _ => True)
        (fun i S g a' kid r' hKi hJ hkids hmk hlt hr' hnode => by
          obtain ⟨J1, J1', J2, J4, J6⟩ := hJ
          have hev := do_name_tree_map_evolves fn fuel kid g a' r' hr'
          have hi : i < (node_at h t).Kids.length := by
            by_contra hn
            rw [List.getElem?_eq_none (by omega)] at hKi
            cases hKi
          have hdrop : (node_at h t).Kids.drop i = kid :: (node_at h t).Kids.drop (i + 1) := by
            rw [List.drop_eq_getElem_cons hi]
            rw [List.getElem?_eq_getElem hi] at hKi
            injection hKi with hKi
            rw [hKi]
          have hkidK : kid ∈ (node_at h t).Kids := mem_of_getElem?_eq_some _ i kid hKi
          have hmemK : ∀ j k, k ∈ (node_at h t).Kids.drop j → k ∈ (node_at h t).Kids :=
            fun j k hk => List.mem_of_mem_drop hk
          have hpd := List.Pairwise.sublist (List.drop_sublist i (node_at h t).Kids) hp
          rw [hdrop, List.pairwise_cons] at hpd
          have hdisj : ∀ k, k ∈ (node_at h t).Kids.drop (i + 1) →
              ∀ x, reach h kid x → ¬ reach h k x := hpd.1
          have hsub : ∀ x, reach h kid x → untouched h g x := by
            intro x hx
            refine J1' x ?_ ?_
            · rintro rfl
              exact (hKt kid hkidK).2 hx
            · rintro ⟨k, hk, hkx⟩
              exact hdisj k hk x hx hkx
          have hrc : ∀ x, reach g kid x ↔ reach h kid x :=
            reach_congr h g kid (fun y hy => (hsub y hy).2)
          have htk : tree g kid :=
            tree_congr h g kid (hkt kid hkidK) (fun y hy => (hsub y hy).2)
          have hun' : ∀ y, reach g kid y → (node_at g y).marked = false := by
            intro y hy
            have hy' := (hrc y).1 hy
            have hyt : y ≠ t := by
              rintro rfl
              exact (hKt kid hkidK).2 hy'
            rw [J6 y hyt]
            exact hun y (Relation.ReflTransGen.head hkidK hy')
          have key : ∀ b', r'.res = .ok b' →
              (∀ x, x ≠ t → (∃ k, k ∈ (node_at h t).Kids.drop i ∧ reach h k x) →
                pruned_by fn P h r'.heap x) ∧
              (∀ x, x ≠ t → ¬ (∃ k, k ∈ (node_at h t).Kids.drop i ∧ reach h k x) →
                untouched h r'.heap x) ∧
              (∀ k, k ∈ (node_at h t).Kids.drop (i + 1) → live r'.heap k = live g k) ∧
              (∀ x, x ≠ t → (node_at r'.heap x).marked = (node_at h x).marked) := by
            intro b' hb'
            obtain ⟨i1, i2⟩ := ih kid g a' r' b' hr' hb' htk hun'
            have hout : ∀ x, ¬ reach h kid x → untouched g r'.heap x :=
              fun x hx => i1 x (fun hc => hx ((hrc x).1 hc))
            refine ⟨fun x hxt hex => ?_, fun x hxt hex => ?_, fun k hk => ?_,
              fun x hx => by rw [(hev.2 x).1, J6 x hx]⟩
            · by_cases hx : reach h kid x
              · exact pruned_by_of_untouched_left fn P h g r'.heap x (hsub x hx)
                  (i2 x ((hrc x).2 hx))
              · have hex' : ∃ k, k ∈ (node_at h t).Kids.drop (i + 1) ∧ reach h k x := by
                  obtain ⟨k, hk, hkx⟩ := hex
                  rw [hdrop, List.mem_cons] at hk
                  rcases hk with rfl | hk
                  · exact absurd hkx hx
                  · exact ⟨k, hk, hkx⟩
                obtain ⟨k, hk, hkx⟩ := hex'
                refine pruned_by_modify fn P h g r'.heap x (J1 x hxt ⟨k, hk, hkx⟩) (hout x hx)
                  (fun k' hk' => ?_)
                exact live_untouched g r'.heap k' (hout k' (fun hc =>
                  hdisj k hk k' hc (Relation.ReflTransGen.tail hkx hk')))
            · have h1 : ¬ reach h kid x := fun hc =>
                hex ⟨kid, by rw [hdrop]; exact List.mem_cons_self _ _, hc⟩
              have h2 : ¬ ∃ k, k ∈ (node_at h t).Kids.drop (i + 1) ∧ reach h k x := by
                rintro ⟨k, hk, hkx⟩
                exact hex ⟨k, by rw [hdrop]; exact List.mem_cons_of_mem _ hk, hkx⟩
              have u1 := J1' x hxt h2
              have u2 := hout x h1
              exact ⟨u2.1.trans u1.1, u2.2.trans u1.2⟩
            · exact live_untouched g r'.heap k (hout k (fun hc =>
                hdisj k hk k hc Relation.ReflTransGen.refl))
          refine ⟨fun _ _ => trivial, fun hres => ?_, fun hres => ?_⟩
          · obtain ⟨N1, N1', N4, N6⟩ := key true hres
            have hlk : live r'.heap kid = false := by
              rw [live_of_flag fn fuel kid g a' r' true hr' hres]; rfl
            have hsame : ∀ y, y ≠ t → untouched r'.heap
                (set_kids r'.heap t ((node_at h t).Kids.take i ++ S)) y := by
              intro y hy
              rw [untouched, node_at_set_kids, if_neg (fun hc => hy hc.1.symm)]
              exact ⟨rfl, rfl⟩
            have hS : S = ((node_at h t).Kids.drop (i + 1)).filter (live r'.heap) := by
              rw [J4]
              apply List.filter_congr
              intro k hk
              rw [N4 k hk]
            refine ⟨fun x hxt hex => ?_, fun x hxt hex => ?_, by rw [names_set_kids, hnode, J2],
              ?_, fun x hx => ?_⟩
            · refine pruned_by_modify fn P h r'.heap _ x (N1 x hxt hex) (hsame x hxt)
                (fun k hk => ?_)
              obtain ⟨k0, hk0, hk0x⟩ := hex
              have hx : reach h t x := Relation.ReflTransGen.head (hmemK i k0 hk0) hk0x
              exact live_untouched r'.heap _ k (hsame k (fun hkt' => hnot x hx hxt (hkt' ▸ hk)))
            · have u1 := N1' x hxt hex
              have u2 := hsame x hxt
              exact ⟨u2.1.trans u1.1, u2.2.trans u1.2⟩
            · rw [hdrop, List.filter_cons, live_untouched r'.heap _ kid
                (hsame kid (hKt kid hkidK).1), hlk]
              simp only [Bool.false_eq_true, if_false]
              refine hS.trans (List.filter_congr (fun k hk => ?_))
              rw [live_untouched r'.heap _ k (hsame k (hKt k (hmemK (i + 1) k hk)).1)]
            · rw [node_at_set_kids, if_neg (fun hc => hx hc.1.symm)]
              exact N6 x hx
          · obtain ⟨N1, N1', N4, N6⟩ := key false hres
            have hlk : live r'.heap kid = true := by
              rw [live_of_flag fn fuel kid g a' r' false hr' hres]; rfl
            refine ⟨N1, N1', by rw [hnode, J2], ?_, N6⟩
            rw [hdrop, List.filter_cons, hlk]
            simp only [if_true]
            rw [J4]
            congr 1
            apply List.filter_congr
            intro k hk
            rw [N4 k hk])
        (pdf_mark_obj h t) a (kids_mark h t t) (by simp [node_at_mark, ht]) (by simpa using ht)
        ⟨fun x _ hex => by simp at hex, fun x _ _ => ⟨names_mark h t x, kids_mark h t x⟩,
          names_mark h t t, by simp,
          fun x hx => by rw [node_at_mark, if_neg (fun hc => hx hc.1.symm)]⟩
        g a' (.ok n) hloop
      obtain ⟨S, ⟨J1, J1', J2, J4, J6⟩, hkidsS, -, hmk, hlt⟩ := hks.2 n rfl
      simp only [List.drop_zero] at J1 J1' J4
      have hrel := names_loop_rel_all fn t (node_at g t).Names
        ((node_at g t).Names.length : Int) a' heven
      rw [hheap]
      generalize (names_loop fn t ((node_at g t).Names.length / 2) (node_at g t).Names
        ((node_at g t).Names.length : Int) a').1 = ns at hrel
      have hsame : ∀ y, y ≠ t → untouched g (pdf_unmark_obj (set_names g t ns) t) y := by
        intro y hy
        rw [untouched, node_at_finish, if_neg (fun hc => hy hc.1.symm)]
        exact ⟨rfl, rfl⟩
      refine ⟨fun x hx => ?_, fun x hx => ?_⟩
      · have hxt : x ≠ t := by
          rintro rfl
          exact hx Relation.ReflTransGen.refl
        have u1 := J1' x hxt (by
          rintro ⟨k, hk, hkx⟩
          exact hx (Relation.ReflTransGen.head hk hkx))
        have u2 := hsame x hxt
        exact ⟨u2.1.trans u1.1, u2.2.trans u1.2⟩
      · by_cases hxt : x = t
        · rw [hxt]
          refine ⟨?_, ?_, ?_⟩
          · rw [names_finish, if_pos ⟨rfl, hlt⟩, ← J2]
            exact loop_rel_deciding fn P hfn t _ _ hrel
          · rw [names_finish, if_pos ⟨rfl, hlt⟩]
            exact (loop_rel_even fn t _ _ hrel).2
          · rw [kids_finish, hkidsS, J4]
            apply List.filter_congr
            intro k hk
            rw [live_untouched g _ k (hsame k (hKt k hk).1)]
        · rcases (reach_cases h t x).1 hx with heq | ⟨k, hk, hkx⟩
          · exact absurd heq hxt
          · refine pruned_by_modify fn P h g _ x (J1 x hxt ⟨k, hk, hkx⟩) (hsame x hxt)
              (fun k' hk' => ?_)
            exact live_untouched g _ k' (hsame k' (fun hkt' => hnot x hx hxt (hkt' ▸ hk')))
    · rw [do_name_tree_map_null fn fuel t h a (by omega)] at hr
      injection hr with hr
      subst hr
      have hn := node_at_of_le h t (by omega)
      refine ⟨fun x _ => untouched_refl h x, fun x hx => ?_⟩
      have hxt : x = t := by
        rcases (reach_cases h t x).1 hx with heq | ⟨k, hk, -⟩
        · exact heq
        · rw [hn] at hk
          cases hk
      rw [hxt]
      unfold pruned_by
      rw [hn]
      exact ⟨List.Forall₂.nil, rfl, rfl⟩

/-! ## The pairs and the children that a removing visitor leaves -/

/-- The leaf pairs after a traversal, below a node under which every node has lost the pairs
that satisfy `P`, the pairs that are left being related by `ρ` to those before, and the
children in which nothing is left. -/
theorem leaf_pairs_pruned_rel (ρ : pdf_obj × pdf_obj → pdf_obj × pdf_obj → Prop)
    (P : pdf_obj → pdf_obj → Bool) (h f : List Node) (t : Nat)
    (hall : ∀ x, reach h t x →
      List.Forall₂ ρ ((pairs_of (node_at h x).Names).filter (fun p => !P p.1 p.2))
        (pairs_of (node_at f x).Names) ∧
      (node_at f x).Kids = (node_at h x).Kids.filter (live f)) (d x : Nat)
    (l : List (pdf_obj × pdf_obj)) (hx : reach h t x)
    (hw : walk_gen own_pairs d h x = some l) :
    ∃ l', walk_gen own_pairs d f x = some l' ∧
      List.Forall₂ ρ (l.filter (fun p => !P p.1 p.2)) l' := by
  induction d generalizing x l with
  | zero => simp [walk_gen] at hw
  | succ d ih =>
    obtain ⟨lk, h1, rfl⟩ := (walk_gen_succ own_pairs d h x l).1 hw
    obtain ⟨p1, p3⟩ := hall x hx
    have hkids : ∀ k, k ∈ (node_at h x).Kids → reach h t k :=
      fun k hk => Relation.ReflTransGen.tail hx hk
    have hin : ∃ lk', walk_kids (walk_gen own_pairs d f)
        ((node_at h x).Kids.filter (live f)) = some lk' ∧
        List.Forall₂ ρ (lk.filter (fun p => !P p.1 p.2)) lk' := by
      clear hw p3
      generalize (node_at h x).Kids = ks at h1 hkids
      induction ks generalizing lk with
      | nil =>
        simp only [walk_kids, Option.some.injEq] at h1
        subst h1
        exact ⟨[], rfl, List.Forall₂.nil⟩
      | cons k ks ihk =>
        obtain ⟨a, b, ha, hb, rfl⟩ := (walk_kids_cons _ k ks lk).1 h1
        obtain ⟨a', ha', hfa⟩ := ih k a (hkids k (List.mem_cons_self _ _)) ha
        obtain ⟨b', hb', hfb⟩ := ihk b hb (fun k' hk' => hkids k' (List.mem_cons_of_mem _ hk'))
        rw [List.filter_append, List.filter_cons]
        cases hl : live f k with
        | true =>
          simp only [if_true]
          exact ⟨a' ++ b', (walk_kids_cons _ k _ _).2 ⟨_, _, ha', hb', rfl⟩,
            List.rel_append hfa hfb⟩
        | false =>
          simp only [Bool.false_eq_true, if_false]
          rw [live_eq_false] at hl
          have hempty : walk_gen own_pairs d f k = some [] := by
            cases d with
            | zero => simp [walk_gen] at ha
            | succ d =>
              rw [walk_gen_leaf own_pairs d f k hl.1]
              unfold own_pairs
              rw [hl.2]
              rfl
          rw [hempty] at ha'
          injection ha' with ha'
          subst ha'
          have hnil : a.filter (fun p => !P p.1 p.2) = [] := List.forall₂_nil_right_iff.1 hfa
          refine ⟨b', hb', ?_⟩
          rw [hnil]
          exact hfb
    obtain ⟨lk', hlk', hfk⟩ := hin
    refine ⟨_, (walk_gen_succ own_pairs d f x _).2 ⟨lk', by rw [p3]; exact hlk', rfl⟩, ?_⟩
    rw [List.filter_append]
    exact List.rel_append p1 hfk

theorem settled_of_kids_live (h g : List Node) (x : Nat) (hac : acyclic h x)
    (hk : ∀ y, reach h x y → (node_at g y).Kids = (node_at h y).Kids.filter (live g)) :
    settled (fun _ _ => false) g x := by
  induction hac with
  | node x _ ih =>
    have hx := hk x Relation.ReflTransGen.refl
    refine settled.node x (fun _ _ => rfl) (fun k hkk => ?_) (fun k hkk => ?_)
    · rw [hx, List.mem_filter] at hkk
      exact hkk.2
    · rw [hx, List.mem_filter] at hkk
      exact ih k hkk.1 (fun y hy => hk y (Relation.ReflTransGen.head hkk.1 hy))

theorem deciding_delete_from_node : deciding (fun _ _ => false) delete_from_node :=
  fun _ _ _ _ => rfl

theorem deciding_remove_key_and_clean (s : String) :
    deciding (key_is s) (remove_key_and_clean s) :=
  fun _ _ _ _ => rfl

/-! ## The nodes that a failing traversal has come to -/

theorem left_after_facts {σ : Type} (fn : pdf_name_tree_map_fn σ)
    (P : pdf_obj → pdf_obj → Bool) (hst : steady P fn) (p q : pdf_obj × pdf_obj)
    (h : left_after fn p q) : q.1 = p.1 ∧ P q.1 q.2 = P p.1 p.2 := by
  induction h with
  | refl => exact ⟨rfl, rfl⟩
  | tail _ hbc ih =>
    obtain ⟨e1, c, a, e2⟩ := hbc
    refine ⟨e1.trans ih.1, ?_⟩
    rw [e1, e2, hst, ih.2]

theorem rel_filter {α : Type} (ρ : α → α → Prop) (f : α → Bool)
    (hf : ∀ p q, ρ p q → f p = f q) (a b : List α) (h : List.Forall₂ ρ a b) :
    List.Forall₂ ρ (a.filter f) (b.filter f) := by
  induction h with
  | nil => exact List.Forall₂.nil
  | cons hab _ ih =>
    rw [List.filter_cons, List.filter_cons, ← hf _ _ hab]
    split
    · exact List.Forall₂.cons hab ih
    · exact ih

theorem left_after_step {σ : Type} (fn : pdf_name_tree_map_fn σ)
    (a b c : List (pdf_obj × pdf_obj)) (h1 : List.Forall₂ (left_after fn) a b)
    (h2 : List.Forall₂ (left_by fn) b c) : List.Forall₂ (left_after fn) a c := by
  induction h1 generalizing c with
  | nil =>
    cases h2
    exact List.Forall₂.nil
  | cons hab _ ih =>
    cases h2 with
    | cons hbc h2' => exact List.Forall₂.cons (Relation.ReflTransGen.tail hab hbc) (ih _ h2')

theorem follows_refl {σ : Type} (fn : pdf_name_tree_map_fn σ) (g : List Node) :
    follows fn g g :=
  ⟨rfl, fun _ => ⟨rfl, rfl, rfl, List.forall₂_same.2 (fun _ _ => Relation.ReflTransGen.refl)⟩⟩

theorem follows_mark {σ : Type} (fn : pdf_name_tree_map_fn σ) (g0 g : List Node) (t : Nat)
    (h : follows fn g0 g) : follows fn (pdf_mark_obj g0 t) (pdf_mark_obj g t) := by
  obtain ⟨hl, hx⟩ := h
  refine ⟨by simpa [pdf_mark_obj] using hl, fun x => ?_⟩
  rw [node_at_mark, node_at_mark, hl]
  by_cases hc : t = x ∧ t < g0.length
  · rw [if_pos hc, if_pos hc]
    exact ⟨(hx t).1, rfl, (hx t).2.2.1, (hx t).2.2.2⟩
  · rw [if_neg hc, if_neg hc]
    exact hx x

theorem follows_unmark {σ : Type} (fn : pdf_name_tree_map_fn σ) (g0 g : List Node) (t : Nat)
    (h : follows fn g0 g) : follows fn (pdf_unmark_obj g0 t) (pdf_unmark_obj g t) := by
  obtain ⟨hl, hx⟩ := h
  refine ⟨by simpa [pdf_unmark_obj] using hl, fun x => ?_⟩
  rw [node_at_unmark, node_at_unmark, hl]
  by_cases hc : t = x ∧ t < g0.length
  · rw [if_pos hc, if_pos hc]
    exact ⟨(hx t).1, rfl, (hx t).2.2.1, (hx t).2.2.2⟩
  · rw [if_neg hc, if_neg hc]
    exact hx x

theorem follows_set_kids {σ : Type} (fn : pdf_name_tree_map_fn σ) (g0 g : List Node) (t : Nat)
    (ks : List Nat) (h : follows fn g0 g) : follows fn (set_kids g0 t ks) (set_kids g t ks) := by
  obtain ⟨hl, hx⟩ := h
  refine ⟨by simpa using hl, fun x => ?_⟩
  rw [node_at_set_kids, node_at_set_kids, hl]
  by_cases hc : t = x ∧ t < g0.length
  · rw [if_pos hc, if_pos hc]
    exact ⟨rfl, (hx t).2.1, (hx t).2.2.1, (hx t).2.2.2⟩
  · rw [if_neg hc, if_neg hc]
    exact hx x

theorem follows_set_names {σ : Type} (fn : pdf_name_tree_map_fn σ) (g0 g : List Node) (t : Nat)
    (ns0 ns : List pdf_obj) (h : follows fn g0 g) (hlen : ns.length = ns0.length)
    (hp : List.Forall₂ (left_after fn) (pairs_of ns0) (pairs_of ns)) :
    follows fn (set_names g0 t ns0) (set_names g t ns) := by
  obtain ⟨hl, hx⟩ := h
  refine ⟨by simpa using hl, fun x => ?_⟩
  rw [node_at_set_names, node_at_set_names, hl]
  by_cases hc : t = x ∧ t < g0.length
  · rw [if_pos hc, if_pos hc]
    exact ⟨(hx t).1, (hx t).2.1, hlen, hp⟩
  · rw [if_neg hc, if_neg hc]
    exact hx x

/-- The loop on `Kids` run on two heaps that a relation holds between, with calls that keep the
relation and end the same way: the loops end the same way and the relation holds at the
end. -/
theorem kids_loop_follows {σ τ : Type} (call : Nat → List Node → σ → Option (MapResult σ))
    (call0 : Nat → List Node → τ → Option (MapResult τ)) (t : Nat)
    (Rel : List Node → List Node → Prop)
    (hkids : ∀ g0 g, Rel g0 g → (node_at g t).Kids = (node_at g0 t).Kids)
    (hcall : ∀ kid g0 g a a0 r, Rel g0 g → call kid g a = some r →
      ∃ r0, call0 kid g0 a0 = some r0 ∧ Rel r0.heap r.heap ∧ r0.res = r.res)
    (herase : ∀ g0 g ks, Rel g0 g → Rel (set_kids g0 t ks) (set_kids g t ks))
    (i : Nat) (n : Int) (g0 g : List Node) (a : σ) (a0 : τ) (g' : List Node) (a' : σ)
    (res : Except fz_error Int) (hR : Rel g0 g)
    (hrun : kids_loop call t i n g a = some (g', a', res)) :
    ∃ g0' a0', kids_loop call0 t i n g0 a0 = some (g0', a0', res) ∧ Rel g0' g' := by
  induction i generalizing n g0 g a a0 with
  | zero =>
    simp only [kids_loop, Option.some.injEq, Prod.mk.injEq] at hrun
    obtain ⟨rfl, rfl, rfl⟩ := hrun
    exact ⟨g0, a0, rfl, hR⟩
  | succ i ih =>
    unfold kids_loop at hrun ⊢
    rw [← hkids g0 g hR]
    split at hrun
    · rename_i hk
      exact ih _ _ _ _ _ hR hrun
    · rename_i kid hk
      split at hrun
      · exact absurd hrun (by simp)
      · rename_i r hr
        obtain ⟨r0, hr0, hRr, hres⟩ := hcall kid g0 g a a0 r hR hr
        simp only [hr0, hres]
        split at hrun
        · rename_i e he
          simp only [Option.some.injEq, Prod.mk.injEq] at hrun
          obtain ⟨rfl, rfl, rfl⟩ := hrun
          exact ⟨r0.heap, r0.arg, rfl, hRr⟩
        · rename_i he
          rw [hkids r0.heap r.heap hRr] at hrun
          exact ih _ _ _ _ _ (herase _ _ _ hRr) hrun
        · rename_i he
          exact ih _ _ _ _ _ hRr hrun

theorem do_name_tree_map_marked {σ : Type} (fn : pdf_name_tree_map_fn σ) (fuel t : Nat)
    (h : List Node) (a : σ) (hm : is_marked h t = true) :
    do_name_tree_map fn (fuel + 1) t h a = some ⟨h, a, .error .RecursiveStructure⟩ := by
  unfold do_name_tree_map
  simp [hm]

theorem do_name_tree_map_loop_error {σ : Type} (fn : pdf_name_tree_map_fn σ) (fuel t : Nat)
    (h : List Node) (a : σ) (g : List Node) (a' : σ) (e : fz_error)
    (hm : is_marked h t = false)
    (hloop : kids_loop (do_name_tree_map fn fuel) t (node_at (pdf_mark_obj h t) t).Kids.length
      ((node_at (pdf_mark_obj h t) t).Kids.length : Int) (pdf_mark_obj h t) a
        = some (g, a', .error e)) :
    do_name_tree_map fn (fuel + 1) t h a = some ⟨pdf_unmark_obj g t, a', .error e⟩ := by
  unfold do_name_tree_map
  simp [hm, hloop]

theorem do_name_tree_map_odd {σ : Type} (fn : pdf_name_tree_map_fn σ) (fuel t : Nat)
    (h : List Node) (a : σ) (g : List Node) (a' : σ) (n : Int)
    (hm : is_marked h t = false)
    (hloop : kids_loop (do_name_tree_map fn fuel) t (node_at (pdf_mark_obj h t) t).Kids.length
      ((node_at (pdf_mark_obj h t) t).Kids.length : Int) (pdf_mark_obj h t) a
        = some (g, a', .ok n))
    (hodd : (node_at g t).Names.length % 2 = 1) :
    do_name_tree_map fn (fuel + 1) t h a =
      some ⟨pdf_unmark_obj g t, a', .error .MalformedInput⟩ := by
  unfold do_name_tree_map
  simp [hm, hloop, hodd]

theorem do_name_tree_map_even {σ : Type} (fn : pdf_name_tree_map_fn σ) (fuel t : Nat)
    (h : List Node) (a : σ) (g : List Node) (a' : σ) (n : Int)
    (hm : is_marked h t = false)
    (hloop : kids_loop (do_name_tree_map fn fuel) t (node_at (pdf_mark_obj h t) t).Kids.length
      ((node_at (pdf_mark_obj h t) t).Kids.length : Int) (pdf_mark_obj h t) a
        = some (g, a', .ok n))
    (heven : (node_at g t).Names.length % 2 = 0) :
    do_name_tree_map fn (fuel + 1) t h a =
      some ⟨pdf_unmark_obj (set_names g t
          (names_loop fn t ((node_at g t).Names.length / 2) (node_at g t).Names
            ((node_at g t).Names.length : Int) a').1) t,
        (names_loop fn t ((node_at g t).Names.length / 2) (node_at g t).Names
            ((node_at g t).Names.length : Int) a').2.2,
        .ok (n == 0 && (names_loop fn t ((node_at g t).Names.length / 2)
            (node_at g t).Names ((node_at g t).Names.length : Int) a').2.1 == 0)⟩ := by
  unfold do_name_tree_map
  simp [hm, hloop, heven]

theorem filtering_sieve (P : pdf_obj → pdf_obj → Bool) : filtering P (sieve P) :=
  fun _ _ _ _ => ⟨rfl, rfl⟩

/-- A traversal with a visitor that decides by `P` and whose changes of the value objects do
not change the decision runs as the traversal with the visitor that only removes by `P`: the
calls end the same way, on heaps that are the same up to the value objects. -/
theorem do_name_tree_map_follows {σ : Type} (fn : pdf_name_tree_map_fn σ)
    (P : pdf_obj → pdf_obj → Bool) (hfn : deciding P fn) (hst : steady P fn) (fuel t : Nat)
    (g0 g : List Node) (a : σ) (r : MapResult σ) (hf : follows fn g0 g)
    (hr : do_name_tree_map fn fuel t g a = some r) :
    ∃ r0, do_name_tree_map (sieve P) fuel t g0 () = some r0 ∧ follows fn r0.heap r.heap ∧
      r0.res = r.res := by
  induction fuel generalizing t g0 g a r with
  | zero => simp [do_name_tree_map] at hr
  | succ fuel ih =>
    have hmk : is_marked g0 t = is_marked g t := by
      unfold is_marked
      rw [(hf.2 t).2.1]
    rcases do_name_tree_map_succ fn fuel t g a r hr with ⟨hm, rfl⟩ | ⟨hm, g', a', res, hloop, hc⟩
    · exact ⟨_, do_name_tree_map_marked (sieve P) fuel t g0 () (hmk.trans hm), hf, rfl⟩
    · have hm0 : is_marked g0 t = false := hmk.trans hm
      have hfm := follows_mark fn g0 g t hf
      obtain ⟨g0', a0', hloop0, hR'⟩ := kids_loop_follows (do_name_tree_map fn fuel)
        (do_name_tree_map (sieve P) fuel) t (follows fn) (fun g0 g h => (h.2 t).1)
        (fun kid g0 g a _ r hR hcall => ih kid g0 g a r hR hcall)
        (fun g0 g ks h => follows_set_kids fn g0 g t ks h)
        _ _ (pdf_mark_obj g0 t) (pdf_mark_obj g t) a () g' a' res hfm hloop
      rw [(hfm.2 t).1] at hloop0
      have hlen : (node_at g' t).Names.length = (node_at g0' t).Names.length := (hR'.2 t).2.2.1
      rcases hc with ⟨e', rfl, rfl⟩ | ⟨n, rfl, hodd, rfl⟩ | ⟨n, rfl, heven, rfl⟩
      · exact ⟨_, do_name_tree_map_loop_error (sieve P) fuel t g0 () g0' a0' e' hm0 hloop0,
          follows_unmark fn g0' g' t hR', rfl⟩
      · exact ⟨_, do_name_tree_map_odd (sieve P) fuel t g0 () g0' a0' n hm0 hloop0
          (by rw [← hlen]; exact hodd), follows_unmark fn g0' g' t hR', rfl⟩
      · have heven0 : (node_at g0' t).Names.length % 2 = 0 := by rw [← hlen]; exact heven
        have hrel := names_loop_rel_all fn t (node_at g' t).Names
          ((node_at g' t).Names.length : Int) a' heven
        have hdec := loop_rel_deciding fn P hfn t _ _ hrel
        have hs0 := names_loop_filtering (sieve P) P (filtering_sieve P) t
          ((node_at g0' t).Names.length / 2) (node_at g0' t).Names []
          ((node_at g0' t).Names.length : Int) a0' (by omega)
        rw [List.append_nil, List.append_nil] at hs0
        have hp0 := names_loop_length (sieve P) t ((node_at g0' t).Names.length / 2)
          (node_at g0' t).Names ((node_at g0' t).Names.length : Int) a0' (by omega)
        have hc1 := names_loop_counter fn t ((node_at g' t).Names.length / 2)
          (node_at g' t).Names ((node_at g' t).Names.length : Int) a' (by omega)
        have hc0 := names_loop_counter (sieve P) t ((node_at g0' t).Names.length / 2)
          (node_at g0' t).Names ((node_at g0' t).Names.length : Int) a0' (by omega)
        have hpairs : List.Forall₂ (left_after fn)
            (pairs_of (names_loop (sieve P) t ((node_at g0' t).Names.length / 2)
              (node_at g0' t).Names ((node_at g0' t).Names.length : Int) a0').1)
            (pairs_of (names_loop fn t ((node_at g' t).Names.length / 2)
              (node_at g' t).Names ((node_at g' t).Names.length : Int) a').1) := by
          rw [hs0, pairs_of_filter_pairs]
          refine left_after_step fn _ _ _ (rel_filter _ _ (fun p q hpq => ?_) _ _
            (hR'.2 t).2.2.2) hdec
          simp only [(left_after_facts fn P hst p q hpq).2]
        have hl2 := hpairs.length_eq
        rw [pairs_of_length, pairs_of_length] at hl2
        have hlens : (names_loop fn t ((node_at g' t).Names.length / 2)
              (node_at g' t).Names ((node_at g' t).Names.length : Int) a').1.length =
            (names_loop (sieve P) t ((node_at g0' t).Names.length / 2)
              (node_at g0' t).Names ((node_at g0' t).Names.length : Int) a0').1.length := by
          have h1 := (loop_rel_even fn t _ _ hrel).2
          have h2 := hp0.1
          omega
        refine ⟨_, do_name_tree_map_even (sieve P) fuel t g0 () g0' a0' n hm0 hloop0 heven0,
          follows_unmark fn _ _ t (follows_set_names fn g0' g' t _ _ hR' hlens hpairs), ?_⟩
        have hmm : (names_loop (sieve P) t ((node_at g0' t).Names.length / 2)
              (node_at g0' t).Names ((node_at g0' t).Names.length : Int) a0').2.1 =
            (names_loop fn t ((node_at g' t).Names.length / 2)
              (node_at g' t).Names ((node_at g' t).Names.length : Int) a').2.1 := by
          omega
        simp only [hmm]

/-! ## The traversal with a visitor that removes by a predicate -/

theorem live_follows {σ : Type} (fn : pdf_name_tree_map_fn σ) (g0 g : List Node) (k : Nat)
    (h : follows fn g0 g) : live g k = live g0 k := by
  obtain ⟨h1, -, h3, -⟩ := h.2 k
  unfold live
  rw [h1]
  congr 2
  cases hn : (node_at g k).Names with
  | nil =>
    rw [hn] at h3
    rw [List.length_eq_zero.1 h3.symm]
  | cons x xs =>
    rw [hn] at h3
    cases hn0 : (node_at g0 k).Names with
    | nil =>
      rw [hn0] at h3
      simp at h3
    | cons y ys => rfl

/-- C19: for every heap in which the graph below `t` is acyclic with pair sequences of even
length (no node marked) and every visitor that decides the removal of a pair by a predicate
`P` on its key and value, whatever it does to the value object, when the graph below `t` is a
tree (no node is reached along two paths), or, for a graph with shared nodes, when what the
visitor does to a value object does not change the decision `P` on the pair (so for every
visitor that never removes and for every visitor that leaves the value objects as they are):
`pdf_name_tree_map` returns normally; the depth first, left to right sequence of the leaf pairs
below `t` is the sequence before the call without the pairs that satisfy `P`, pair for pair in
the same order, each with its key and with its value object as calls of the visitor leave it:
as one call leaves it on a tree, and unchanged with a visitor that leaves the value objects as
they are; so is the pair sequence of every node below `t`; the `Kids` array of every node
below `t` keeps, in order, exactly the children that still have a child or a pair, and a node
has a child or a pair exactly when some pair is left below it; the call returns 1 exactly when
nothing is left in `t`. With a visitor that never removes no pair is taken out. -/
theorem traverse_filters_and_prunes {σ : Type} (fn : pdf_name_tree_map_fn σ)
    (P : pdf_obj → pdf_obj → Bool) (h : List Node) (t : Nat) (a : σ) (hfn : deciding P fn)
    (hwf : well_formed h t) (hun : ∀ x, reach h t x → (node_at h x).marked = false)
    (hshape : tree h t ∨ ∀ c k v a, P k (fn c k v a).2.1 = P k v) :
    ∃ r b, pdf_name_tree_map fn t h a = some r ∧ r.res = .ok b ∧
      (∃ d l, leaf_pairs d h t = some l) ∧
      (∀ d l, leaf_pairs d h t = some l → ∃ l', leaf_pairs d r.heap t = some l' ∧
        List.Forall₂ (left_after fn) (l.filter (fun p => !P p.1 p.2)) l' ∧
        (tree h t → List.Forall₂ (left_by fn) (l.filter (fun p => !P p.1 p.2)) l') ∧
        ((∀ c k v a, (fn c k v a).2.1 = v) → l' = l.filter (fun p => !P p.1 p.2)) ∧
        ((∀ k v, P k v = false) → l.filter (fun p => !P p.1 p.2) = l)) ∧
      (∀ x, reach h t x →
        List.Forall₂ (left_after fn)
          ((pairs_of (node_at h x).Names).filter (fun p => !P p.1 p.2))
          (pairs_of (node_at r.heap x).Names) ∧
        (tree h t → List.Forall₂ (left_by fn)
          ((pairs_of (node_at h x).Names).filter (fun p => !P p.1 p.2))
          (pairs_of (node_at r.heap x).Names)) ∧
        ((∀ c k v a, (fn c k v a).2.1 = v) →
          (node_at r.heap x).Names = filter_pairs P (node_at h x).Names) ∧
        (node_at r.heap x).Names.length % 2 = 0 ∧
        (node_at r.heap x).Kids = (node_at h x).Kids.filter (live r.heap) ∧
        (live r.heap x = true ↔ ∃ y, reach r.heap x y ∧ (node_at r.heap y).Names ≠ [])) ∧
      (b = true ↔ live r.heap t = false) := by
  obtain ⟨r, hr⟩ := pdf_name_tree_map_total fn t h a
  obtain ⟨b, hb⟩ := do_name_tree_map_ok fn _ t h a r hwf hun hr
  have hev := do_name_tree_map_evolves fn _ t h a r hr
  have hac := well_formed_acyclic h t hwf
  have heven : ∀ x, reach h t x → (node_at r.heap x).Names.length % 2 = 0 := by
    intro x hx
    rw [(hev.2 x).2.2.2.1]
    exact well_formed_even h x (well_formed_reach h t x hwf hx)
  have hold : (∀ c k v a, (fn c k v a).2.1 = v) →
      ∀ x, reach h t x → pruned P h r.heap x := by
    intro hv
    have hfil : filtering P fn := fun c k v a => ⟨hfn c k v a, hv c k v a⟩
    obtain ⟨m1, m2, m3⟩ := do_name_tree_map_filtering fn P hfil _ t h a r b hr hb hun
    exact fun x hx => (filtering_reach P h r.heap t m1 m2 m3 x hx).1
  have htree : tree h t → ∀ x, reach h t x → pruned_by fn P h r.heap x :=
    fun ht => (do_name_tree_map_deciding fn P hfn _ t h a r b hr hb ht hun).2
  have hgen : ∀ x, reach h t x →
      List.Forall₂ (left_after fn)
        ((pairs_of (node_at h x).Names).filter (fun p => !P p.1 p.2))
        (pairs_of (node_at r.heap x).Names) ∧
      (node_at r.heap x).Kids = (node_at h x).Kids.filter (live r.heap) := by
    rcases hshape with ht | hst
    · intro x hx
      obtain ⟨p1, -, p3⟩ := htree ht x hx
      exact ⟨p1.imp (fun _ _ hpq => Relation.ReflTransGen.single hpq), p3⟩
    · obtain ⟨r0, hr0, hfol, hres⟩ := do_name_tree_map_follows fn P hfn hst _ t h h a r
        (follows_refl fn h) hr
      obtain ⟨m1, m2, m3⟩ := do_name_tree_map_filtering (sieve P) P (filtering_sieve P) _ t h
        () r0 b hr0 (hres.trans hb) hun
      intro x hx
      obtain ⟨q1, q2⟩ := (filtering_reach P h r0.heap t m1 m2 m3 x hx).1
      obtain ⟨f1, -, -, f4⟩ := hfol.2 x
      refine ⟨?_, ?_⟩
      · rw [q1, pairs_of_filter_pairs] at f4
        exact f4
      · rw [f1, q2]
        exact List.filter_congr (fun k _ => (live_follows fn r0.heap r.heap k hfol).symm)
  refine ⟨r, b, hr, hb, walk_gen_exists own_pairs h t hac, fun d l hl => ?_, fun x hx => ?_, ?_⟩
  · obtain ⟨l', h1, h2⟩ := leaf_pairs_pruned_rel (left_after fn) P h r.heap t hgen d t l
      Relation.ReflTransGen.refl hl
    refine ⟨l', h1, h2, fun ht => ?_, fun hv => ?_, fun hP => ?_⟩
    · obtain ⟨l2, e1, e2⟩ := leaf_pairs_pruned_rel (left_by fn) P h r.heap t
        (fun x hx => ⟨(htree ht x hx).1, (htree ht x hx).2.2⟩) d t l
        Relation.ReflTransGen.refl hl
      have e3 : walk_gen own_pairs d r.heap t = some l' := h1
      rw [e1] at e3
      injection e3 with e3
      rw [← e3]
      exact e2
    · have e1 := leaf_pairs_pruned P h r.heap t (hold hv) d t l Relation.ReflTransGen.refl hl
      have e3 : walk_gen own_pairs d r.heap t = some l' := h1
      rw [e1] at e3
      injection e3 with e3
      exact e3.symm
    · exact List.filter_eq_self.2 (fun p _ => by simp [hP])
  · obtain ⟨p1, p3⟩ := hgen x hx
    refine ⟨p1, fun ht => (htree ht x hx).1, fun hv => (hold hv x hx).1, heven x hx, p3,
      settled_live_iff _ r.heap x
        (settled_of_kids_live h r.heap x (acyclic_reach h t x hac hx)
          (fun y hy => (hgen y (hx.trans hy)).2))⟩
  · rw [live_of_flag fn _ t h a r b hr hb]
    cases b <;> simp

/-- C19 (witness): the index of `doc_two_leaves`, a tree, traversed by a visitor that removes
the pairs with the key "a" and takes the key "X" out of the `CI` dictionary of every value
object it is called with: the leaf 1, left without pair, is taken out of the child list of the
root, and the pair "c" of the leaf 2 is left with its value object cleaned. -/
theorem traverse_filters_and_prunes_witness :
    deciding (key_is "a") (remove_key_and_clean "a") ∧ well_formed doc_two_leaves.heap 0 ∧
    (∀ x, reach doc_two_leaves.heap 0 x → (node_at doc_two_leaves.heap x).marked = false) ∧
    (tree doc_two_leaves.heap 0 ∨
      ∀ c k v a, key_is "a" k (remove_key_and_clean "a" c k v a).2.1 = key_is "a" k v) ∧
    (pdf_name_tree_map (remove_key_and_clean "a") 0 doc_two_leaves.heap "X").map
      (fun r => (r.res, (node_at r.heap 0).Kids, (node_at r.heap 1).Names,
        (node_at r.heap 2).Names)) =
      some (.ok false, [2], [],
        [.str "c", .dict { new_filespec "c" "c" [] with CI := some [("Y", .int 3)] }]) ∧
    ∃ r b, pdf_name_tree_map (remove_key_and_clean "a") 0 doc_two_leaves.heap "X" = some r ∧
      r.res = .ok b ∧
      (∃ d l, leaf_pairs d doc_two_leaves.heap 0 = some l) ∧
      (∀ d l, leaf_pairs d doc_two_leaves.heap 0 = some l →
        ∃ l', leaf_pairs d r.heap 0 = some l' ∧
          List.Forall₂ (left_after (remove_key_and_clean "a"))
            (l.filter (fun p => !key_is "a" p.1 p.2)) l' ∧
          (tree doc_two_leaves.heap 0 → List.Forall₂ (left_by (remove_key_and_clean "a"))
            (l.filter (fun p => !key_is "a" p.1 p.2)) l') ∧
          ((∀ c k v a, (remove_key_and_clean "a" c k v a).2.1 = v) →
            l' = l.filter (fun p => !key_is "a" p.1 p.2)) ∧
          ((∀ k v, key_is "a" k v = false) → l.filter (fun p => !key_is "a" p.1 p.2) = l)) ∧
      (∀ x, reach doc_two_leaves.heap 0 x →
        List.Forall₂ (left_after (remove_key_and_clean "a"))
          ((pairs_of (node_at doc_two_leaves.heap x).Names).filter
            (fun p => !key_is "a" p.1 p.2))
          (pairs_of (node_at r.heap x).Names) ∧
        (tree doc_two_leaves.heap 0 → List.Forall₂ (left_by (remove_key_and_clean "a"))
          ((pairs_of (node_at doc_two_leaves.heap x).Names).filter
            (fun p => !key_is "a" p.1 p.2))
          (pairs_of (node_at r.heap x).Names)) ∧
        ((∀ c k v a, (remove_key_and_clean "a" c k v a).2.1 = v) →
          (node_at r.heap x).Names =
            filter_pairs (key_is "a") (node_at doc_two_leaves.heap x).Names) ∧
        (node_at r.heap x).Names.length % 2 = 0 ∧
        (node_at r.heap x).Kids = (node_at doc_two_leaves.heap x).Kids.filter (live r.heap) ∧
        (live r.heap x = true ↔ ∃ y, reach r.heap x y ∧ (node_at r.heap y).Names ≠ [])) ∧
      (b = true ↔ live r.heap 0 = false) :=
  ⟨deciding_remove_key_and_clean "a", (sound_two_leaves 0 rfl).1, (sound_two_leaves 0 rfl).2,
    Or.inl tree_two_leaves, rfl,
    traverse_filters_and_prunes (remove_key_and_clean "a") (key_is "a") doc_two_leaves.heap 0
      "X" (deciding_remove_key_and_clean "a") (sound_two_leaves 0 rfl).1
      (sound_two_leaves 0 rfl).2 (Or.inl tree_two_leaves)⟩

end Portfolio
